import Mathlib

/-!
Package `transpiler` of livebud/transpiler: a shallow embedding and its
verified properties.

The Go package `transpiler` keeps a registry of transform callbacks keyed by
ordered pairs of file extensions, a directed graph of the extensions, and runs
the callbacks along a shortest route of the graph.

Conventions of the embedding:

* a Go `string` is a `String`, read character by character where Go reads
  bytes (the characters `.` and `/` that `filepath.Ext` looks for are single
  bytes); a `[]byte` or `[]string` is a `List` (the nil slice is the empty
  list), a Go `map` is an association list with unique keys (`GoMap`), a Go
  `(value, error)` result is a pair whose second component is `none` for a nil
  error;
* the graph library `github.com/RyanCarrier/dijkstra` is imported, not part of
  the package: its graph and its shortest-path query are modelled from the
  description of the dialect graph, as a breadth-first search over unit arcs.
  Which of several routes of least length the query returns is left open: it
  is a parameter (`TieBreak`) of every call of `Path` and `Transpile`;
* a callback `func(file *File) error` gets a pointer to the file: it reads the
  file, may replace `Data`, and may assign the whole struct (for instance
  `*file = transpiler.File{Data: file.Data}`, which empties the unexported
  `base` and `ext`): it is a function from the file to the file as the
  callback leaves it and the returned error;
* an error value records how it was made; the text that `Error()` renders is
  not modelled;
* the loop of `Transpile` carries a ghost log of the callback invocations, in
  execution order, each with the file as the callback saw it on entry.
-/

namespace transpiler

/-! ## Go values -/

/-- Bytes of a Go byte slice. -/
abbrev Bytes := List UInt8

/-- Go error values: an error variable of a package, known by its qualified
name; a value made by `errors.New(text)`; a value made by
`fmt.Errorf(format, ...)` whose verb `%w` wraps the error `inner` and whose
other verbs take the strings `args`, in their order. -/
inductive Error where
  | sentinel (name : String)
  | new (text : String)
  | errorf (format : String) (args : List String) (inner : Error)
  deriving DecidableEq, Repr

/-- Function `errors.Is`: `err` is `target`, or wraps an error that is. -/
def errorsIs : Error → Error → Bool
  | .sentinel name, target => decide (Error.sentinel name = target)
  | .new text, target => decide (Error.new text = target)
  | .errorf format args inner, target =>
      decide (Error.errorf format args inner = target) || errorsIs inner target

/-- Go map: association list, one entry per key, in order of insertion. -/
abbrev GoMap (κ ν : Type) := List (κ × ν)

/-- Map read with presence flag: `v, ok := m[k]`. -/
def GoMap.get? {κ ν : Type} [DecidableEq κ] : GoMap κ ν → κ → Option ν
  | [], _ => none
  | (k', v) :: m, k => if k' = k then some v else GoMap.get? m k

/-- Map write `m[k] = v`: replaces the entry of `k`, or adds one. -/
def GoMap.set {κ ν : Type} [DecidableEq κ] : GoMap κ ν → κ → ν → GoMap κ ν
  | [], k, v => [(k, v)]
  | (k', v') :: m, k, v =>
      if k' = k then (k, v) :: m else (k', v') :: GoMap.set m k v

/-- Map read `m[k]`, the zero value `d` standing for a missing key. -/
def GoMap.getD {κ ν : Type} [DecidableEq κ] (m : GoMap κ ν) (k : κ) (d : ν) : ν :=
  (GoMap.get? m k).getD d

/-- Builtin `len(m)` of a map. -/
def GoMap.len {κ ν : Type} (m : GoMap κ ν) : Nat := m.length

/-! ## Standard library functions used by `Transpile` -/

/-- Loop of `filepath.Ext`: `n` is `i + 1` for the index `i` of the loop; the
scan goes down from the last byte and stops at a path separator. -/
def extLoop (path : List Char) : Nat → List Char
  | 0 => []
  | i + 1 =>
      if path.getD i ' ' = '/' then []
      else if path.getD i ' ' = '.' then path.drop i
      else extLoop path i

/-- Function `filepath.Ext` (Unix path separator). -/
def filepathExt (path : String) : String :=
  ⟨extLoop path.data path.data.length⟩

/-- Function `strings.HasSuffix`. -/
def stringsHasSuffix (s suffix : String) : Bool :=
  decide (suffix.data.length ≤ s.data.length) &&
    decide (s.data.drop (s.data.length - suffix.data.length) = suffix.data)

/-- Function `strings.TrimSuffix`. -/
def stringsTrimSuffix (s suffix : String) : String :=
  if stringsHasSuffix s suffix then
    ⟨s.data.take (s.data.length - suffix.data.length)⟩
  else s

/-! ## The shortest-path library -/

namespace dijkstra

/-- Modelled from the spec: the sentinel `dijkstra.ErrNoPath` of the imported
graph library, whose source is not part of the package ("the query fails with a
NoPath error"). -/
def ErrNoPath : Error := Error.sentinel "dijkstra.ErrNoPath"

/-- Modelled from the spec: the graph of the imported library, "a directed
graph whose vertices are dialect identifiers" (vertex ids) "and whose edges
(uniform weight) represent a direct transform".  The arcs map an ordered pair
of vertex ids to the distance of the arc. -/
structure Graph where
  verts : List Nat
  arcs : GoMap (Nat × Nat) Nat

/-- Modelled from the spec: result of a shortest-path query, the total
distance and the vertex ids from source to destination. -/
structure BestPath where
  Distance : Nat
  Path : List Nat
  deriving DecidableEq, Repr

/-- Modelled from the spec: `dijkstra.NewGraph`, the graph without vertices. -/
def NewGraph : Graph := ⟨[], []⟩

/-- Modelled from the spec: `AddVertex`, "grows the vertex set; never fails". -/
def Graph.AddVertex (g : Graph) (id : Nat) : Graph :=
  if id ∈ g.verts then g else { g with verts := g.verts ++ [id] }

/-- Modelled from the spec: `AddArc`, "adds a directed unit-weight edge.
Idempotent under repeated calls with the same pair". -/
def Graph.AddArc (g : Graph) (src dst dist : Nat) : Graph :=
  { g with arcs := GoMap.set g.arcs (src, dst) dist }

/-- Vertices that an arc leaves `u` for, in order of insertion of the arcs. -/
def Graph.succs (g : Graph) (u : Nat) : List Nat :=
  (g.arcs.filter (fun a => decide (a.1.1 = u))).map (fun a => a.1.2)

/-- One round of the breadth-first search: every route of the frontier (kept
with its last vertex first) is extended by every arc that leaves its last
vertex for a vertex not visited in an earlier round. -/
def expand (g : Graph) (visited : List Nat) (frontier : List (List Nat)) :
    List (List Nat) :=
  (frontier.map (fun p =>
    match p with
    | [] => []
    | u :: _ =>
        ((g.succs u).filter (fun v => decide (v ∉ visited))).map (fun v => v :: p))).flatten

/-- Modelled from the spec: the tie-break of the shortest-path query, "algorithm
-dependent and unspecified": out of the routes of least length that the search
has found, the query returns one; which one may depend on the whole graph and
may differ from call to call. -/
structure TieBreak where
  pick : Graph → List (List Nat) → Option (List Nat)
  pick_mem : ∀ g l p, pick g l = some p → p ∈ l
  pick_none : ∀ g l, pick g l = none → l = []

/-- The tie-break that returns the first route found. -/
def firstFound : TieBreak where
  pick := fun _ l => l.head?
  pick_mem := by
    intro g l p h
    cases l with
    | nil => cases h
    | cons a l =>
        cases h
        exact List.mem_cons_self _ _
  pick_none := by
    intro g l h
    cases l with
    | nil => rfl
    | cons a l => cases h

/-- A tie-break that looks at the vertex set: the first route found when the
graph has an even number of vertices, the last one otherwise. -/
def byParity : TieBreak where
  pick := fun g l => if g.verts.length % 2 = 0 then l.head? else l.getLast?
  pick_mem := by
    intro g l p h
    dsimp only at h
    split at h
    · cases l with
      | nil => cases h
      | cons a l =>
          cases h
          exact List.mem_cons_self _ _
    · exact List.mem_of_getLast?_eq_some h
  pick_none := by
    intro g l h
    dsimp only at h
    split at h
    · cases l with
      | nil => rfl
      | cons a l => cases h
    · exact List.getLast?_eq_none_iff.1 h

/-- Breadth-first search by rounds: the routes of round `k` have `k` arcs; of
the routes of the first round that reaches `dst`, the one that the tie-break
picks is returned, from source to destination.  The first number bounds the
number of further rounds. -/
def search (tb : TieBreak) (g : Graph) (dst : Nat) :
    Nat → List Nat → List (List Nat) → Option (List Nat)
  | 0, _, frontier =>
      (tb.pick g (frontier.filter (fun p => decide (p.head? = some dst)))).map List.reverse
  | n + 1, visited, frontier =>
      match tb.pick g (frontier.filter (fun p => decide (p.head? = some dst))) with
      | some p => some p.reverse
      | none =>
          search tb g dst n (visited ++ (expand g visited frontier).filterMap List.head?)
            (expand g visited frontier)

/-- Modelled from the spec: `Shortest`, "computes a minimum-hop path using a
single-source shortest-path algorithm (Dijkstra or equivalent) over
non-negative unit weights"; "if either dialect was never registered as a
vertex, or no route exists between two registered vertices, the query fails
with a NoPath error".  A route without a repeated vertex enters a new vertex
with each arc, so it has no more arcs than the graph, which bounds the number
of rounds. -/
def Graph.Shortest (g : Graph) (tb : TieBreak) (src dst : Nat) : Except Error BestPath :=
  if src ∈ g.verts ∧ dst ∈ g.verts then
    match search tb g dst g.arcs.length [src] [[src]] with
    | some p => .ok ⟨p.length - 1, p⟩
    | none => .error ErrNoPath
  else .error ErrNoPath

/-- A route of the graph from `src`, kept with its last vertex first: each
vertex is entered by an arc from the vertex after it in the list. -/
def Graph.Route (g : Graph) (src : Nat) : List Nat → Prop
  | [] => False
  | [v] => v = src
  | v :: u :: rest => v ∈ g.succs u ∧ Graph.Route g src (u :: rest)

/-- The vertex `v` is at the end of a route of `k` arcs from `src`. -/
def Graph.Reach (g : Graph) (src k v : Nat) : Prop :=
  ∃ rest, g.Route src (v :: rest) ∧ rest.length = k

/-- State of the search before round `k + 1`: the frontier holds routes of `k`
arcs, the visited vertices are those within `k` arcs of the source, and a
vertex at `k` arcs that no shorter route reaches ends a route of the
frontier. -/
structure Round (g : Graph) (src k : Nat) (visited : List Nat)
    (frontier : List (List Nat)) : Prop where
  route : ∀ p ∈ frontier, g.Route src p ∧ p.length = k + 1
  seen : ∀ v j, j ≤ k → g.Reach src j v → v ∈ visited
  front : ∀ v, g.Reach src k v →
    (∃ p ∈ frontier, p.head? = some v) ∨ ∃ j, j < k ∧ g.Reach src j v
  sound : ∀ v ∈ visited, ∃ j, j ≤ k ∧ g.Reach src j v

end dijkstra

/-! ## The package -/

/-- The sentinel `ErrNoPath`, "returned when there is no path between two
extensions": the library's sentinel under another name. -/
def ErrNoPath : Error := dijkstra.ErrNoPath

/-- The file being transpiled. -/
structure File where
  base : String
  ext : String
  Data : Bytes
  deriving DecidableEq, Repr

/-- Method `Path`: "the current file path that's being transpiled". -/
def File.Path (f : File) : String := f.base ++ f.ext

/-- A transpile function `func(file *File) error`: the file as the function
leaves it and the returned error (`none` is nil). -/
abbrev Callback := File → File × Option Error

/-- The transpiler: `ids` maps an extension to its vertex id, `exts` a vertex
id to its extension, `fns` an edge key to its transpile functions. -/
structure Transpiler where
  ids : GoMap String Nat
  exts : GoMap Nat String
  fns : GoMap String (List Callback)
  graph : dijkstra.Graph

/-- Constructor `New`. -/
def New : Transpiler :=
  { ids := [], exts := [], fns := [], graph := dijkstra.NewGraph }

/-- Key "for the edge between two extensions". -/
def edgeKey (fromExt toExt : String) : String := fromExt ++ ">" ++ toExt

/-- The first block of `Add`, and with `toExt` its third: an extension that has
no id yet gets the next one and becomes a vertex of the graph. -/
def Transpiler.addExt (t : Transpiler) (e : String) : Transpiler :=
  match GoMap.get? t.ids e with
  | some _ => t
  | none =>
      { t with
        ids := GoMap.set t.ids e (GoMap.len t.ids)
        exts := GoMap.set t.exts (GoMap.len t.ids) e
        graph := t.graph.AddVertex (GoMap.len t.ids) }

/-- Statement `t.fns[edge] = append(t.fns[edge], transpile)`. -/
def Transpiler.appendFn (t : Transpiler) (edge : String) (transpile : Callback) :
    Transpiler :=
  { t with fns := GoMap.set t.fns edge (GoMap.getD t.fns edge [] ++ [transpile]) }

/-- Method `Add`: "Add a tranpile function to go from one extension to
another". -/
def Transpiler.Add (t : Transpiler) (fromExt toExt : String) (transpile : Callback) :
    Transpiler :=
  let t1 := t.addExt fromExt
  let edge := edgeKey fromExt toExt
  if fromExt = toExt then
    t1.appendFn edge transpile
  else
    let t2 := t1.addExt toExt
    let t3 : Transpiler :=
      { t2 with
        graph := t2.graph.AddArc (GoMap.getD t2.ids fromExt 0) (GoMap.getD t2.ids toExt 0) 1 }
    t3.appendFn edge transpile

/-- The error `fmt.Errorf("transpiler: %w from %q to %q", err, fromExt, toExt)`. -/
def errNoPathFromTo (err : Error) (fromExt toExt : String) : Error :=
  Error.errorf "transpiler: %w from %q to %q" [fromExt, toExt] err

/-- The error `fmt.Errorf("transpiler: %w", err)`. -/
def errWrapped (err : Error) : Error :=
  Error.errorf "transpiler: %w" [] err

/-- Method `Path`: "Path to go from one extension to another". -/
def Transpiler.Path (t : Transpiler) (tb : dijkstra.TieBreak) (fromExt toExt : String) :
    List String × Option Error :=
  if fromExt = toExt then ([fromExt], none)
  else if (GoMap.get? t.ids fromExt).isNone then
    ([], some (errNoPathFromTo ErrNoPath fromExt toExt))
  else if (GoMap.get? t.ids toExt).isNone then
    ([], some (errNoPathFromTo ErrNoPath fromExt toExt))
  else
    match t.graph.Shortest tb (GoMap.getD t.ids fromExt 0) (GoMap.getD t.ids toExt 0) with
    | .error err => ([], some (errWrapped err))
    | .ok best => (best.Path.map (fun id => GoMap.getD t.exts id ""), none)

/-- One callback invocation: the function and the file it was given. -/
structure Invocation where
  fn : Callback
  file : File

/-- State of the loop of `Transpile`: the file and the ghost log. -/
structure Exec where
  file : File
  log : List Invocation

/-- Loop `for _, fn := range fns`, with its `return nil, err`: the state
reached and the error that ended the loop, if any. -/
def callAll : List Callback → Exec → Exec × Option Error
  | [], s => (s, none)
  | fn :: rest, s =>
      match (fn s.file).2 with
      | some err => ({ file := (fn s.file).1, log := s.log ++ [⟨fn, s.file⟩] }, some err)
      | none => callAll rest { file := (fn s.file).1, log := s.log ++ [⟨fn, s.file⟩] }

/-- Body of the loop over the hops, at index `i` with `ext = hops[i]`. -/
def hopBody (t : Transpiler) (hops : List String) (i : Nat) (ext : String) (s : Exec) :
    Exec × Option Error :=
  match
    (if 0 < i then
      callAll (GoMap.getD t.fns (edgeKey (hops.getD (i - 1) "") ext) []) s
    else (s, none)) with
  | (s1, some err) => (s1, some err)
  | (s1, none) =>
      callAll (GoMap.getD t.fns (edgeKey ext ext) [])
        { s1 with file := { s1.file with ext := ext } }

/-- Loop `for i, ext := range hops`, over the remaining indexed hops. -/
def hopLoop (t : Transpiler) (hops : List String) :
    List (Nat × String) → Exec → Exec × Option Error
  | [], s => (s, none)
  | (i, ext) :: rest, s =>
      match hopBody t hops i ext s with
      | (s1, some err) => (s1, some err)
      | (s1, none) => hopLoop t hops rest s1

/-- Method `Transpile` with the ghost log: the log of the invocations, then
the results of the Go method. -/
def Transpiler.TranspileLog (t : Transpiler) (tb : dijkstra.TieBreak)
    (fromPath toExt : String) (code : Bytes) :
    List Invocation × (Bytes × Option Error) :=
  match t.Path tb (filepathExt fromPath) toExt with
  | (_, some err) => ([], ([], some err))
  | (hops, none) =>
      match hopLoop t hops hops.enum
          { file :=
              { base := stringsTrimSuffix fromPath (filepathExt fromPath)
                ext := filepathExt fromPath
                Data := code }
            log := [] } with
      | (s, some err) => (s.log, ([], some err))
      | (s, none) => (s.log, (s.file.Data, none))

/-- Method `Transpile`: "Transpile the code from one extension to another". -/
def Transpiler.Transpile (t : Transpiler) (tb : dijkstra.TieBreak)
    (fromPath toExt : String) (code : Bytes) :
    Bytes × Option Error :=
  (t.TranspileLog tb fromPath toExt code).2

/-! ## Registration history and the order of execution -/

/-- One call `t.Add(fromExt, toExt, transpile)`. -/
structure AddCall where
  fromExt : String
  toExt : String
  transpile : Callback

/-- The transpiler reached from `New()` by a sequence of `Add` calls. -/
def build (calls : List AddCall) : Transpiler :=
  calls.foldl (fun t c => t.Add c.fromExt c.toExt c.transpile) New

/-- The callbacks registered for the ordered pair `(a, b)`: the registry list
`t.fns[edgeKey(a, b)]`, in registration order. -/
def Transpiler.lookup (t : Transpiler) (a b : String) : List Callback :=
  GoMap.getD t.fns (edgeKey a b) []

/-- Execution order after the hop `d`: for each further hop `e`, the
transition callbacks of `(d, e)`, then the refinement callbacks of `(e, e)`. -/
def scheduleFrom (t : Transpiler) : String → List String → List Callback
  | _, [] => []
  | d, e :: rest => t.lookup d e ++ t.lookup e e ++ scheduleFrom t e rest

/-- Execution order of a whole route `[d0, ..., dn]`: the refinement callbacks
of `(d0, d0)`, then what follows the hop `d0`. -/
def schedule (t : Transpiler) : List String → List Callback
  | [] => []
  | d :: rest => t.lookup d d ++ scheduleFrom t d rest

/-- Execution order after the hop `d`, each callback with the extension that
the loop has given the file when the callback is called: a transition callback
of `(d, e)` with `d`, a refinement callback of `(e, e)` with `e`. -/
def scheduleExtFrom (t : Transpiler) : String → List String → List (String × Callback)
  | _, [] => []
  | d, e :: rest =>
      (t.lookup d e).map (fun fn => (d, fn)) ++ (t.lookup e e).map (fun fn => (e, fn)) ++
        scheduleExtFrom t e rest

/-- Execution order of a whole route, each callback with the extension that the
loop has given the file when the callback is called. -/
def scheduleExt (t : Transpiler) : List String → List (String × Callback)
  | [] => []
  | d :: rest => (t.lookup d d).map (fun fn => (d, fn)) ++ scheduleExtFrom t d rest

/-- One step of the loop of `Transpile` once the route is known: the statement
`file.ext = ext`, or the call of a callback. -/
inductive Step where
  | setExt (ext : String)
  | call (fn : Callback)

/-- The steps after the hop `d`: for each further hop `e`, the calls of the
transition callbacks of `(d, e)`, the statement `file.ext = e`, the calls of
the refinement callbacks of `(e, e)`. -/
def stepsFrom (t : Transpiler) : String → List String → List Step
  | _, [] => []
  | d, e :: rest =>
      (t.lookup d e).map Step.call ++ Step.setExt e :: (t.lookup e e).map Step.call ++
        stepsFrom t e rest

/-- The steps of a whole route `[d0, ..., dn]`. -/
def steps (t : Transpiler) : List String → List Step
  | [] => []
  | d :: rest => Step.setExt d :: (t.lookup d d).map Step.call ++ stepsFrom t d rest

/-- The file after a sequence of steps in which no callback fails: each
callback gets the file as the step before it left it. -/
def thread : List Step → File → File
  | [], file => file
  | Step.setExt ext :: rest, file => thread rest { file with ext := ext }
  | Step.call fn :: rest, file => thread rest (fn file).1

/-- The invocations of a sequence of steps in which no callback fails. -/
def threadLog : List Step → File → List Invocation
  | [], _ => []
  | Step.setExt ext :: rest, file => threadLog rest { file with ext := ext }
  | Step.call fn :: rest, file => ⟨fn, file⟩ :: threadLog rest (fn file).1

/-- Error that a logged invocation returned. -/
def Invocation.err (inv : Invocation) : Option Error := (inv.fn inv.file).2

/-- The callback of a logged invocation left `base` and `ext` as it found
them. -/
abbrev Invocation.keeps (inv : Invocation) : Prop :=
  (inv.fn inv.file).1.base = inv.file.base ∧ (inv.fn inv.file).1.ext = inv.file.ext

/-- Run of a sequence of steps with the abort rule of `Transpile`: the state
reached, and the error of the callback that failed, if one did. -/
def replay : List Step → Exec → Exec × Option Error
  | [], s => (s, none)
  | Step.setExt ext :: rest, s => replay rest { s with file := { s.file with ext := ext } }
  | Step.call fn :: rest, s =>
      match (fn s.file).2 with
      | some err => ({ file := (fn s.file).1, log := s.log ++ [⟨fn, s.file⟩] }, some err)
      | none => replay rest { file := (fn s.file).1, log := s.log ++ [⟨fn, s.file⟩] }

/-- The file that `Transpile` creates, `&File{base: ..., ext: fromExt, Data: code}`. -/
def sourceFile (fromPath : String) (code : Bytes) : File :=
  { base := stringsTrimSuffix fromPath (filepathExt fromPath)
    ext := filepathExt fromPath
    Data := code }

/-- The callbacks that a sequence of steps calls, in their order. -/
def callbacksOf : List Step → List Callback
  | [] => []
  | Step.setExt _ :: rest => callbacksOf rest
  | Step.call fn :: rest => fn :: callbacksOf rest

/-- The extension that the file has at each call of a sequence of steps when
no callback touches it, each with the callback called; `ext` is the extension
at the start. -/
def nominalOf : List Step → String → List (String × Callback)
  | [], _ => []
  | Step.setExt d :: rest, _ => nominalOf rest d
  | Step.call fn :: rest, ext => (ext, fn) :: nominalOf rest ext

/-! ## Transpilers of the test suite

The callbacks of the tests wrap the data; here a callback puts one byte before
the data and one after it. -/

/-- A callback that wraps the data between the bytes `a` and `b`. -/
def cbWrap (a b : UInt8) : Callback :=
  fun file => ({ file with Data := [a] ++ file.Data ++ [b] }, none)

/-- A callback that fails with the error `err` and leaves the data alone. -/
def cbFail (err : Error) : Callback := fun file => (file, some err)

/-- The callback `*file = transpiler.File{Data: file.Data}; return nil`, which
a package other than `transpiler` may write: it empties `base` and `ext`. -/
def cbReset : Callback := fun file => ({ base := "", ext := "", Data := file.Data }, none)

/-- The registrations of `TestMultiStep`. -/
def callsMultiStep : List AddCall :=
  [⟨".jsx", ".jsx", cbWrap 1 1⟩, ⟨".svelte", ".jsx", cbWrap 2 2⟩,
   ⟨".svelte", ".svelte", cbWrap 3 3⟩, ⟨".svelte", ".svelte", cbWrap 4 4⟩,
   ⟨".md", ".svelte", cbWrap 5 5⟩]

/-- The transpiler of `TestMultiStep`. -/
def testMultiStep : Transpiler := build callsMultiStep

/-- The registrations of `TestNoPath`. -/
def callsNoPath : List AddCall :=
  [⟨".svelte", ".svelte", cbWrap 1 1⟩, ⟨".jsx", ".jsx", cbWrap 2 2⟩]

/-- The transpiler of `TestNoPath`. -/
def testNoPath : Transpiler := build callsNoPath

/-- The registration of `TestNoExt`. -/
def callsNoExt : List AddCall := [⟨".svelte", ".svelte", cbWrap 1 1⟩]

/-- A direct transform from `.svelte` to `.jsx` next to a longer route through
`.html`. -/
def callsDirect : List AddCall :=
  [⟨".svelte", ".html", cbWrap 1 1⟩, ⟨".html", ".jsx", cbWrap 2 2⟩,
   ⟨".svelte", ".jsx", cbWrap 3 3⟩]

/-- Registrations with two routes of two hops from `.a` to `.d`, through `.b`
and through `.c`. -/
def callsDiamond : List AddCall :=
  [⟨".a", ".b", cbWrap 1 1⟩, ⟨".a", ".c", cbWrap 2 2⟩, ⟨".b", ".d", cbWrap 3 3⟩,
   ⟨".c", ".d", cbWrap 4 4⟩]

/-- The registrations of `TestMultiStep`, the second `.svelte` refinement
failing with `boom`. -/
def testAbort : Transpiler :=
  build
    [⟨".jsx", ".jsx", cbWrap 1 1⟩, ⟨".svelte", ".jsx", cbWrap 2 2⟩,
     ⟨".svelte", ".svelte", cbWrap 3 3⟩, ⟨".svelte", ".svelte", cbFail (Error.new "boom")⟩,
     ⟨".md", ".svelte", cbWrap 5 5⟩]

/-- A transpiler whose `.svelte` refinement fails with the sentinel
`ErrNoPath` itself. -/
def testCallbackNoPath : Transpiler :=
  build [⟨".svelte", ".svelte", cbFail ErrNoPath⟩]

/-- Registrations whose first `.svelte` refinement assigns the whole file,
`*file = transpiler.File{Data: file.Data}`. -/
def callsReset : List AddCall :=
  [⟨".svelte", ".svelte", cbReset⟩, ⟨".svelte", ".svelte", cbWrap 1 1⟩,
   ⟨".svelte", ".jsx", cbWrap 2 2⟩]

/-- The dialect `D` is in no call of the history. -/
def neverAdded (calls : List AddCall) (D : String) : Prop :=
  ∀ c ∈ calls, c.fromExt ≠ D ∧ c.toExt ≠ D

/-- The dialect `D` is the source or the target of a call of the history. -/
def appears (calls : List AddCall) (D : String) : Prop :=
  ∃ c ∈ calls, c.fromExt = D ∨ c.toExt = D

/-- A transform from `a` to a different dialect `b` was registered. -/
def Registered (calls : List AddCall) (a b : String) : Prop :=
  a ≠ b ∧ ∃ c ∈ calls, c.fromExt = a ∧ c.toExt = b

/-- A chain of registered distinct-dialect transforms: each dialect of the list
has a registered transform to the next one.  A chain of `n + 1` dialects has
`n` steps. -/
def IsChain (calls : List AddCall) : List String → Prop
  | [] => True
  | [_] => True
  | a :: b :: rest => Registered calls a b ∧ IsChain calls (b :: rest)

/-- A chain from `D1` written with its last dialect first, as the search keeps
its routes. -/
def ChainRev (calls : List AddCall) (D1 : String) : List String → Prop
  | [] => False
  | [v] => v = D1
  | v :: u :: rest => Registered calls u v ∧ ChainRev calls D1 (u :: rest)

/-- The id maps and the vertex set of a transpiler fit together: ids are below
`len(ids)`, two dialects have different ids, `exts` is the inverse of `ids`,
and the vertices are the ids. -/
structure IdInv (t : Transpiler) : Prop where
  ids_lt : ∀ D i, GoMap.get? t.ids D = some i → i < GoMap.len t.ids
  ids_inj : ∀ D D' i, GoMap.get? t.ids D = some i → GoMap.get? t.ids D' = some i → D = D'
  exts_iff : ∀ i D, GoMap.get? t.exts i = some D ↔ GoMap.get? t.ids D = some i
  verts_iff : ∀ i, i ∈ t.graph.verts ↔ i < GoMap.len t.ids

/-- The transpiler `t` records the history `calls`: the dialects with an id
are those of the calls, and the arcs of the graph are the registered
transforms between different dialects. -/
structure Records (calls : List AddCall) (t : Transpiler) : Prop where
  ids : IdInv t
  known : ∀ D, (GoMap.get? t.ids D).isSome ↔ appears calls D
  arcs_of_reg : ∀ a b, Registered calls a b →
    ∃ i j, GoMap.get? t.ids a = some i ∧ GoMap.get? t.ids b = some j ∧
      ∃ d, ((i, j), d) ∈ t.graph.arcs
  reg_of_arcs : ∀ i j d, ((i, j), d) ∈ t.graph.arcs →
    ∃ a b, Registered calls a b ∧ GoMap.get? t.ids a = some i ∧ GoMap.get? t.ids b = some j

/-- Two registrations for different ordered pairs whose edge keys are the same
string `.a>.b>.c`. -/
def callsCollide : List AddCall :=
  [⟨".a", ".b>.c", cbWrap 1 1⟩, ⟨".a>.b", ".c", cbWrap 2 2⟩]

/-- The dialects of a history in the order in which the calls name them: for
each call its 'from' dialect, then its 'to' dialect. -/
def dialectsOf (calls : List AddCall) : List String :=
  (calls.map (fun c => [c.fromExt, c.toExt])).flatten

/-- One more dialect is named: it joins the list when it is new. -/
def seeDialect (seen : List String) (d : String) : List String :=
  if d ∈ seen then seen else seen ++ [d]

/-- The distinct dialects of a list in order of first appearance. -/
def firstSeen (l : List String) : List String :=
  l.foldl seeDialect []

/-- The scan of `filepath.Ext` told on the part of the path not yet read, last
character first, with the part already read behind it. -/
def extRev : List Char → List Char → List Char
  | [], _ => []
  | c :: r, acc =>
      if c = '/' then []
      else if c = '.' then '.' :: acc
      else extRev r (c :: acc)

/-- The final element of a path: what follows its last separator. -/
def finalElement (path : List Char) : List Char :=
  (path.reverse.takeWhile (fun c => decide (c ≠ '/'))).reverse

/-- The suffix of `elem` that starts at its last `.`, or the empty string when
`elem` has no `.`. -/
def fromLastDot (elem : List Char) : List Char :=
  if '.' ∈ elem then '.' :: (elem.reverse.takeWhile (fun c => decide (c ≠ '.'))).reverse
  else []

/-- Registrations with the multi-dot dialect `.ssr.js` as an intermediate hop
and `.min.js` as a target. -/
def callsSsr : List AddCall :=
  [⟨".jsx", ".ssr.js", cbWrap 1 1⟩, ⟨".ssr.js", ".min.js", cbWrap 2 2⟩]

end transpiler

/-! # Properties -/

namespace transpiler

open dijkstra (TieBreak firstFound byParity)

/-! ## The loop of `Transpile` runs the steps of the route -/

theorem callAll_replay (fns : List Callback) (rest : List Step) (s : Exec) :
    replay (fns.map Step.call ++ rest) s =
      match callAll fns s with
      | (s1, some err) => (s1, some err)
      | (s1, none) => replay rest s1 := by
  induction fns generalizing s with
  | nil => simp [callAll]
  | cons fn more ih =>
      simp only [List.map_cons, List.cons_append, replay]
      unfold callAll
      cases hres : (fn s.file).2 with
      | some err => rfl
      | none => exact ih _

theorem hopLoop_replay (t : Transpiler) (suf pre : List String) (prev : String) (s : Exec) :
    hopLoop t (pre ++ prev :: suf) (suf.enumFrom (pre.length + 1)) s =
      replay (stepsFrom t prev suf) s := by
  induction suf generalizing pre prev s with
  | nil => simp [stepsFrom, hopLoop, replay]
  | cons d rest ih =>
      have hget : (pre ++ prev :: d :: rest).getD (pre.length + 1 - 1) "" = prev := by
        simp [List.getD_eq_getElem?_getD, List.getElem_append_right]
      simp only [stepsFrom, List.enumFrom_cons, hopLoop, hopBody, hget,
        Nat.succ_pos, if_true, List.append_assoc]
      rw [callAll_replay]
      have hl : GoMap.getD t.fns (edgeKey prev d) [] = t.lookup prev d := rfl
      rw [hl]
      cases hc : callAll (t.lookup prev d) s with
      | mk s1 e1 =>
        cases e1 with
        | some err => rfl
        | none =>
            simp only [List.cons_append, replay, List.append_eq]
            rw [callAll_replay]
            have hl2 : GoMap.getD t.fns (edgeKey d d) [] = t.lookup d d := rfl
            rw [hl2]
            cases hd : callAll (t.lookup d d) { s1 with file := { s1.file with ext := d } } with
            | mk s2 e2 =>
              cases e2 with
              | some err => rfl
              | none =>
                  have h3 := ih (pre ++ [prev]) d s2
                  simp only [List.append_assoc, List.singleton_append, List.length_append,
                    List.length_singleton] at h3
                  exact h3

theorem hopLoop_steps (t : Transpiler) (hops : List String) (s : Exec) :
    hopLoop t hops hops.enum s = replay (steps t hops) s := by
  cases hops with
  | nil => simp [steps, hopLoop, replay, List.enum]
  | cons d rest =>
      simp only [steps, List.enum, List.enumFrom_cons, hopLoop, hopBody,
        Nat.lt_irrefl, if_false, replay, List.append_eq]
      rw [callAll_replay]
      have hl2 : GoMap.getD t.fns (edgeKey d d) [] = t.lookup d d := rfl
      rw [hl2]
      cases hd : callAll (t.lookup d d) { s with file := { s.file with ext := d } } with
      | mk s2 e2 =>
        cases e2 with
        | some err => rfl
        | none =>
            have h3 := hopLoop_replay t rest [] d s2
            simp only [List.nil_append, List.length_nil, Nat.zero_add] at h3
            exact h3

/-- The results of `TranspileLog` on a resolved route are those of the replay
of the steps of the route. -/
theorem TranspileLog_replay (t : Transpiler) (tb : TieBreak) (fromPath toExt : String)
    (code : Bytes) (hops : List String)
    (hpath : t.Path tb (filepathExt fromPath) toExt = (hops, none)) :
    t.TranspileLog tb fromPath toExt code =
      match replay (steps t hops) ⟨sourceFile fromPath code, []⟩ with
      | (s, some err) => (s.log, ([], some err))
      | (s, none) => (s.log, (s.file.Data, none)) := by
  unfold Transpiler.TranspileLog
  rw [hpath]
  simp only []
  rw [hopLoop_steps]
  rfl

theorem threadLog_fns (steps : List Step) :
    ∀ file, (threadLog steps file).map (fun inv => inv.fn) = callbacksOf steps := by
  induction steps with
  | nil => intro file; rfl
  | cons st rest ih =>
      intro file
      cases st with
      | setExt ext => exact ih _
      | call fn => simp [threadLog, callbacksOf, ih]

theorem callbacksOf_append (a b : List Step) :
    callbacksOf (a ++ b) = callbacksOf a ++ callbacksOf b := by
  induction a with
  | nil => rfl
  | cons st rest ih =>
      cases st with
      | setExt ext => simpa [callbacksOf] using ih
      | call fn => simp [callbacksOf, ih]

theorem callbacksOf_calls (fns : List Callback) : callbacksOf (fns.map Step.call) = fns := by
  induction fns with
  | nil => rfl
  | cons fn rest ih => simp [callbacksOf, ih]

theorem callbacksOf_stepsFrom (t : Transpiler) (hops : List String) :
    ∀ d, callbacksOf (stepsFrom t d hops) = scheduleFrom t d hops := by
  induction hops with
  | nil => intro d; rfl
  | cons e rest ih =>
      intro d
      have h : stepsFrom t d (e :: rest) =
          (t.lookup d e).map Step.call ++
            ([Step.setExt e] ++ ((t.lookup e e).map Step.call ++ stepsFrom t e rest)) := by
        simp [stepsFrom]
      rw [h, callbacksOf_append, callbacksOf_append, callbacksOf_append, callbacksOf_calls,
        callbacksOf_calls, ih]
      simp [callbacksOf, scheduleFrom]

/-- The callbacks of the steps of a route are the schedule of the route. -/
theorem callbacksOf_steps (t : Transpiler) (hops : List String) :
    callbacksOf (steps t hops) = schedule t hops := by
  cases hops with
  | nil => rfl
  | cons d rest =>
      have h : steps t (d :: rest) =
          [Step.setExt d] ++ ((t.lookup d d).map Step.call ++ stepsFrom t d rest) := by
        simp [steps]
      rw [h, callbacksOf_append, callbacksOf_append, callbacksOf_calls, callbacksOf_stepsFrom]
      simp [callbacksOf, schedule]

theorem threadLog_head (steps : List Step) :
    ∀ file inv, (threadLog steps file)[0]? = some inv → inv.file.Data = file.Data := by
  induction steps with
  | nil => intro file inv h; simp [threadLog] at h
  | cons st rest ih =>
      intro file inv h
      cases st with
      | setExt ext => exact ih { file with ext := ext } inv h
      | call fn =>
          simp only [threadLog, List.getElem?_cons_zero, Option.some.injEq] at h
          subst h
          rfl

/-- In the invocations of a sequence of steps each callback gets the data that
the callback before it left. -/
theorem threadLog_chain (steps : List Step) :
    ∀ file j a b, (threadLog steps file)[j]? = some a → (threadLog steps file)[j + 1]? = some b →
      b.file.Data = (a.fn a.file).1.Data := by
  induction steps with
  | nil => intro file j a b h; simp [threadLog] at h
  | cons st rest ih =>
      intro file j a b ha hb
      cases st with
      | setExt ext => exact ih { file with ext := ext } j a b ha hb
      | call fn =>
          simp only [threadLog, List.getElem?_cons_succ] at hb
          cases j with
          | zero =>
              simp only [threadLog, List.getElem?_cons_zero, Option.some.injEq] at ha
              subst ha
              exact threadLog_head rest _ b hb
          | succ j =>
              simp only [threadLog, List.getElem?_cons_succ] at ha
              exact ih _ j a b ha hb

/-- The data after a sequence of steps is the data that the last callback
left, or the data at the start when no callback is called. -/
theorem thread_data (steps : List Step) :
    ∀ file, (thread steps file).Data =
      match (threadLog steps file).getLast? with
      | some a => (a.fn a.file).1.Data
      | none => file.Data := by
  induction steps with
  | nil => intro file; rfl
  | cons st rest ih =>
      intro file
      cases st with
      | setExt ext => exact ih { file with ext := ext }
      | call fn =>
          have h := ih (fn file).1
          simp only [thread, threadLog]
          rw [h]
          cases hl : threadLog rest (fn file).1 with
          | nil => rfl
          | cons a l =>
              rw [List.getLast?_cons_cons]
              obtain ⟨z, hz⟩ : ∃ z, (a :: l).getLast? = some z :=
                ⟨_, List.getLast?_eq_getLast _ (List.cons_ne_nil a l)⟩
              rw [hz]

/-- What the replay does: the invocations `L` that it adds to the log are an
initial part of those of the steps; without an error they are all of them and
the file is the threaded one; with an error the failing invocation is the last
one and the first to fail. -/
theorem replay_spec (steps : List Step) :
    ∀ s : Exec, ∃ L : List Invocation,
      (replay steps s).1.log = s.log ++ L ∧
      L = (threadLog steps s.file).take L.length ∧
      ((replay steps s).2 = none →
        L = threadLog steps s.file ∧ (replay steps s).1.file = thread steps s.file ∧
        ∀ inv ∈ L, inv.err = none) ∧
      (∀ e, (replay steps s).2 = some e →
        ∃ P last, L = P ++ [last] ∧ (∀ inv ∈ P, inv.err = none) ∧ last.err = some e) := by
  induction steps with
  | nil =>
      intro s
      refine ⟨[], ?_⟩
      simp [replay, thread, threadLog]
  | cons st rest ih =>
      intro s
      cases st with
      | setExt ext =>
          obtain ⟨L, h1, h2, h3, h4⟩ := ih { s with file := { s.file with ext := ext } }
          exact ⟨L, h1, h2, h3, h4⟩
      | call fn =>
          cases hres : (fn s.file).2 with
          | some err =>
              have hr : replay (Step.call fn :: rest) s =
                  ({ file := (fn s.file).1, log := s.log ++ [⟨fn, s.file⟩] }, some err) := by
                simp [replay, hres]
              refine ⟨[⟨fn, s.file⟩], ?_⟩
              rw [hr]
              refine ⟨rfl, by simp [threadLog], by simp, ?_⟩
              intro e he
              refine ⟨[], ⟨fn, s.file⟩, by simp, by simp, ?_⟩
              simp only [Option.some.injEq] at he
              simp [Invocation.err, hres, he]
          | none =>
              obtain ⟨L, h1, h2, h3, h4⟩ :=
                ih { file := (fn s.file).1, log := s.log ++ [⟨fn, s.file⟩] }
              have hr : replay (Step.call fn :: rest) s =
                  replay rest { file := (fn s.file).1, log := s.log ++ [⟨fn, s.file⟩] } := by
                simp [replay, hres]
              refine ⟨⟨fn, s.file⟩ :: L, ?_⟩
              rw [hr]
              refine ⟨by simp [h1], ?_, ?_, ?_⟩
              · simp only [threadLog, List.length_cons, List.take_succ_cons]
                exact congrArg _ h2
              · intro hnone
                obtain ⟨a, b, c⟩ := h3 hnone
                refine ⟨by simp only [threadLog]; exact congrArg _ a, by simpa [thread] using b, ?_⟩
                intro inv hinv
                rcases List.mem_cons.1 hinv with h | h
                · subst h; exact hres
                · exact c inv h
              · intro e he
                obtain ⟨P, last, hL, hP, hlast⟩ := h4 e he
                refine ⟨⟨fn, s.file⟩ :: P, last, by simp [hL], ?_, hlast⟩
                intro inv hinv
                rcases List.mem_cons.1 hinv with h | h
                · subst h; exact hres
                · exact hP inv h

/-! ## Maps -/

theorem GoMap.get?_set {κ ν : Type} [DecidableEq κ] (m : GoMap κ ν) (k k' : κ) (v : ν) :
    GoMap.get? (GoMap.set m k v) k' = if k = k' then some v else GoMap.get? m k' := by
  induction m with
  | nil => simp [GoMap.set, GoMap.get?]
  | cons e m ih =>
      obtain ⟨k0, v0⟩ := e
      by_cases h0 : k0 = k
      · subst h0
        by_cases h1 : k0 = k' <;> simp [GoMap.set, GoMap.get?, h1]
      · by_cases h1 : k0 = k'
        · subst h1
          have h2 : ¬ k = k0 := fun h => h0 h.symm
          simp [GoMap.set, GoMap.get?, h0, h2]
        · simp [GoMap.set, GoMap.get?, h0, h1, ih]

/-! ## Errors of `Path` -/

theorem errorsIs_errNoPathFromTo (a b : String) :
    errorsIs (errNoPathFromTo ErrNoPath a b) ErrNoPath = true := by
  simp [errorsIs, errNoPathFromTo, ErrNoPath, dijkstra.ErrNoPath]

theorem errorsIs_errWrapped : errorsIs (errWrapped dijkstra.ErrNoPath) ErrNoPath = true := by
  simp [errorsIs, errWrapped, ErrNoPath, dijkstra.ErrNoPath]

theorem Shortest_error (g : dijkstra.Graph) (tb : TieBreak) (src dst : Nat) (err : Error)
    (h : g.Shortest tb src dst = .error err) : err = dijkstra.ErrNoPath := by
  unfold dijkstra.Graph.Shortest at h
  split at h
  · split at h
    · cases h
    · cases h; rfl
  · cases h; rfl

/-- An error of `Path` comes with nil hops and wraps the sentinel. -/
theorem Path_error (t : Transpiler) (tb : TieBreak) (a b : String) (hops : List String)
    (err : Error) (h : t.Path tb a b = (hops, some err)) :
    hops = [] ∧ errorsIs err ErrNoPath = true := by
  unfold Transpiler.Path at h
  split at h
  · cases h
  · split at h
    · cases h; exact ⟨rfl, errorsIs_errNoPathFromTo a b⟩
    · split at h
      · cases h; exact ⟨rfl, errorsIs_errNoPathFromTo a b⟩
      · split at h
        · rename_i e hs
          have he := Shortest_error _ _ _ _ e hs
          subst he
          cases h
          exact ⟨rfl, errorsIs_errWrapped⟩
        · cases h

/-! ## What a `Transpile` call does on a resolved route -/

/-- On a resolved route the log of a `Transpile` call is an initial part of the
invocations of the steps of the route; a call that returns a nil error has run
them all and returns the data of the threaded file; a call that returns an
error `e` returns nil bytes, and its last invocation is the first to fail and
failed with `e`. -/
theorem TranspileLog_run (t : Transpiler) (tb : TieBreak) (fromPath toExt : String)
    (code : Bytes) (hops : List String)
    (hp : t.Path tb (filepathExt fromPath) toExt = (hops, none)) :
    (t.TranspileLog tb fromPath toExt code).1 =
      (threadLog (steps t hops) (sourceFile fromPath code)).take
        (t.TranspileLog tb fromPath toExt code).1.length ∧
    ((t.TranspileLog tb fromPath toExt code).2.2 = none →
      (t.TranspileLog tb fromPath toExt code).1 =
        threadLog (steps t hops) (sourceFile fromPath code) ∧
      (t.TranspileLog tb fromPath toExt code).2 =
        ((thread (steps t hops) (sourceFile fromPath code)).Data, none) ∧
      ∀ inv ∈ (t.TranspileLog tb fromPath toExt code).1, inv.err = none) ∧
    (∀ e, (t.TranspileLog tb fromPath toExt code).2.2 = some e →
      (t.TranspileLog tb fromPath toExt code).2 = ([], some e) ∧
      ∃ P last, (t.TranspileLog tb fromPath toExt code).1 = P ++ [last] ∧
        (∀ inv ∈ P, inv.err = none) ∧ last.err = some e) := by
  have hrep := TranspileLog_replay t tb fromPath toExt code hops hp
  obtain ⟨L, h1, h2, h3, h4⟩ := replay_spec (steps t hops) ⟨sourceFile fromPath code, []⟩
  cases hr : replay (steps t hops) ⟨sourceFile fromPath code, []⟩ with
  | mk s e =>
    rw [hr] at hrep h1 h3 h4
    simp only [List.nil_append] at h1 h2 h3 h4
    cases e with
    | none =>
        obtain ⟨a, b, c⟩ := h3 rfl
        have hlog : (t.TranspileLog tb fromPath toExt code).1 = L := by rw [hrep]; exact h1
        have hres : (t.TranspileLog tb fromPath toExt code).2 = (s.file.Data, none) := by
          rw [hrep]
        refine ⟨by rw [hlog]; exact h2, ?_, ?_⟩
        · intro _
          refine ⟨by rw [hlog]; exact a, ?_, by rw [hlog]; exact c⟩
          rw [hres]
          have hb : s.file = thread (steps t hops) (sourceFile fromPath code) := b
          rw [hb]
        · intro e he
          rw [hres] at he
          cases he
    | some err =>
        have hlog : (t.TranspileLog tb fromPath toExt code).1 = L := by rw [hrep]; exact h1
        have hres : (t.TranspileLog tb fromPath toExt code).2 = ([], some err) := by
          rw [hrep]
        refine ⟨by rw [hlog]; exact h2, ?_, ?_⟩
        · intro he
          rw [hres] at he
          cases he
        · intro e he
          rw [hres] at he
          cases he
          refine ⟨hres, ?_⟩
          rw [hlog]
          exact h4 err rfl

/-- When `Path` fails, `Transpile` invokes nothing. -/
theorem TranspileLog_path_error (t : Transpiler) (tb : TieBreak) (fromPath toExt : String)
    (code : Bytes) (hops : List String) (err : Error)
    (hp : t.Path tb (filepathExt fromPath) toExt = (hops, some err)) :
    (t.TranspileLog tb fromPath toExt code).1 = [] := by
  simp [Transpiler.TranspileLog, hp]

/-- A call whose invocations all returned nil returns a nil error when the
route is resolved. -/
theorem TranspileLog_clean (t : Transpiler) (tb : TieBreak) (fromPath toExt : String)
    (code : Bytes) (hops : List String)
    (hp : t.Path tb (filepathExt fromPath) toExt = (hops, none))
    (hnil : ∀ inv ∈ (t.TranspileLog tb fromPath toExt code).1, inv.err = none) :
    (t.TranspileLog tb fromPath toExt code).2.2 = none := by
  obtain ⟨_, _, h3⟩ := TranspileLog_run t tb fromPath toExt code hops hp
  cases he : (t.TranspileLog tb fromPath toExt code).2.2 with
  | none => rfl
  | some e =>
      exfalso
      obtain ⟨_, P, last, hL, _, hlast⟩ := h3 e he
      have := hnil last (by rw [hL]; simp)
      rw [this] at hlast
      cases hlast

/-- On a resolved route, a run in which some invoked callback fails ends with
the failing invocation, the first to fail, and returns its error. -/
theorem TranspileLog_fail (t : Transpiler) (tb : TieBreak) (fromPath toExt : String)
    (code : Bytes) (hops : List String)
    (hp : t.Path tb (filepathExt fromPath) toExt = (hops, none))
    (hfail : ∃ inv ∈ (t.TranspileLog tb fromPath toExt code).1, inv.err ≠ none) :
    ∃ (P : List Invocation) (last : Invocation) (e : Error),
      (t.TranspileLog tb fromPath toExt code).1 = P ++ [last] ∧
      (∀ inv ∈ P, inv.err = none) ∧
      last.err = some e ∧
      (t.TranspileLog tb fromPath toExt code).2 = ([], some e) ∧
      P ++ [last] =
        (threadLog (steps t hops) (sourceFile fromPath code)).take (P.length + 1) := by
  obtain ⟨bad, hbad, hne⟩ := hfail
  obtain ⟨h1, h2, h3⟩ := TranspileLog_run t tb fromPath toExt code hops hp
  cases he : (t.TranspileLog tb fromPath toExt code).2.2 with
  | none => exact absurd ((h2 he).2.2 bad hbad) hne
  | some e =>
      obtain ⟨hres, P, last, hL, hP, hlast⟩ := h3 e he
      refine ⟨P, last, e, hL, hP, hlast, hres, ?_⟩
      rw [hL] at h1
      simpa using h1

/-- An entry of an initial part of a list is the entry of the list. -/
theorem getElem?_of_take {α : Type} (l : List α) (n j : Nat) (x : α)
    (h : (l.take n)[j]? = some x) : l[j]? = some x ∧ j < n := by
  induction l generalizing n j with
  | nil => simp at h
  | cons a l ih =>
      cases n with
      | zero => simp at h
      | succ n =>
          cases j with
          | zero => simpa using h
          | succ j =>
              simp only [List.take_succ_cons, List.getElem?_cons_succ] at h
              have := ih n j h
              simpa using this

/-- Below its length an initial part of a list has the entries of the list. -/
theorem getElem?_take_lt {α : Type} (l : List α) (n i : Nat) (h : i < n) :
    (l.take n)[i]? = l[i]? := by
  induction l generalizing n i with
  | nil => simp
  | cons a l ih =>
      cases n with
      | zero => omega
      | succ n =>
          cases i with
          | zero => simp
          | succ i =>
              simp only [List.take_succ_cons, List.getElem?_cons_succ]
              exact ih n i (by omega)

theorem nominalOf_calls (fns : List Callback) (rest : List Step) (ext : String) :
    nominalOf (fns.map Step.call ++ rest) ext =
      fns.map (fun fn => (ext, fn)) ++ nominalOf rest ext := by
  induction fns with
  | nil => rfl
  | cons fn more ih => simp [nominalOf, ih]

theorem nominalOf_stepsFrom (t : Transpiler) (hops : List String) :
    ∀ d, nominalOf (stepsFrom t d hops) d = scheduleExtFrom t d hops := by
  induction hops with
  | nil => intro d; rfl
  | cons e rest ih =>
      intro d
      have h : stepsFrom t d (e :: rest) =
          (t.lookup d e).map Step.call ++
            (Step.setExt e :: ((t.lookup e e).map Step.call ++ stepsFrom t e rest)) := by
        simp [stepsFrom]
      rw [h, nominalOf_calls]
      simp only [nominalOf]
      rw [nominalOf_calls, ih]
      simp [scheduleExtFrom]

/-- The steps of a route call each callback of the schedule with the extension
that the schedule names, as long as no callback changes the extension. -/
theorem nominalOf_steps (t : Transpiler) (hops : List String) (ext : String) :
    nominalOf (steps t hops) ext = scheduleExt t hops := by
  cases hops with
  | nil => rfl
  | cons d rest =>
      simp only [steps, nominalOf, List.append_eq]
      rw [nominalOf_calls, nominalOf_stepsFrom]
      rfl

/-- In the invocations of a sequence of steps, an invocation before which every
callback left `base` and `ext` as it found them gets the file with the `base`
of the start and the extension that the steps name. -/
theorem threadLog_nominal (steps : List Step) :
    ∀ (file : File) (j : Nat) (inv : Invocation),
      (threadLog steps file)[j]? = some inv →
      (∀ i a, i < j → (threadLog steps file)[i]? = some a → a.keeps) →
      inv.file.base = file.base ∧
      (nominalOf steps file.ext)[j]? = some (inv.file.ext, inv.fn) := by
  induction steps with
  | nil => intro file j inv h; simp [threadLog] at h
  | cons st rest ih =>
      intro file j inv h hk
      cases st with
      | setExt ext => exact ih { file with ext := ext } j inv h hk
      | call fn =>
          cases j with
          | zero =>
              simp only [threadLog, List.getElem?_cons_zero, Option.some.injEq] at h
              subst h
              exact ⟨rfl, by simp [nominalOf]⟩
          | succ j =>
              simp only [threadLog, List.getElem?_cons_succ] at h
              have h0 : Invocation.keeps ⟨fn, file⟩ :=
                hk 0 ⟨fn, file⟩ (Nat.succ_pos j) (by simp [threadLog])
              obtain ⟨hb, he⟩ := h0
              have hrec := ih (fn file).1 j inv h (by
                intro i a hi ha
                exact hk (i + 1) a (by omega) (by simpa [threadLog] using ha))
              simp only at hb he
              refine ⟨hrec.1.trans hb, ?_⟩
              simp only [nominalOf, List.getElem?_cons_succ]
              rw [← he]
              exact hrec.2

/-- On a resolved route, an invocation of a `Transpile` call before which every
invoked callback left `base` and `ext` of the file as it found them is the
entry of the schedule at its position, with the extension that the schedule
names, and the base of its file is the source path without its extension. -/
theorem TranspileLog_nominal (t : Transpiler) (tb : TieBreak) (fromPath toExt : String)
    (code : Bytes) (hops : List String) (j : Nat) (inv : Invocation)
    (hpath : t.Path tb (filepathExt fromPath) toExt = (hops, none))
    (hinv : (t.TranspileLog tb fromPath toExt code).1[j]? = some inv)
    (hkeeps : ∀ a ∈ (t.TranspileLog tb fromPath toExt code).1.take j, a.keeps) :
    (scheduleExt t hops)[j]? = some (inv.file.ext, inv.fn) ∧
    inv.file.base = stringsTrimSuffix fromPath (filepathExt fromPath) := by
  have h1 := (TranspileLog_run t tb fromPath toExt code hops hpath).1
  have hj : (threadLog (steps t hops) (sourceFile fromPath code))[j]? = some inv ∧
      j < (t.TranspileLog tb fromPath toExt code).1.length := by
    rw [h1] at hinv
    exact getElem?_of_take _ _ _ _ hinv
  have hk : ∀ i a, i < j →
      (threadLog (steps t hops) (sourceFile fromPath code))[i]? = some a → a.keeps := by
    intro i a hi ha
    apply hkeeps a
    have h2 : ((t.TranspileLog tb fromPath toExt code).1.take j)[i]? = some a := by
      rw [getElem?_take_lt _ _ _ hi, h1, getElem?_take_lt _ _ _ (by omega)]
      exact ha
    exact List.getElem?_mem h2
  obtain ⟨hb, he⟩ := threadLog_nominal _ _ j inv hj.1 hk
  rw [nominalOf_steps] at he
  exact ⟨he, hb⟩

/-- The schedule of a route starts with the refinement callbacks of its first
dialect, each with that dialect as the extension. -/
theorem scheduleExt_refinement (t : Transpiler) (hops : List String) (d : String) (j : Nat)
    (fn : Callback) (hhead : hops.head? = some d) (hfn : (t.lookup d d)[j]? = some fn) :
    (scheduleExt t hops)[j]? = some (d, fn) := by
  cases hops with
  | nil => simp at hhead
  | cons x rest =>
      simp only [List.head?_cons, Option.some.injEq] at hhead
      subst hhead
      have hj : j < (t.lookup x x).length := by
        by_contra hge
        rw [List.getElem?_eq_none (Nat.le_of_not_lt hge)] at hfn
        cases hfn
      simp only [scheduleExt]
      rw [List.getElem?_append_left (by simpa using hj), List.getElem?_map, hfn]
      rfl

theorem scheduleExtFrom_fns (t : Transpiler) (hops : List String) :
    ∀ d, (scheduleExtFrom t d hops).map (fun e => e.2) = scheduleFrom t d hops := by
  induction hops with
  | nil => intro d; rfl
  | cons e rest ih =>
      intro d
      simp only [scheduleExtFrom, scheduleFrom, List.map_append, List.map_map, ih]
      simp [Function.comp_def]

/-- The callbacks of the schedule with extensions are the schedule. -/
theorem scheduleExt_fns (t : Transpiler) (hops : List String) :
    (scheduleExt t hops).map (fun e => e.2) = schedule t hops := by
  cases hops with
  | nil => rfl
  | cons d rest =>
      simp only [scheduleExt, schedule, List.map_append, List.map_map, scheduleExtFrom_fns]
      simp [Function.comp_def]

/-- On a resolved route, the callback number `j` of the schedule is invocation
number `j` of the call when every invocation before it returned nil. -/
theorem TranspileLog_invoked (t : Transpiler) (tb : TieBreak) (fromPath toExt : String)
    (code : Bytes) (hops : List String) (j : Nat) (fn : Callback)
    (hpath : t.Path tb (filepathExt fromPath) toExt = (hops, none))
    (hsched : (schedule t hops)[j]? = some fn)
    (hnil : ∀ a ∈ (t.TranspileLog tb fromPath toExt code).1.take j, a.err = none) :
    ∃ inv, (t.TranspileLog tb fromPath toExt code).1[j]? = some inv ∧ inv.fn = fn := by
  obtain ⟨h1, h2, _⟩ := TranspileLog_run t tb fromPath toExt code hops hpath
  have hTL : ((threadLog (steps t hops) (sourceFile fromPath code)).map
      (fun inv => inv.fn))[j]? = some fn := by
    rw [threadLog_fns, callbacksOf_steps]
    exact hsched
  rw [List.getElem?_map] at hTL
  cases hget : (threadLog (steps t hops) (sourceFile fromPath code))[j]? with
  | none => rw [hget] at hTL; cases hTL
  | some inv =>
      rw [hget] at hTL
      simp only [Option.map_some', Option.some.injEq] at hTL
      refine ⟨inv, ?_, hTL⟩
      have hjTL : j < (threadLog (steps t hops) (sourceFile fromPath code)).length := by
        by_contra hge
        rw [List.getElem?_eq_none (Nat.le_of_not_lt hge)] at hget
        cases hget
      have hjn : j < (t.TranspileLog tb fromPath toExt code).1.length := by
        by_contra hge
        have htake : (t.TranspileLog tb fromPath toExt code).1.take j =
            (t.TranspileLog tb fromPath toExt code).1 :=
          List.take_of_length_le (Nat.le_of_not_lt hge)
        rw [htake] at hnil
        have hnone := TranspileLog_clean t tb fromPath toExt code hops hpath hnil
        have hall := (h2 hnone).1
        rw [hall] at hge
        exact hge hjTL
      rw [h1, getElem?_take_lt _ _ _ hjn]
      exact hget

/-- On a resolved route, the entry number `j` of the schedule, a callback with
the extension that the loop gives the file for it, is invoked as invocation
number `j` and gets a file with that extension and the base of the source path,
when every invocation before it returned nil and left `base` and `ext` as it
found them. -/
theorem TranspileLog_observes (t : Transpiler) (tb : TieBreak) (fromPath toExt : String)
    (code : Bytes) (hops : List String) (j : Nat) (ext : String) (fn : Callback)
    (hpath : t.Path tb (filepathExt fromPath) toExt = (hops, none))
    (hsched : (scheduleExt t hops)[j]? = some (ext, fn))
    (hbefore : ∀ a ∈ (t.TranspileLog tb fromPath toExt code).1.take j,
      a.err = none ∧ a.keeps) :
    ∃ inv, (t.TranspileLog tb fromPath toExt code).1[j]? = some inv ∧ inv.fn = fn ∧
      inv.file.ext = ext ∧
      inv.file.base = stringsTrimSuffix fromPath (filepathExt fromPath) ∧
      inv.file.Path = stringsTrimSuffix fromPath (filepathExt fromPath) ++ ext := by
  have hs : (schedule t hops)[j]? = some fn := by
    rw [← scheduleExt_fns, List.getElem?_map, hsched]
    rfl
  obtain ⟨inv, hinv, hinvfn⟩ := TranspileLog_invoked t tb fromPath toExt code hops j fn hpath hs
    (fun a ha => (hbefore a ha).1)
  obtain ⟨he, hb⟩ := TranspileLog_nominal t tb fromPath toExt code hops j inv hpath hinv
    (fun a ha => (hbefore a ha).2)
  rw [hsched] at he
  simp only [Option.some.injEq, Prod.mk.injEq] at he
  refine ⟨inv, hinv, hinvfn, he.1.symm, hb, ?_⟩
  rw [File.Path, hb, ← he.1]

/-- On a resolved route, a log whose invocations but the last left `base` and
`ext` as they found them follows the schedule entry by entry, each callback
with the extension that the schedule names. -/
theorem TranspileLog_sched (t : Transpiler) (tb : TieBreak) (fromPath toExt : String)
    (code : Bytes) (hops : List String) (P : List Invocation) (last : Invocation)
    (hpath : t.Path tb (filepathExt fromPath) toExt = (hops, none))
    (hlog : (t.TranspileLog tb fromPath toExt code).1 = P ++ [last])
    (hkeeps : ∀ a ∈ P, a.keeps) :
    (P ++ [last]).map (fun inv => (inv.file.ext, inv.fn)) =
      (scheduleExt t hops).take (P.length + 1) := by
  apply List.ext_getElem?
  intro j
  by_cases hj : j < P.length + 1
  · rw [getElem?_take_lt _ _ _ hj, List.getElem?_map]
    have hlen : j < (P ++ [last]).length := by simpa using hj
    obtain ⟨inv, hinv⟩ : ∃ inv, (P ++ [last])[j]? = some inv :=
      ⟨_, List.getElem?_eq_getElem hlen⟩
    have hinv2 : (t.TranspileLog tb fromPath toExt code).1[j]? = some inv := by
      rw [hlog]; exact hinv
    have hk : ∀ a ∈ (t.TranspileLog tb fromPath toExt code).1.take j, a.keeps := by
      intro a ha
      rw [hlog, List.take_append_of_le_length (by omega)] at ha
      exact hkeeps a (List.mem_of_mem_take ha)
    obtain ⟨he, _⟩ := TranspileLog_nominal t tb fromPath toExt code hops j inv hpath hinv2 hk
    rw [hinv, he]
    rfl
  · have h1 : ((P ++ [last]).map (fun inv => (inv.file.ext, inv.fn)))[j]? = none := by
      apply List.getElem?_eq_none
      simp only [List.length_map, List.length_append, List.length_singleton]
      omega
    have h2 : ((scheduleExt t hops).take (P.length + 1))[j]? = none := by
      apply List.getElem?_eq_none
      have := List.length_take_le (P.length + 1) (scheduleExt t hops)
      omega
    rw [h1, h2]

/-! ## The contract of `Transpile` and `Path` -/

/-- C1: when `Path(Ext(fromPath), toExt)` succeeds with `hops` and every invoked
callback returns nil, `Transpile` returns, with a nil error, the data of the
source file threaded through the steps of `hops`.  The callbacks invoked are
exactly those of the schedule of `hops`, in its order: the callbacks of
`(d0, d0)`, then for each further hop the callbacks of `(d[i-1], d[i])` and
those of `(d[i], d[i])`, each list in registration order.  The first callback
receives the input, each later one the data left by the one before it, and the
result is the data left by the last one. -/
theorem Transpile_threads_schedule (t : Transpiler) (tb : TieBreak) (fromPath toExt : String)
    (code : Bytes) (hops : List String)
    (hpath : t.Path tb (filepathExt fromPath) toExt = (hops, none))
    (hnil : ∀ inv ∈ (t.TranspileLog tb fromPath toExt code).1, inv.err = none) :
    t.Transpile tb fromPath toExt code =
      ((thread (steps t hops) (sourceFile fromPath code)).Data, none) ∧
    (t.TranspileLog tb fromPath toExt code).1 =
      threadLog (steps t hops) (sourceFile fromPath code) ∧
    (t.TranspileLog tb fromPath toExt code).1.map (fun inv => inv.fn) = schedule t hops ∧
    (∀ inv, (t.TranspileLog tb fromPath toExt code).1[0]? = some inv → inv.file.Data = code) ∧
    (∀ j a b, (t.TranspileLog tb fromPath toExt code).1[j]? = some a →
      (t.TranspileLog tb fromPath toExt code).1[j + 1]? = some b →
      b.file.Data = (a.fn a.file).1.Data) ∧
    (t.Transpile tb fromPath toExt code).1 =
      match (t.TranspileLog tb fromPath toExt code).1.getLast? with
      | some a => (a.fn a.file).1.Data
      | none => code := by
  have hnone := TranspileLog_clean t tb fromPath toExt code hops hpath hnil
  obtain ⟨hlog, hres, _⟩ := (TranspileLog_run t tb fromPath toExt code hops hpath).2.1 hnone
  have hT : t.Transpile tb fromPath toExt code =
      ((thread (steps t hops) (sourceFile fromPath code)).Data, none) := hres
  refine ⟨hT, hlog, ?_, ?_, ?_, ?_⟩
  · rw [hlog, threadLog_fns, callbacksOf_steps]
  · intro inv h
    rw [hlog] at h
    exact threadLog_head _ _ inv h
  · intro j a b ha hb
    rw [hlog] at ha hb
    exact threadLog_chain _ _ j a b ha hb
  · rw [hT, hlog]
    exact thread_data _ _

/-- The route of `TestMultiStep`: every callback returns nil and the data is
threaded through `md->svelte`, the two `svelte->svelte`, `svelte->jsx`,
`jsx->jsx`. -/
theorem Transpile_threads_schedule_witness :
    testMultiStep.Path firstFound (filepathExt "hello.md") ".jsx" =
      ([".md", ".svelte", ".jsx"], none) ∧
    (∀ inv ∈ (testMultiStep.TranspileLog firstFound "hello.md" ".jsx" [0]).1, inv.err = none) ∧
    (testMultiStep.TranspileLog firstFound "hello.md" ".jsx" [0]).1.map (fun inv => inv.fn) =
      schedule testMultiStep [".md", ".svelte", ".jsx"] ∧
    schedule testMultiStep [".md", ".svelte", ".jsx"] =
      [cbWrap 5 5, cbWrap 3 3, cbWrap 4 4, cbWrap 2 2, cbWrap 1 1] ∧
    (testMultiStep.TranspileLog firstFound "hello.md" ".jsx" [0]).1.map
      (fun inv => inv.file.Data) =
      [[0], [5, 0, 5], [3, 5, 0, 5, 3], [4, 3, 5, 0, 5, 3, 4], [2, 4, 3, 5, 0, 5, 3, 4, 2]] ∧
    testMultiStep.Transpile firstFound "hello.md" ".jsx" [0] =
      ([1, 2, 4, 3, 5, 0, 5, 3, 4, 2, 1], none) :=
  ⟨by decide, by decide,
    (Transpile_threads_schedule testMultiStep firstFound "hello.md" ".jsx" [0]
      [".md", ".svelte", ".jsx"] (by decide) (by decide)).2.2.1,
    rfl, by decide, by decide⟩

/-- C2, as stated, fails: a callback gets a pointer to the file and may assign
the whole struct.  With the `.svelte` refinement
`*file = transpiler.File{Data: file.Data}` registered first, the second
`.svelte` refinement and the transition callback of `(.svelte, .jsx)` of
`Transpile("hello.svelte", ".jsx", ...)` observe the path `""`, not
`"hello.svelte"`, and the base is `"hello"` in the first invocation and `""` in
the others. -/
theorem Transpile_paths_counterexample :
    (build callsReset).Path firstFound (filepathExt "hello.svelte") ".jsx" =
      ([".svelte", ".jsx"], none) ∧
    (build callsReset).lookup ".svelte" ".jsx" = [cbWrap 2 2] ∧
    ((build callsReset).TranspileLog firstFound "hello.svelte" ".jsx" [0]).1[2]? =
      some ⟨cbWrap 2 2, { base := "", ext := "", Data := [1, 0, 1] }⟩ ∧
    File.Path { base := "", ext := "", Data := [1, 0, 1] } = "" ∧
    stringsTrimSuffix "hello.svelte" (filepathExt "hello.svelte") ++ ".svelte" =
      "hello.svelte" ∧
    ((build callsReset).TranspileLog firstFound "hello.svelte" ".jsx" [0]).1.map
      (fun inv => inv.file.Path) = ["hello.svelte", "", ""] ∧
    ((build callsReset).TranspileLog firstFound "hello.svelte" ".jsx" [0]).1.map
      (fun inv => inv.file.base) = ["hello", "", ""] :=
  ⟨by decide, rfl, rfl, by decide, by decide, by decide, by decide⟩

/-- C2, amended: on a resolved route `hops`, with `base` the source path without
its extension, the invocations of a `Transpile` call follow the schedule of
`hops` entry by entry as long as the callbacks leave `base` and `ext` of the
file as they find them: an invocation before which every invoked callback did
so is the entry of the schedule at its position, and an entry of the schedule
before which every invoked callback did so and returned nil is invoked.  A
transition callback of `(d[i-1], d[i])` then runs with the extension `d[i-1]`
and sees `Path() = base + d[i-1]`, a refinement callback of `(d[i], d[i])` runs
with the extension `d[i]` and sees `Path() = base + d[i]`; the base of the
file is `base`. -/
theorem Transpile_paths (t : Transpiler) (tb : TieBreak) (fromPath toExt : String)
    (code : Bytes) (hops : List String) (j : Nat)
    (hpath : t.Path tb (filepathExt fromPath) toExt = (hops, none)) :
    (∀ inv, (t.TranspileLog tb fromPath toExt code).1[j]? = some inv →
      (∀ a ∈ (t.TranspileLog tb fromPath toExt code).1.take j, a.keeps) →
      (scheduleExt t hops)[j]? = some (inv.file.ext, inv.fn) ∧
      inv.file.base = stringsTrimSuffix fromPath (filepathExt fromPath) ∧
      inv.file.Path = stringsTrimSuffix fromPath (filepathExt fromPath) ++ inv.file.ext) ∧
    (∀ ext fn, (scheduleExt t hops)[j]? = some (ext, fn) →
      (∀ a ∈ (t.TranspileLog tb fromPath toExt code).1.take j, a.err = none ∧ a.keeps) →
      ∃ inv, (t.TranspileLog tb fromPath toExt code).1[j]? = some inv ∧ inv.fn = fn ∧
        inv.file.ext = ext ∧
        inv.file.base = stringsTrimSuffix fromPath (filepathExt fromPath) ∧
        inv.file.Path = stringsTrimSuffix fromPath (filepathExt fromPath) ++ ext) := by
  constructor
  · intro inv hinv hkeeps
    obtain ⟨he, hb⟩ := TranspileLog_nominal t tb fromPath toExt code hops j inv hpath hinv hkeeps
    refine ⟨he, hb, ?_⟩
    simp [File.Path, hb]
  · intro ext fn hsched hbefore
    exact TranspileLog_observes t tb fromPath toExt code hops j ext fn hpath hsched hbefore

/-- The route of `TestMultiStep`, whose callbacks replace the data only: entry 3
of the schedule is the transition callback of `(.svelte, .jsx)` with the
extension `.svelte`; it is invoked fourth and sees `hello.svelte`; the five
callbacks see `hello.md`, three times `hello.svelte`, `hello.jsx`. -/
theorem Transpile_paths_witness :
    testMultiStep.Path firstFound (filepathExt "hello.md") ".jsx" =
      ([".md", ".svelte", ".jsx"], none) ∧
    testMultiStep.lookup ".svelte" ".jsx" = [cbWrap 2 2] ∧
    (scheduleExt testMultiStep [".md", ".svelte", ".jsx"])[3]? = some (".svelte", cbWrap 2 2) ∧
    (∀ a ∈ (testMultiStep.TranspileLog firstFound "hello.md" ".jsx" [0]).1.take 3,
      a.err = none ∧ a.keeps) ∧
    (∃ inv, (testMultiStep.TranspileLog firstFound "hello.md" ".jsx" [0]).1[3]? = some inv ∧
      inv.fn = cbWrap 2 2 ∧ inv.file.ext = ".svelte" ∧
      inv.file.base = stringsTrimSuffix "hello.md" (filepathExt "hello.md") ∧
      inv.file.Path = stringsTrimSuffix "hello.md" (filepathExt "hello.md") ++ ".svelte") ∧
    stringsTrimSuffix "hello.md" (filepathExt "hello.md") ++ ".svelte" = "hello.svelte" ∧
    (testMultiStep.TranspileLog firstFound "hello.md" ".jsx" [0]).1.map
      (fun inv => inv.file.Path) =
      ["hello.md", "hello.svelte", "hello.svelte", "hello.svelte", "hello.jsx"] :=
  ⟨by decide, rfl, rfl, by decide,
    (Transpile_paths testMultiStep firstFound "hello.md" ".jsx" [0]
      [".md", ".svelte", ".jsx"] 3 (by decide)).2 ".svelte" (cbWrap 2 2) rfl (by decide),
    by decide, by decide⟩

/-- C3: for every transpiler state and every dialect `D`, `Path(D, D)` is the
one-element list `[D]` with a nil error, also on the fresh transpiler where no
dialect was registered; no NoPath error comes out of it. -/
theorem Path_same (t : Transpiler) (tb : TieBreak) (D : String) :
    t.Path tb D D = ([D], none) ∧ New.Path tb D D = ([D], none) := by
  simp [Transpiler.Path]

/-- C7: when `Path(Ext(fromPath), toExt)` fails with `err`, `Transpile` returns
nil bytes and that same error, which wraps `ErrNoPath`, and invokes no
callback. -/
theorem Transpile_no_path (t : Transpiler) (tb : TieBreak) (fromPath toExt : String)
    (code : Bytes) (hops : List String) (err : Error)
    (hpath : t.Path tb (filepathExt fromPath) toExt = (hops, some err)) :
    t.Transpile tb fromPath toExt code = ([], some err) ∧
    errorsIs err ErrNoPath = true ∧
    (t.TranspileLog tb fromPath toExt code).1 = [] := by
  refine ⟨?_, (Path_error t tb _ _ hops err hpath).2, ?_⟩
  · simp [Transpiler.Transpile, Transpiler.TranspileLog, hpath]
  · simp [Transpiler.TranspileLog, hpath]

/-- The request of `TestNoPath`: two known dialects without a route. -/
theorem Transpile_no_path_witness :
    testNoPath.Path firstFound (filepathExt "hello.svelte") ".jsx" =
      ([], some (errWrapped dijkstra.ErrNoPath)) ∧
    testNoPath.Transpile firstFound "hello.svelte" ".jsx" [7] =
      ([], some (errWrapped dijkstra.ErrNoPath)) ∧
    errorsIs (errWrapped dijkstra.ErrNoPath) ErrNoPath = true ∧
    (testNoPath.TranspileLog firstFound "hello.svelte" ".jsx" [7]).1 = [] :=
  ⟨by decide,
    Transpile_no_path testNoPath firstFound "hello.svelte" ".jsx" [7] []
      (errWrapped dijkstra.ErrNoPath) (by decide)⟩

/-- C8: when some invoked callback returns a non-nil error, the log of the call
ends with the failing invocation and every invocation before it returned nil,
so that the failing callback is the first to fail and nothing is invoked after
it; `Transpile` returns nil bytes and exactly the error of that callback.  The
invocations are an initial part of those of the steps of the resolved route,
and the callbacks invoked an initial part of its schedule, each with the
extension that the schedule names when the callbacks before the failing one
left `base` and `ext` of the file as they found them. -/
theorem Transpile_aborts (t : Transpiler) (tb : TieBreak) (fromPath toExt : String)
    (code : Bytes)
    (hfail : ∃ inv ∈ (t.TranspileLog tb fromPath toExt code).1, inv.err ≠ none) :
    ∃ (P : List Invocation) (last : Invocation) (e : Error) (hops : List String),
      (t.TranspileLog tb fromPath toExt code).1 = P ++ [last] ∧
      (∀ inv ∈ P, inv.err = none) ∧
      last.err = some e ∧
      t.Transpile tb fromPath toExt code = ([], some e) ∧
      t.Path tb (filepathExt fromPath) toExt = (hops, none) ∧
      P ++ [last] =
        (threadLog (steps t hops) (sourceFile fromPath code)).take (P.length + 1) ∧
      (P ++ [last]).map (fun inv => inv.fn) = (schedule t hops).take (P.length + 1) ∧
      ((∀ a ∈ P, a.keeps) →
        (P ++ [last]).map (fun inv => (inv.file.ext, inv.fn)) =
          (scheduleExt t hops).take (P.length + 1)) := by
  cases hp : t.Path tb (filepathExt fromPath) toExt with
  | mk hops oerr =>
    cases oerr with
    | some err =>
        exfalso
        obtain ⟨bad, hbad, _⟩ := hfail
        rw [TranspileLog_path_error t tb fromPath toExt code hops err hp] at hbad
        cases hbad
    | none =>
        obtain ⟨P, last, e, hlog, hP, hlast, hres, hsched⟩ :=
          TranspileLog_fail t tb fromPath toExt code hops hp hfail
        refine ⟨P, last, e, hops, hlog, hP, hlast, hres, rfl, hsched, ?_,
          TranspileLog_sched t tb fromPath toExt code hops P last hp hlog⟩
        have := congrArg (List.map (fun inv : Invocation => inv.fn)) hsched
        rw [List.map_take, threadLog_fns, callbacksOf_steps] at this
        exact this

/-- The registrations of `TestMultiStep` with a failing second `.svelte`
refinement: the run stops there with `boom`, after three of the five callbacks
of the schedule. -/
theorem Transpile_aborts_witness :
    (∃ inv ∈ (testAbort.TranspileLog firstFound "hello.md" ".jsx" [0]).1, inv.err ≠ none) ∧
    testAbort.Transpile firstFound "hello.md" ".jsx" [0] = ([], some (Error.new "boom")) ∧
    (testAbort.TranspileLog firstFound "hello.md" ".jsx" [0]).1.length = 3 ∧
    (schedule testAbort [".md", ".svelte", ".jsx"]).length = 5 ∧
    ∃ (P : List Invocation) (last : Invocation) (e : Error) (hops : List String),
      (testAbort.TranspileLog firstFound "hello.md" ".jsx" [0]).1 = P ++ [last] ∧
      (∀ inv ∈ P, inv.err = none) ∧
      last.err = some e ∧
      testAbort.Transpile firstFound "hello.md" ".jsx" [0] = ([], some e) ∧
      testAbort.Path firstFound (filepathExt "hello.md") ".jsx" = (hops, none) ∧
      P ++ [last] =
        (threadLog (steps testAbort hops) (sourceFile "hello.md" [0])).take (P.length + 1) ∧
      (P ++ [last]).map (fun inv => inv.fn) = (schedule testAbort hops).take (P.length + 1) ∧
      ((∀ a ∈ P, a.keeps) →
        (P ++ [last]).map (fun inv => (inv.file.ext, inv.fn)) =
          (scheduleExt testAbort hops).take (P.length + 1)) :=
  ⟨by decide, by decide, by decide, by decide,
    Transpile_aborts testAbort firstFound "hello.md" ".jsx" [0] (by decide)⟩

/-- C9, as stated, fails: a callback may return the sentinel `ErrNoPath`, and
`Transpile` then returns that very error, for which `errors.Is(err, ErrNoPath)`
holds. -/
theorem Transpile_callback_error_counterexample :
    (∃ inv ∈ (testCallbackNoPath.TranspileLog firstFound "hello.svelte" ".svelte" [7]).1,
      inv.err ≠ none) ∧
    testCallbackNoPath.Transpile firstFound "hello.svelte" ".svelte" [7] =
      ([], some ErrNoPath) ∧
    errorsIs ErrNoPath ErrNoPath = true := by
  decide

/-- C9, amended: when some invoked callback returns an error, `Transpile`
returns nil bytes and exactly the error `e` of the failing callback, unwrapped;
so when no invoked callback returns an error that is or wraps `ErrNoPath`, the
error of `Transpile` is not NoPath. -/
theorem Transpile_callback_error (t : Transpiler) (tb : TieBreak) (fromPath toExt : String)
    (code : Bytes)
    (hfail : ∃ inv ∈ (t.TranspileLog tb fromPath toExt code).1, inv.err ≠ none)
    (hclean : ∀ inv ∈ (t.TranspileLog tb fromPath toExt code).1, ∀ e,
      inv.err = some e → errorsIs e ErrNoPath = false) :
    ∃ e, t.Transpile tb fromPath toExt code = ([], some e) ∧
      (∃ inv ∈ (t.TranspileLog tb fromPath toExt code).1, inv.err = some e) ∧
      errorsIs e ErrNoPath = false := by
  cases hp : t.Path tb (filepathExt fromPath) toExt with
  | mk hops oerr =>
    cases oerr with
    | some err =>
        exfalso
        obtain ⟨bad, hbad, _⟩ := hfail
        rw [TranspileLog_path_error t tb fromPath toExt code hops err hp] at hbad
        cases hbad
    | none =>
        obtain ⟨P, last, e, hlog, _, hlast, hres, _⟩ :=
          TranspileLog_fail t tb fromPath toExt code hops hp hfail
        have hmem : last ∈ (t.TranspileLog tb fromPath toExt code).1 := by
          rw [hlog]; simp
        exact ⟨e, hres, ⟨last, hmem, hlast⟩, hclean last hmem e hlast⟩

/-- A failing callback whose error is not the sentinel: the error of
`Transpile` is `boom`, not NoPath. -/
theorem Transpile_callback_error_witness :
    (∃ inv ∈ (testAbort.TranspileLog firstFound "hello.md" ".jsx" [0]).1, inv.err ≠ none) ∧
    (∀ inv ∈ (testAbort.TranspileLog firstFound "hello.md" ".jsx" [0]).1, ∀ e,
      inv.err = some e → errorsIs e ErrNoPath = false) ∧
    ∃ e, testAbort.Transpile firstFound "hello.md" ".jsx" [0] = ([], some e) ∧
      (∃ inv ∈ (testAbort.TranspileLog firstFound "hello.md" ".jsx" [0]).1, inv.err = some e) ∧
      errorsIs e ErrNoPath = false :=
  have hclean : ∀ inv ∈ (testAbort.TranspileLog firstFound "hello.md" ".jsx" [0]).1, ∀ e,
      inv.err = some e → errorsIs e ErrNoPath = false := by
    have h : ∀ inv ∈ (testAbort.TranspileLog firstFound "hello.md" ".jsx" [0]).1,
        inv.err = none ∨ inv.err = some (Error.new "boom") := by decide
    intro inv hinv e he
    rcases h inv hinv with h0 | h0
    · rw [h0] at he; cases he
    · rw [h0] at he; cases he; decide
  ⟨by decide, hclean,
    Transpile_callback_error testAbort firstFound "hello.md" ".jsx" [0] (by decide) hclean⟩

/-- C10, as stated, fails: `Add(D, D, cb)` for a dialect `D` not seen before
gives `D` an id in both maps and adds the id as a vertex of the graph. -/
theorem Add_same_counterexample :
    (New.Add ".svelte" ".svelte" (cbWrap 1 1)).ids = [(".svelte", 0)] ∧
    New.ids = [] ∧
    (New.Add ".svelte" ".svelte" (cbWrap 1 1)).exts = [(0, ".svelte")] ∧
    New.exts = [] ∧
    (New.Add ".svelte" ".svelte" (cbWrap 1 1)).graph.verts = [0] ∧
    New.graph.verts = [] := by
  decide

/-- C10, amended: `Add(D, D, cb)` never changes the edge set and changes the
registry at the key of `(D, D)` only, where it appends `cb`; when `D` already
has an id, the id maps and the vertex set stay as they are; when `D` has none,
`D` gets the id `len(ids)` in both maps and that id becomes a vertex. -/
theorem Add_same (t : Transpiler) (D : String) (cb : Callback) :
    (t.Add D D cb).graph.arcs = t.graph.arcs ∧
    (t.Add D D cb).fns = GoMap.set t.fns (edgeKey D D) (t.lookup D D ++ [cb]) ∧
    (∀ k, k ≠ edgeKey D D → GoMap.get? (t.Add D D cb).fns k = GoMap.get? t.fns k) ∧
    ((GoMap.get? t.ids D).isSome →
      (t.Add D D cb).ids = t.ids ∧ (t.Add D D cb).exts = t.exts ∧
      (t.Add D D cb).graph.verts = t.graph.verts) ∧
    (GoMap.get? t.ids D = none →
      (t.Add D D cb).ids = GoMap.set t.ids D (GoMap.len t.ids) ∧
      (t.Add D D cb).exts = GoMap.set t.exts (GoMap.len t.ids) D ∧
      (t.Add D D cb).graph.verts = (t.graph.AddVertex (GoMap.len t.ids)).verts) := by
  have hfns : (t.addExt D).fns = t.fns := by
    unfold Transpiler.addExt; split <;> rfl
  have harcs : (t.addExt D).graph.arcs = t.graph.arcs := by
    unfold Transpiler.addExt
    split
    · rfl
    · simp only [dijkstra.Graph.AddVertex]
      split <;> rfl
  refine ⟨?_, ?_, ?_, ?_, ?_⟩
  · simp [Transpiler.Add, Transpiler.appendFn, harcs]
  · simp [Transpiler.Add, Transpiler.appendFn, Transpiler.lookup, hfns]
  · intro k hk
    have hk2 : ¬ edgeKey D D = k := fun h => hk h.symm
    simp [Transpiler.Add, Transpiler.appendFn, hfns, GoMap.get?_set, hk2]
  · intro hsome
    obtain ⟨i, hi⟩ := Option.isSome_iff_exists.1 hsome
    simp [Transpiler.Add, Transpiler.appendFn, Transpiler.addExt, hi]
  · intro hnone
    simp [Transpiler.Add, Transpiler.appendFn, Transpiler.addExt, hnone]

/-- A second `.svelte` refinement on the transpiler of `TestNoPath` leaves the
id maps and the vertex set alone; a first `.md` refinement adds the id 2. -/
theorem Add_same_witness :
    (GoMap.get? testNoPath.ids ".svelte").isSome ∧
    (testNoPath.Add ".svelte" ".svelte" (cbWrap 9 9)).ids = testNoPath.ids ∧
    GoMap.get? testNoPath.ids ".md" = none ∧
    (testNoPath.Add ".md" ".md" (cbWrap 9 9)).ids =
      [(".svelte", 0), (".jsx", 1), (".md", 2)] :=
  ⟨by decide,
    ((Add_same testNoPath ".svelte" (cbWrap 9 9)).2.2.2.1 (by decide)).1,
    by decide,
    ((Add_same testNoPath ".md" (cbWrap 9 9)).2.2.2.2 (by decide)).1.trans (by decide)⟩

/-! ## The breadth-first search -/

open dijkstra in
theorem reach_zero (g : Graph) (src v : Nat) : g.Reach src 0 v ↔ v = src := by
  constructor
  · rintro ⟨rest, hr, hlen⟩
    have : rest = [] := List.length_eq_zero.1 hlen
    subst this
    exact hr
  · intro h
    exact ⟨[], h, rfl⟩

open dijkstra in
theorem reach_succ (g : Graph) (src k v : Nat) :
    g.Reach src (k + 1) v ↔ ∃ u, g.Reach src k u ∧ v ∈ g.succs u := by
  constructor
  · rintro ⟨rest, hr, hlen⟩
    cases rest with
    | nil => simp at hlen
    | cons u rest =>
        exact ⟨u, ⟨rest, hr.2, by simpa using hlen⟩, hr.1⟩
  · rintro ⟨u, ⟨rest, hr, hlen⟩, hv⟩
    exact ⟨u :: rest, ⟨hv, hr⟩, by simp [hlen]⟩

open dijkstra in
theorem mem_expand (g : Graph) (visited : List Nat) (frontier : List (List Nat))
    (q : List Nat) :
    q ∈ expand g visited frontier ↔
      ∃ u rest v, u :: rest ∈ frontier ∧ v ∈ g.succs u ∧ v ∉ visited ∧ q = v :: u :: rest := by
  unfold expand
  simp only [List.mem_flatten, List.mem_map]
  constructor
  · rintro ⟨l, ⟨p, hp, rfl⟩, hq⟩
    cases p with
    | nil => simp at hq
    | cons u rest =>
        simp only [List.mem_map, List.mem_filter, decide_eq_true_eq] at hq
        obtain ⟨v, ⟨hv, hvis⟩, rfl⟩ := hq
        exact ⟨u, rest, v, hp, hv, hvis, rfl⟩
  · rintro ⟨u, rest, v, hp, hv, hvis, rfl⟩
    refine ⟨_, ⟨u :: rest, hp, rfl⟩, ?_⟩
    simp only [List.mem_map, List.mem_filter, decide_eq_true_eq]
    exact ⟨v, ⟨hv, hvis⟩, rfl⟩

open dijkstra in
theorem round_zero (g : Graph) (src : Nat) : Round g src 0 [src] [[src]] where
  route := by
    intro p hp
    simp only [List.mem_singleton] at hp
    subst hp
    exact ⟨rfl, rfl⟩
  seen := by
    intro v j hj hr
    have : j = 0 := Nat.le_zero.1 hj
    subst this
    simp [(reach_zero g src v).1 hr]
  front := by
    intro v hr
    left
    exact ⟨[src], by simp, by simp [(reach_zero g src v).1 hr]⟩
  sound := by
    intro v hv
    simp only [List.mem_singleton] at hv
    exact ⟨0, Nat.le_refl 0, (reach_zero g src v).2 hv⟩

open dijkstra in
theorem round_succ (g : Graph) (src k : Nat) (visited : List Nat) (frontier : List (List Nat))
    (h : Round g src k visited frontier) :
    Round g src (k + 1) (visited ++ (expand g visited frontier).filterMap List.head?)
      (expand g visited frontier) where
  route := by
    intro q hq
    obtain ⟨u, rest, v, hp, hv, _, rfl⟩ := (mem_expand g visited frontier q).1 hq
    obtain ⟨hr, hlen⟩ := h.route _ hp
    exact ⟨⟨hv, hr⟩, by simp [hlen]⟩
  seen := by
    intro v j hj hr
    rcases Nat.lt_or_ge j (k + 1) with hlt | hge
    · exact List.mem_append_left _ (h.seen v j (Nat.lt_succ_iff.1 hlt) hr)
    · have hjk : j = k + 1 := Nat.le_antisymm hj hge
      subst hjk
      obtain ⟨u, hu, hv⟩ := (reach_succ g src k v).1 hr
      by_cases hvis : v ∈ visited
      · exact List.mem_append_left _ hvis
      · rcases h.front u hu with ⟨p, hp, hhead⟩ | ⟨i, hi, hri⟩
        · cases p with
          | nil => simp at hhead
          | cons u' rest =>
              simp only [List.head?_cons, Option.some.injEq] at hhead
              subst hhead
              apply List.mem_append_right
              rw [List.mem_filterMap]
              exact ⟨v :: u' :: rest,
                (mem_expand g visited frontier _).2 ⟨u', rest, v, hp, hv, hvis, rfl⟩, rfl⟩
        · exfalso
          apply hvis
          exact h.seen v (i + 1) hi ((reach_succ g src i v).2 ⟨u, hri, hv⟩)
  front := by
    intro v hr
    obtain ⟨u, hu, hv⟩ := (reach_succ g src k v).1 hr
    by_cases hvis : v ∈ visited
    · right
      obtain ⟨j, hj, hrj⟩ := h.sound v hvis
      exact ⟨j, Nat.lt_succ_of_le hj, hrj⟩
    · rcases h.front u hu with ⟨p, hp, hhead⟩ | ⟨i, hi, hri⟩
      · cases p with
        | nil => simp at hhead
        | cons u' rest =>
            simp only [List.head?_cons, Option.some.injEq] at hhead
            subst hhead
            left
            exact ⟨v :: u' :: rest,
              (mem_expand g visited frontier _).2 ⟨u', rest, v, hp, hv, hvis, rfl⟩, rfl⟩
      · right
        exact ⟨i + 1, Nat.succ_lt_succ hi, (reach_succ g src i v).2 ⟨u, hri, hv⟩⟩
  sound := by
    intro v hv
    rcases List.mem_append.1 hv with hvis | hnew
    · obtain ⟨j, hj, hrj⟩ := h.sound v hvis
      exact ⟨j, Nat.le_succ_of_le hj, hrj⟩
    · rw [List.mem_filterMap] at hnew
      obtain ⟨q, hq, hhead⟩ := hnew
      obtain ⟨u, rest, w, hp, hw, _, rfl⟩ := (mem_expand g visited frontier q).1 hq
      simp only [List.head?_cons, Option.some.injEq] at hhead
      subst hhead
      obtain ⟨hr, hlen⟩ := h.route _ hp
      exact ⟨k + 1, Nat.le_refl _, ⟨u :: rest, ⟨hw, hr⟩, hlen⟩⟩

open dijkstra in
/-- When no route of the frontier ends in `dst`, no route of `k` arcs does,
provided no shorter one does. -/
theorem round_miss (g : Graph) (src dst k : Nat) (visited : List Nat)
    (frontier : List (List Nat)) (h : Round g src k visited frontier)
    (hmin : ∀ j, j < k → ¬ g.Reach src j dst)
    (hnone : frontier.filter (fun p => decide (p.head? = some dst)) = []) :
    ∀ j, j < k + 1 → ¬ g.Reach src j dst := by
  intro j hj hr
  rcases Nat.lt_or_ge j k with hlt | hge
  · exact hmin j hlt hr
  · have hjk : j = k := Nat.le_antisymm (Nat.lt_succ_iff.1 hj) hge
    subst hjk
    rcases h.front dst hr with ⟨p, hp, hhead⟩ | ⟨i, hi, hri⟩
    · have : p ∈ frontier.filter (fun p => decide (p.head? = some dst)) :=
        List.mem_filter.2 ⟨hp, by simp [hhead]⟩
      rw [hnone] at this
      cases this
    · exact hmin i hi hri

open dijkstra in
/-- A route that the tie-break picks out of the routes of the frontier that end
in `dst` is a route of `k` arcs to `dst`. -/
theorem round_hit (tb : TieBreak) (g : Graph) (src dst k : Nat) (visited : List Nat)
    (frontier : List (List Nat)) (h : Round g src k visited frontier) (p : List Nat)
    (hpick : tb.pick g (frontier.filter (fun p => decide (p.head? = some dst))) = some p) :
    ∃ rest, p = dst :: rest ∧ g.Route src (dst :: rest) ∧ rest.length = k := by
  have hmem := List.mem_filter.1 (tb.pick_mem _ _ _ hpick)
  have hhead := hmem.2
  simp only [decide_eq_true_eq] at hhead
  cases p with
  | nil => simp at hhead
  | cons v rest =>
      simp only [List.head?_cons, Option.some.injEq] at hhead
      subst hhead
      obtain ⟨hr, hlen⟩ := h.route _ hmem.1
      exact ⟨rest, rfl, hr, by simpa using hlen⟩

open dijkstra in
/-- A result of the search is a route to `dst`, written from the source, and
no route with fewer arcs reaches `dst`. -/
theorem search_sound (tb : TieBreak) (g : Graph) (src dst : Nat) (fuel : Nat) :
    ∀ (k : Nat) (visited : List Nat) (frontier : List (List Nat)) (r : List Nat),
      Round g src k visited frontier →
      (∀ j, j < k → ¬ g.Reach src j dst) →
      search tb g dst fuel visited frontier = some r →
      ∃ rest, r = (dst :: rest).reverse ∧ g.Route src (dst :: rest) ∧
        ∀ j, j < rest.length → ¬ g.Reach src j dst := by
  induction fuel with
  | zero =>
      intro k visited frontier r h hmin hs
      simp only [search, Option.map_eq_some'] at hs
      obtain ⟨p, hpick, rfl⟩ := hs
      obtain ⟨rest, rfl, hr, hlen⟩ := round_hit tb g src dst k visited frontier h p hpick
      refine ⟨rest, rfl, hr, ?_⟩
      rw [hlen]
      exact hmin
  | succ n ih =>
      intro k visited frontier r h hmin hs
      simp only [search] at hs
      cases hpick : tb.pick g (frontier.filter (fun p => decide (p.head? = some dst))) with
      | some p =>
          rw [hpick] at hs
          simp only [Option.some.injEq] at hs
          subst hs
          obtain ⟨rest, rfl, hr, hlen⟩ := round_hit tb g src dst k visited frontier h p hpick
          refine ⟨rest, rfl, hr, ?_⟩
          rw [hlen]
          exact hmin
      | none =>
          rw [hpick] at hs
          exact ih (k + 1) _ _ r (round_succ g src k visited frontier h)
            (round_miss g src dst k visited frontier h hmin (tb.pick_none _ _ hpick)) hs

open dijkstra in
/-- The search finds `dst` when a route of at most `k + fuel` arcs reaches it. -/
theorem search_complete (tb : TieBreak) (g : Graph) (src dst : Nat) (fuel : Nat) :
    ∀ (k : Nat) (visited : List Nat) (frontier : List (List Nat)) (j : Nat),
      Round g src k visited frontier →
      (∀ i, i < k → ¬ g.Reach src i dst) →
      g.Reach src j dst → j ≤ k + fuel →
      ∃ r, search tb g dst fuel visited frontier = some r := by
  induction fuel with
  | zero =>
      intro k visited frontier j h hmin hr hj
      cases hpick : tb.pick g (frontier.filter (fun p => decide (p.head? = some dst))) with
      | some p => exact ⟨p.reverse, by simp [search, hpick]⟩
      | none =>
          exfalso
          exact round_miss g src dst k visited frontier h hmin (tb.pick_none _ _ hpick) j
            (Nat.lt_succ_of_le hj) hr
  | succ n ih =>
      intro k visited frontier j h hmin hr hj
      cases hpick : tb.pick g (frontier.filter (fun p => decide (p.head? = some dst))) with
      | some p => exact ⟨p.reverse, by simp [search, hpick]⟩
      | none =>
          simp only [search, hpick]
          exact ih (k + 1) _ _ j (round_succ g src k visited frontier h)
            (round_miss g src dst k visited frontier h hmin (tb.pick_none _ _ hpick)) hr
            (by omega)

/-! ## Routes without a repeated vertex -/

open dijkstra in
theorem route_suffix (g : Graph) (src v : Nat) (a b : List Nat)
    (h : g.Route src (a ++ v :: b)) : g.Route src (v :: b) := by
  induction a with
  | nil => exact h
  | cons x a ih =>
      cases a with
      | nil => exact h.2
      | cons y a => exact ih h.2

open dijkstra in
theorem route_nodup (g : Graph) (src : Nat) (rest : List Nat) :
    ∀ v, g.Route src (v :: rest) →
      ∃ rest', g.Route src (v :: rest') ∧ (v :: rest').Nodup ∧ rest'.length ≤ rest.length := by
  induction rest with
  | nil =>
      intro v h
      exact ⟨[], h, by simp, Nat.le_refl _⟩
  | cons u r ih =>
      intro v h
      obtain ⟨r', hr', hnd, hlen⟩ := ih u h.2
      by_cases hv : v ∈ u :: r'
      · obtain ⟨a, b, hab⟩ := List.append_of_mem hv
        refine ⟨b, ?_, ?_, ?_⟩
        · rw [hab] at hr'
          exact route_suffix g src v a b hr'
        · rw [hab] at hnd
          exact (List.nodup_append.1 hnd).2.1
        · have h1 : (u :: r').length = (a ++ v :: b).length := by rw [hab]
          simp only [List.length_cons, List.length_append] at h1 ⊢
          omega
      · exact ⟨u :: r', ⟨h.1, hr'⟩, List.nodup_cons.2 ⟨hv, hnd⟩, by simpa using hlen⟩

open dijkstra in
theorem mem_succs (g : Graph) (u v : Nat) :
    v ∈ g.succs u ↔ ∃ d, ((u, v), d) ∈ g.arcs := by
  unfold Graph.succs
  simp only [List.mem_map, List.mem_filter, decide_eq_true_eq]
  constructor
  · rintro ⟨⟨⟨a, b⟩, d⟩, ⟨hmem, ha⟩, hb⟩
    simp only at ha hb
    subst ha hb
    exact ⟨d, hmem⟩
  · rintro ⟨d, hmem⟩
    exact ⟨((u, v), d), ⟨hmem, rfl⟩, rfl⟩

open dijkstra in
theorem route_targets (g : Graph) (src : Nat) (p : List Nat) (h : g.Route src p) :
    ∀ x ∈ p.dropLast, x ∈ g.arcs.map (fun a => a.1.2) := by
  induction p with
  | nil => intro x hx; simp at hx
  | cons v rest ih =>
      cases rest with
      | nil => intro x hx; simp at hx
      | cons u r =>
          intro x hx
          simp only [List.dropLast_cons₂, List.mem_cons] at hx
          rcases hx with rfl | hx
          · obtain ⟨d, hd⟩ := (mem_succs g u x).1 h.1
            exact List.mem_map.2 ⟨((u, x), d), hd, rfl⟩
          · exact ih h.2 x hx

open dijkstra in
/-- A vertex that some route reaches is reached by a route with no more arcs
than the graph has. -/
theorem reach_bound (g : Graph) (src j v : Nat) (h : g.Reach src j v) :
    ∃ i, i ≤ j ∧ i ≤ g.arcs.length ∧ g.Reach src i v := by
  obtain ⟨rest, hr, hlen⟩ := h
  obtain ⟨rest', hr', hnd, hle⟩ := route_nodup g src rest v hr
  refine ⟨rest'.length, by omega, ?_, ⟨rest', hr', rfl⟩⟩
  have hsub : (v :: rest').dropLast ⊆ g.arcs.map (fun a => a.1.2) :=
    fun x hx => route_targets g src _ hr' x hx
  have hnd2 : (v :: rest').dropLast.Nodup := List.Nodup.sublist (List.dropLast_sublist _) hnd
  have := (List.subperm_of_subset hnd2 hsub).length_le
  simpa using this

open dijkstra in
/-- A result of `Shortest` is a route from `src` to `dst` with the least
number of arcs. -/
theorem Shortest_ok (g : Graph) (tb : TieBreak) (src dst : Nat) (best : BestPath)
    (h : g.Shortest tb src dst = .ok best) :
    ∃ rest, best.Path = (dst :: rest).reverse ∧ g.Route src (dst :: rest) ∧
      ∀ j, j < rest.length → ¬ g.Reach src j dst := by
  unfold Graph.Shortest at h
  split at h
  · split at h
    · rename_i p hs
      cases h
      exact search_sound tb g src dst g.arcs.length 0 [src] [[src]] p (round_zero g src)
        (fun j hj => absurd hj (Nat.not_lt_zero j)) hs
    · cases h
  · cases h

open dijkstra in
/-- The query `Shortest` succeeds when some route leads from `src` to `dst`,
both vertices of the graph. -/
theorem Shortest_complete (g : Graph) (tb : TieBreak) (src dst j : Nat)
    (hsrc : src ∈ g.verts) (hdst : dst ∈ g.verts) (h : g.Reach src j dst) :
    ∃ best, g.Shortest tb src dst = .ok best := by
  obtain ⟨i, _, hi, hri⟩ := reach_bound g src j dst h
  obtain ⟨r, hr⟩ := search_complete tb g src dst g.arcs.length 0 [src] [[src]] i
    (round_zero g src) (fun j hj => absurd hj (Nat.not_lt_zero j)) hri (by omega)
  unfold Graph.Shortest
  rw [if_pos ⟨hsrc, hdst⟩, hr]
  exact ⟨_, rfl⟩

/-! ## The id maps and the graph after `Add` -/

theorem GoMap.len_set {κ ν : Type} [DecidableEq κ] (m : GoMap κ ν) (k : κ) (v : ν)
    (h : GoMap.get? m k = none) : GoMap.len (GoMap.set m k v) = GoMap.len m + 1 := by
  induction m with
  | nil => simp [GoMap.set, GoMap.len]
  | cons e m ih =>
      obtain ⟨k0, v0⟩ := e
      by_cases h0 : k0 = k
      · simp [GoMap.get?, h0] at h
      · simp only [GoMap.get?, h0, if_false] at h
        have := ih h
        simp only [GoMap.len] at this
        simp [GoMap.set, GoMap.len, h0, this]

theorem GoMap.mem_set_key {κ ν : Type} [DecidableEq κ] (m : GoMap κ ν) (k k' : κ) (v : ν) :
    (∃ d, (k', d) ∈ GoMap.set m k v) ↔ k' = k ∨ ∃ d, (k', d) ∈ m := by
  induction m with
  | nil =>
      simp only [GoMap.set, List.mem_singleton, Prod.mk.injEq, List.not_mem_nil, exists_false,
        or_false]
      constructor
      · rintro ⟨d, h, _⟩; exact h
      · intro h; exact ⟨v, h, rfl⟩
  | cons e m ih =>
      obtain ⟨k0, v0⟩ := e
      by_cases h0 : k0 = k
      · subst h0
        simp only [GoMap.set, if_true, List.mem_cons, Prod.mk.injEq]
        constructor
        · rintro ⟨d, h | h⟩
          · exact Or.inl h.1
          · exact Or.inr ⟨d, Or.inr h⟩
        · rintro (h | ⟨d, h | h⟩)
          · exact ⟨v, Or.inl ⟨h, rfl⟩⟩
          · exact ⟨v, Or.inl ⟨h.1, rfl⟩⟩
          · exact ⟨d, Or.inr h⟩
      · simp only [GoMap.set, h0, if_false, List.mem_cons, Prod.mk.injEq]
        constructor
        · rintro ⟨d, h | h⟩
          · exact Or.inr ⟨d, Or.inl h⟩
          · rcases ih.1 ⟨d, h⟩ with h1 | ⟨d', h1⟩
            · exact Or.inl h1
            · exact Or.inr ⟨d', Or.inr h1⟩
        · rintro (h | ⟨d, h | h⟩)
          · obtain ⟨d, hd⟩ := ih.2 (Or.inl h)
            exact ⟨d, Or.inr hd⟩
          · exact ⟨d, Or.inl h⟩
          · obtain ⟨d', hd⟩ := ih.2 (Or.inr ⟨d, h⟩)
            exact ⟨d', Or.inr hd⟩

/-- The ids after `addExt`: an unknown `e` gets the id `len(ids)`, every other
dialect keeps what it had. -/
theorem addExt_ids (t : Transpiler) (e D : String) :
    GoMap.get? (t.addExt e).ids D =
      if GoMap.get? t.ids e = none ∧ e = D then some (GoMap.len t.ids)
      else GoMap.get? t.ids D := by
  unfold Transpiler.addExt
  cases he : GoMap.get? t.ids e with
  | some i => simp
  | none =>
      simp only [GoMap.get?_set, true_and]

theorem addExt_mono (t : Transpiler) (e D : String) (i : Nat)
    (h : GoMap.get? t.ids D = some i) : GoMap.get? (t.addExt e).ids D = some i := by
  rw [addExt_ids]
  split
  · rename_i hc
    rw [← hc.2, hc.1] at h
    cases h
  · exact h

theorem addExt_known (t : Transpiler) (e D : String) :
    (GoMap.get? (t.addExt e).ids D).isSome ↔ e = D ∨ (GoMap.get? t.ids D).isSome := by
  rw [addExt_ids]
  split
  · rename_i hc
    simp [hc.2]
  · rename_i hc
    constructor
    · exact Or.inr
    · rintro (h | h)
      · subst h
        cases he : GoMap.get? t.ids e with
        | none => exact absurd ⟨he, rfl⟩ hc
        | some i => simp
      · exact h

theorem addExt_arcs (t : Transpiler) (e : String) : (t.addExt e).graph.arcs = t.graph.arcs := by
  unfold Transpiler.addExt
  split
  · rfl
  · simp only [dijkstra.Graph.AddVertex]
    split <;> rfl

theorem addExt_fns (t : Transpiler) (e : String) : (t.addExt e).fns = t.fns := by
  unfold Transpiler.addExt
  split <;> rfl

theorem IdInv_new : IdInv New where
  ids_lt := by intro D i h; simp [New, GoMap.get?] at h
  ids_inj := by intro D D' i h; simp [New, GoMap.get?] at h
  exts_iff := by intro i D; simp [New, GoMap.get?]
  verts_iff := by intro i; simp [New, GoMap.len, dijkstra.NewGraph]

theorem IdInv_addExt (t : Transpiler) (e : String) (h : IdInv t) : IdInv (t.addExt e) := by
  cases he : GoMap.get? t.ids e with
  | some i =>
      have : t.addExt e = t := by simp [Transpiler.addExt, he]
      rw [this]; exact h
  | none =>
      have hids : (t.addExt e).ids = GoMap.set t.ids e (GoMap.len t.ids) := by
        simp [Transpiler.addExt, he]
      have hexts : (t.addExt e).exts = GoMap.set t.exts (GoMap.len t.ids) e := by
        simp [Transpiler.addExt, he]
      have hverts : (t.addExt e).graph.verts = t.graph.verts ++ [GoMap.len t.ids] := by
        have hn : GoMap.len t.ids ∉ t.graph.verts := by
          rw [h.verts_iff]; exact Nat.lt_irrefl _
        simp [Transpiler.addExt, he, dijkstra.Graph.AddVertex, hn]
      have hlen : GoMap.len (t.addExt e).ids = GoMap.len t.ids + 1 := by
        rw [hids]; exact GoMap.len_set _ _ _ he
      refine ⟨?_, ?_, ?_, ?_⟩
      · intro D i hi
        rw [hlen]
        rw [hids, GoMap.get?_set] at hi
        split at hi
        · cases hi; exact Nat.lt_succ_self _
        · exact Nat.lt_succ_of_lt (h.ids_lt D i hi)
      · intro D D' i hD hD'
        rw [hids, GoMap.get?_set] at hD hD'
        split at hD
        · rename_i h1
          split at hD'
          · rename_i h2; exact h1.symm.trans h2
          · cases hD
            exact absurd (h.ids_lt D' _ hD') (Nat.lt_irrefl _)
        · split at hD'
          · cases hD'
            exact absurd (h.ids_lt D _ hD) (Nat.lt_irrefl _)
          · exact h.ids_inj D D' i hD hD'
      · intro i D
        rw [hids, hexts, GoMap.get?_set, GoMap.get?_set]
        by_cases h1 : GoMap.len t.ids = i
        · by_cases h2 : e = D
          · simp [h1, h2]
          · simp only [h1, h2, if_true, if_false, Option.some.injEq]
            constructor
            · intro h3; exact h3.elim
            · intro h3
              have := h.ids_lt D i h3
              rw [← h1] at this
              exact absurd this (Nat.lt_irrefl _)
        · by_cases h2 : e = D
          · simp only [h1, h2, if_true, if_false, Option.some.injEq]
            constructor
            · intro h3
              have := (h.exts_iff i D).1 h3
              rw [← h2, he] at this
              cases this
            · intro h3; exact h3.elim
          · simp only [h1, h2, if_false]
            exact h.exts_iff i D
      · intro i
        rw [hverts, hlen, List.mem_append, h.verts_iff, List.mem_singleton]
        omega

theorem IdInv_congr (t t' : Transpiler) (hids : t'.ids = t.ids) (hexts : t'.exts = t.exts)
    (hverts : t'.graph.verts = t.graph.verts) (h : IdInv t) : IdInv t' where
  ids_lt := by rw [hids]; exact h.ids_lt
  ids_inj := by rw [hids]; exact h.ids_inj
  exts_iff := by rw [hids, hexts]; exact h.exts_iff
  verts_iff := by rw [hids, hverts]; exact h.verts_iff

theorem IdInv_Add (t : Transpiler) (a b : String) (cb : Callback) (h : IdInv t) :
    IdInv (t.Add a b cb) := by
  unfold Transpiler.Add
  simp only []
  split
  · exact IdInv_congr (t.addExt a) _ rfl rfl rfl (IdInv_addExt t a h)
  · exact IdInv_congr ((t.addExt a).addExt b) _ rfl rfl rfl
      (IdInv_addExt _ b (IdInv_addExt t a h))

theorem Add_ids (t : Transpiler) (a b : String) (cb : Callback) :
    (t.Add a b cb).ids = if a = b then (t.addExt a).ids else ((t.addExt a).addExt b).ids := by
  unfold Transpiler.Add
  simp only []
  split <;> rfl

theorem Add_arcs (t : Transpiler) (a b : String) (cb : Callback) :
    (t.Add a b cb).graph.arcs =
      if a = b then t.graph.arcs
      else GoMap.set t.graph.arcs
        (GoMap.getD ((t.addExt a).addExt b).ids a 0, GoMap.getD ((t.addExt a).addExt b).ids b 0)
        1 := by
  unfold Transpiler.Add
  simp only []
  split
  · simp [Transpiler.appendFn, addExt_arcs]
  · simp [Transpiler.appendFn, dijkstra.Graph.AddArc, addExt_arcs]

theorem Add_mono (t : Transpiler) (a b : String) (cb : Callback) (D : String) (i : Nat)
    (h : GoMap.get? t.ids D = some i) : GoMap.get? (t.Add a b cb).ids D = some i := by
  rw [Add_ids]
  split
  · exact addExt_mono t a D i h
  · exact addExt_mono _ b D i (addExt_mono t a D i h)

theorem Add_known (t : Transpiler) (a b : String) (cb : Callback) (D : String) :
    (GoMap.get? (t.Add a b cb).ids D).isSome ↔
      (GoMap.get? t.ids D).isSome ∨ a = D ∨ b = D := by
  rw [Add_ids]
  split
  · rename_i hab
    rw [addExt_known, ← hab]
    constructor
    · rintro (h | h)
      · exact Or.inr (Or.inl h)
      · exact Or.inl h
    · rintro (h | h | h)
      · exact Or.inr h
      · exact Or.inl h
      · exact Or.inl h
  · rw [addExt_known, addExt_known]
    constructor
    · rintro (h | h | h)
      · exact Or.inr (Or.inr h)
      · exact Or.inr (Or.inl h)
      · exact Or.inl h
    · rintro (h | h | h)
      · exact Or.inr (Or.inr h)
      · exact Or.inr (Or.inl h)
      · exact Or.inl h

theorem appears_append (calls : List AddCall) (c : AddCall) (D : String) :
    appears (calls ++ [c]) D ↔ appears calls D ∨ c.fromExt = D ∨ c.toExt = D := by
  unfold appears
  constructor
  · rintro ⟨x, hx, h⟩
    rcases List.mem_append.1 hx with h1 | h1
    · exact Or.inl ⟨x, h1, h⟩
    · simp only [List.mem_singleton] at h1
      subst h1
      exact Or.inr h
  · rintro (⟨x, hx, h⟩ | h)
    · exact ⟨x, List.mem_append_left _ hx, h⟩
    · exact ⟨c, by simp, h⟩

theorem registered_append (calls : List AddCall) (c : AddCall) (x y : String) :
    Registered (calls ++ [c]) x y ↔
      Registered calls x y ∨ (x ≠ y ∧ c.fromExt = x ∧ c.toExt = y) := by
  unfold Registered
  constructor
  · rintro ⟨hne, z, hz, h⟩
    rcases List.mem_append.1 hz with h1 | h1
    · exact Or.inl ⟨hne, z, h1, h⟩
    · simp only [List.mem_singleton] at h1
      subst h1
      exact Or.inr ⟨hne, h⟩
  · rintro (⟨hne, z, hz, h⟩ | ⟨hne, h⟩)
    · exact ⟨hne, z, List.mem_append_left _ hz, h⟩
    · exact ⟨hne, c, by simp, h⟩

theorem Records_Add (calls : List AddCall) (t : Transpiler) (a b : String) (cb : Callback)
    (h : Records calls t) : Records (calls ++ [⟨a, b, cb⟩]) (t.Add a b cb) := by
  refine ⟨IdInv_Add t a b cb h.ids, ?_, ?_, ?_⟩
  · intro D
    rw [Add_known, appears_append, h.known]
  · intro x y hreg
    rcases (registered_append calls _ x y).1 hreg with hold | ⟨hne, hx, hy⟩
    · obtain ⟨i, j, hi, hj, d, hd⟩ := h.arcs_of_reg x y hold
      refine ⟨i, j, Add_mono t a b cb x i hi, Add_mono t a b cb y j hj, ?_⟩
      rw [Add_arcs]
      split
      · exact ⟨d, hd⟩
      · exact (GoMap.mem_set_key _ _ _ _).2 (Or.inr ⟨d, hd⟩)
    · simp only at hx hy
      subst hx hy
      have hab : ¬ a = b := hne
      have ha : (GoMap.get? ((t.addExt a).addExt b).ids a).isSome := by
        rw [addExt_known, addExt_known]; exact Or.inr (Or.inl rfl)
      have hb : (GoMap.get? ((t.addExt a).addExt b).ids b).isSome := by
        rw [addExt_known]; exact Or.inl rfl
      obtain ⟨ia, hia⟩ := Option.isSome_iff_exists.1 ha
      obtain ⟨ib, hib⟩ := Option.isSome_iff_exists.1 hb
      refine ⟨ia, ib, ?_, ?_, ?_⟩
      · rw [Add_ids, if_neg hab]; exact hia
      · rw [Add_ids, if_neg hab]; exact hib
      · rw [Add_arcs, if_neg hab]
        apply (GoMap.mem_set_key _ _ _ _).2
        left
        simp [GoMap.getD, hia, hib]
  · intro i j d hd
    rw [Add_arcs] at hd
    split at hd
    · obtain ⟨x, y, hreg, hx, hy⟩ := h.reg_of_arcs i j d hd
      exact ⟨x, y, (registered_append calls _ x y).2 (Or.inl hreg),
        Add_mono t a b cb x i hx, Add_mono t a b cb y j hy⟩
    · rename_i hab
      rcases (GoMap.mem_set_key _ _ _ _).1 ⟨d, hd⟩ with hk | ⟨d', hd'⟩
      · have ha : (GoMap.get? ((t.addExt a).addExt b).ids a).isSome := by
          rw [addExt_known, addExt_known]; exact Or.inr (Or.inl rfl)
        have hb : (GoMap.get? ((t.addExt a).addExt b).ids b).isSome := by
          rw [addExt_known]; exact Or.inl rfl
        obtain ⟨ia, hia⟩ := Option.isSome_iff_exists.1 ha
        obtain ⟨ib, hib⟩ := Option.isSome_iff_exists.1 hb
        simp only [GoMap.getD, hia, hib, Option.getD_some, Prod.mk.injEq] at hk
        refine ⟨a, b, (registered_append calls _ a b).2 (Or.inr ⟨hab, rfl, rfl⟩), ?_, ?_⟩
        · rw [Add_ids, if_neg hab, hk.1]; exact hia
        · rw [Add_ids, if_neg hab, hk.2]; exact hib
      · obtain ⟨x, y, hreg, hx, hy⟩ := h.reg_of_arcs i j d' hd'
        exact ⟨x, y, (registered_append calls _ x y).2 (Or.inl hreg),
          Add_mono t a b cb x i hx, Add_mono t a b cb y j hy⟩

theorem Records_new : Records [] New where
  ids := IdInv_new
  known := by intro D; simp [New, GoMap.get?, appears]
  arcs_of_reg := by intro a b h; obtain ⟨_, c, hc, _⟩ := h; cases hc
  reg_of_arcs := by intro i j d h; simp [New, dijkstra.NewGraph] at h

theorem build_append (calls : List AddCall) (c : AddCall) :
    build (calls ++ [c]) = (build calls).Add c.fromExt c.toExt c.transpile := by
  simp [build, List.foldl_append]

/-- The transpiler built by a history records it. -/
theorem Records_build (calls : List AddCall) : Records calls (build calls) := by
  induction calls using List.reverseRecOn with
  | nil => exact Records_new
  | append_singleton calls c ih =>
      rw [build_append]
      exact Records_Add calls (build calls) c.fromExt c.toExt c.transpile ih

/-! ## Chains of transforms and routes of the graph -/

theorem isChain_snoc (calls : List AddCall) (l : List String) (a b : String) :
    IsChain calls (l ++ [a, b]) ↔ IsChain calls (l ++ [a]) ∧ Registered calls a b := by
  induction l with
  | nil => simp [IsChain]
  | cons x l ih =>
      cases l with
      | nil =>
          show Registered calls x a ∧ IsChain calls [a, b] ↔
            (Registered calls x a ∧ IsChain calls [a]) ∧ Registered calls a b
          simp [IsChain]
      | cons y l =>
          show Registered calls x y ∧ IsChain calls (y :: l ++ [a, b]) ↔
            (Registered calls x y ∧ IsChain calls (y :: l ++ [a])) ∧ Registered calls a b
          rw [ih, and_assoc]

theorem head?_snoc (l : List String) (a b : String) :
    (l ++ [a, b]).head? = (l ++ [a]).head? := by
  cases l <;> rfl

theorem chainRev_iff (calls : List AddCall) (D1 : String) (l : List String) :
    ∀ a, ChainRev calls D1 (a :: l) ↔
      IsChain calls (l.reverse ++ [a]) ∧ (l.reverse ++ [a]).head? = some D1 := by
  induction l with
  | nil =>
      intro a
      simp [ChainRev, IsChain]
  | cons u r ih =>
      intro a
      have hrev : (u :: r).reverse ++ [a] = r.reverse ++ [u, a] := by simp
      rw [hrev, isChain_snoc, head?_snoc]
      simp only [ChainRev]
      rw [ih u]
      constructor
      · rintro ⟨h1, h2, h3⟩; exact ⟨⟨h2, h1⟩, h3⟩
      · rintro ⟨⟨h2, h1⟩, h3⟩; exact ⟨h1, h2, h3⟩

open dijkstra in
/-- A chain of registered transforms from `D1` is a route of the graph from
the id of `D1`, with as many arcs as the chain has steps. -/
theorem reach_of_chainRev (calls : List AddCall) (t : Transpiler) (h : Records calls t)
    (D1 : String) (s : Nat) (hs : GoMap.get? t.ids D1 = some s) (rest : List String) :
    ∀ v, ChainRev calls D1 (v :: rest) →
      ∃ iv, GoMap.get? t.ids v = some iv ∧ t.graph.Reach s rest.length iv := by
  induction rest with
  | nil =>
      intro v hv
      have : v = D1 := hv
      subst this
      exact ⟨s, hs, (reach_zero _ _ _).2 rfl⟩
  | cons u r ih =>
      intro v hv
      obtain ⟨iu, hiu, hreach⟩ := ih u hv.2
      obtain ⟨i, j, hi, hj, d, hd⟩ := h.arcs_of_reg u v hv.1
      rw [hiu] at hi
      cases hi
      refine ⟨j, hj, ?_⟩
      exact (reach_succ _ _ _ _).2 ⟨iu, hreach, (mem_succs _ _ _).2 ⟨d, hd⟩⟩

theorem exts_of_ids (t : Transpiler) (h : IdInv t) (D : String) (i : Nat)
    (hi : GoMap.get? t.ids D = some i) : GoMap.getD t.exts i "" = D := by
  simp [GoMap.getD, (h.exts_iff i D).2 hi]

open dijkstra in
/-- A route of the graph from the id of `D1`, read through `exts`, is a chain
of registered transforms from `D1`. -/
theorem chainRev_of_route (calls : List AddCall) (t : Transpiler) (h : Records calls t)
    (D1 : String) (s : Nat) (hs : GoMap.get? t.ids D1 = some s) (p : List Nat)
    (hp : t.graph.Route s p) :
    ChainRev calls D1 (p.map (fun id => GoMap.getD t.exts id "")) := by
  induction p with
  | nil => exact hp
  | cons v rest ih =>
      cases rest with
      | nil =>
          have : v = s := hp
          subst this
          simp only [List.map_cons, List.map_nil, ChainRev]
          exact exts_of_ids t h.ids D1 v hs
      | cons u r =>
          obtain ⟨d, hd⟩ := (mem_succs _ _ _).1 hp.1
          obtain ⟨a, b, hreg, ha, hb⟩ := h.reg_of_arcs u v d hd
          have ih' := ih hp.2
          simp only [List.map_cons, ChainRev] at ih' ⊢
          rw [exts_of_ids t h.ids a u ha, exts_of_ids t h.ids b v hb]
          rw [exts_of_ids t h.ids a u ha] at ih'
          exact ⟨hreg, ih'⟩

/-! ## What `Path` returns between different dialects -/

open dijkstra in
/-- A success of `Path` between different dialects comes from a shortest route
of the graph between their ids, read through `exts`. -/
theorem Path_ok_route (t : Transpiler) (tb : TieBreak) (D1 D2 : String) (hops : List String)
    (hne : D1 ≠ D2) (hpath : t.Path tb D1 D2 = (hops, none)) :
    ∃ s d rest, GoMap.get? t.ids D1 = some s ∧ GoMap.get? t.ids D2 = some d ∧
      t.graph.Route s (d :: rest) ∧
      hops = ((d :: rest).map (fun id => GoMap.getD t.exts id "")).reverse ∧
      ∀ j, j < rest.length → ¬ t.graph.Reach s j d := by
  unfold Transpiler.Path at hpath
  rw [if_neg hne] at hpath
  cases h1 : GoMap.get? t.ids D1 with
  | none => simp [h1] at hpath
  | some s =>
      cases h2 : GoMap.get? t.ids D2 with
      | none => simp [h1, h2] at hpath
      | some d =>
          simp only [h1, h2, GoMap.getD, Option.isNone_some, Option.getD_some] at hpath
          cases hs : t.graph.Shortest tb s d with
          | error e => simp [hs] at hpath
          | ok best =>
              simp only [hs, Bool.false_eq_true, if_false, Prod.mk.injEq, and_true] at hpath
              obtain ⟨rest, hbest, hroute, hmin⟩ := Shortest_ok t.graph tb s d best hs
              refine ⟨s, d, rest, rfl, rfl, hroute, ?_, hmin⟩
              rw [← hpath, hbest, List.map_reverse]
              rfl

open dijkstra in
/-- Between different known dialects `Path` succeeds when a route joins their
ids. -/
theorem Path_of_reach (t : Transpiler) (tb : TieBreak) (h : IdInv t) (D1 D2 : String) (s d j : Nat)
    (hne : D1 ≠ D2) (hs : GoMap.get? t.ids D1 = some s) (hd : GoMap.get? t.ids D2 = some d)
    (hreach : t.graph.Reach s j d) : ∃ hops, t.Path tb D1 D2 = (hops, none) := by
  obtain ⟨best, hbest⟩ := Shortest_complete t.graph tb s d j
    ((h.verts_iff s).2 (h.ids_lt D1 s hs)) ((h.verts_iff d).2 (h.ids_lt D2 d hd)) hreach
  refine ⟨best.Path.map (fun id => GoMap.getD t.exts id ""), ?_⟩
  unfold Transpiler.Path
  simp [hne, hs, hd, GoMap.getD, hbest]

open dijkstra in
/-- Between different known dialects whose ids no route joins, `Path` fails
with the wrapped sentinel of the graph library. -/
theorem Path_no_reach (t : Transpiler) (tb : TieBreak) (D1 D2 : String) (s d : Nat)
    (hne : D1 ≠ D2) (hs : GoMap.get? t.ids D1 = some s) (hd : GoMap.get? t.ids D2 = some d)
    (hno : ∀ j, ¬ t.graph.Reach s j d) :
    t.Path tb D1 D2 = ([], some (errWrapped dijkstra.ErrNoPath)) := by
  cases hsh : t.graph.Shortest tb s d with
  | ok best =>
      exfalso
      obtain ⟨rest, _, hroute, _⟩ := Shortest_ok t.graph tb s d best hsh
      exact hno rest.length ⟨rest, hroute, rfl⟩
  | error e =>
      have he := Shortest_error t.graph tb s d e hsh
      subst he
      unfold Transpiler.Path
      simp [hne, hs, hd, GoMap.getD, hsh]

/-- A chain from `D1` to `D2` gives a route of as many arcs between their
ids. -/
theorem reach_of_chain (calls : List AddCall) (t : Transpiler) (h : Records calls t)
    (D1 D2 : String) (s : Nat) (hs : GoMap.get? t.ids D1 = some s) (mid : List String)
    (hchain : IsChain calls (D1 :: mid)) (hlast : (D1 :: mid).getLast? = some D2) :
    ∃ d, GoMap.get? t.ids D2 = some d ∧ t.graph.Reach s mid.length d := by
  obtain ⟨ys, hys⟩ := List.getLast?_eq_some_iff.1 hlast
  have hlen : ys.length = mid.length := by
    have := congrArg List.length hys
    simpa using this.symm
  have hrev : ChainRev calls D1 (D2 :: ys.reverse) := by
    rw [chainRev_iff, List.reverse_reverse, ← hys]
    exact ⟨hchain, rfl⟩
  obtain ⟨d, hd, hreach⟩ := reach_of_chainRev calls t h D1 s hs ys.reverse D2 hrev
  rw [List.length_reverse, hlen] at hreach
  exact ⟨d, hd, hreach⟩

/-- The hops of a successful `Path` between different dialects are a chain of
registered transforms from `D1` to `D2`, and no chain between them has fewer
steps. -/
theorem Path_ok_chain (calls : List AddCall) (tb : TieBreak) (D1 D2 : String) (hops : List String)
    (hne : D1 ≠ D2) (hpath : (build calls).Path tb D1 D2 = (hops, none)) :
    IsChain calls hops ∧ hops.head? = some D1 ∧ hops.getLast? = some D2 ∧
      ∀ mid, IsChain calls (D1 :: mid) → (D1 :: mid).getLast? = some D2 →
        hops.length ≤ mid.length + 1 := by
  have h := Records_build calls
  obtain ⟨s, d, rest, hs, hd, hroute, hhops, hmin⟩ :=
    Path_ok_route (build calls) tb D1 D2 hops hne hpath
  have hrev := chainRev_of_route calls (build calls) h D1 s hs (d :: rest) hroute
  simp only [List.map_cons] at hrev hhops
  rw [exts_of_ids _ h.ids D2 d hd] at hrev hhops
  have hc := (chainRev_iff calls D1 _ D2).1 hrev
  rw [List.reverse_cons] at hhops
  rw [← hhops] at hc
  refine ⟨hc.1, hc.2, ?_, ?_⟩
  · rw [hhops]; exact List.getLast?_concat _
  · intro mid hchain hlast
    obtain ⟨d', hd', hreach⟩ := reach_of_chain calls (build calls) h D1 D2 s hs mid hchain hlast
    rw [hd] at hd'
    cases hd'
    have hlen : hops.length = rest.length + 1 := by rw [hhops]; simp
    rw [hlen]
    by_contra hlt
    exact hmin mid.length (by omega) hreach

/-- A chain from `D1` to a different dialect `D2` makes `Path` succeed. -/
theorem Path_of_chain (calls : List AddCall) (tb : TieBreak) (D1 D2 : String) (hne : D1 ≠ D2)
    (mid : List String) (hchain : IsChain calls (D1 :: mid))
    (hlast : (D1 :: mid).getLast? = some D2) :
    ∃ hops, (build calls).Path tb D1 D2 = (hops, none) := by
  have h := Records_build calls
  cases mid with
  | nil =>
      simp only [List.getLast?_singleton, Option.some.injEq] at hlast
      exact absurd hlast hne
  | cons x mid =>
      obtain ⟨s, _, hs, _, _⟩ := h.arcs_of_reg D1 x hchain.1
      obtain ⟨d, hd, hreach⟩ := reach_of_chain calls (build calls) h D1 D2 s hs _ hchain hlast
      exact Path_of_reach (build calls) tb h.ids D1 D2 s d _ hne hs hd hreach

/-- Between different dialects of which one has no id, `Path` fails with the
sentinel wrapped together with the two names. -/
theorem Path_of_unknown (t : Transpiler) (tb : TieBreak) (D1 D2 : String) (hne : D1 ≠ D2)
    (h : GoMap.get? t.ids D1 = none ∨ GoMap.get? t.ids D2 = none) :
    t.Path tb D1 D2 = ([], some (errNoPathFromTo ErrNoPath D1 D2)) := by
  unfold Transpiler.Path
  rw [if_neg hne]
  rcases h with h1 | h2
  · simp [h1]
  · rw [h2]
    cases GoMap.get? t.ids D1 <;> simp

/-- C4: for every history of `Add` calls and every pair of different dialects
of which one is in no call, `Path` returns nil hops and the sentinel
`ErrNoPath` wrapped with the two dialect names, so that
`errors.Is(err, ErrNoPath)` holds. -/
theorem Path_unknown (calls : List AddCall) (tb : TieBreak) (D1 D2 : String) (hne : D1 ≠ D2)
    (hnever : neverAdded calls D1 ∨ neverAdded calls D2) :
    (build calls).Path tb D1 D2 = ([], some (errNoPathFromTo ErrNoPath D1 D2)) ∧
    errorsIs (errNoPathFromTo ErrNoPath D1 D2) ErrNoPath = true := by
  have h := Records_build calls
  have hnone : ∀ D, neverAdded calls D → GoMap.get? (build calls).ids D = none := by
    intro D hD
    cases hg : GoMap.get? (build calls).ids D with
    | none => rfl
    | some i =>
        exfalso
        obtain ⟨c, hc, hcD⟩ := (h.known D).1 (by simp [hg])
        rcases hcD with hcD | hcD
        · exact (hD c hc).1 hcD
        · exact (hD c hc).2 hcD
  refine ⟨?_, errorsIs_errNoPathFromTo D1 D2⟩
  unfold Transpiler.Path
  rw [if_neg hne]
  rcases hnever with h1 | h2
  · simp [hnone D1 h1]
  · rw [hnone D2 h2]
    cases GoMap.get? (build calls).ids D1 <;> simp

/-- The request of `TestNoExt`: `.jsx` is in no call. -/
theorem Path_unknown_witness :
    ".svelte" ≠ ".jsx" ∧
    (neverAdded callsNoExt ".svelte" ∨ neverAdded callsNoExt ".jsx") ∧
    (build callsNoExt).Path firstFound ".svelte" ".jsx" =
      ([], some (errNoPathFromTo ErrNoPath ".svelte" ".jsx")) ∧
    errorsIs (errNoPathFromTo ErrNoPath ".svelte" ".jsx") ErrNoPath = true :=
  ⟨by decide, Or.inr (by unfold neverAdded; decide),
    Path_unknown callsNoExt firstFound ".svelte" ".jsx" (by decide)
      (Or.inr (by unfold neverAdded; decide))⟩

/-- C5: after any history of `Add` calls, for different dialects `D1` and `D2`,
`Path(D1, D2)` succeeds exactly when a chain of registered distinct-dialect
transforms leads from `D1` to `D2`; without such a chain, as when only
self-transforms were registered, `Path` returns nil hops and an error that
wraps `ErrNoPath`. -/
theorem Path_iff_chain (calls : List AddCall) (tb : TieBreak) (D1 D2 : String) (hne : D1 ≠ D2) :
    ((∃ hops, (build calls).Path tb D1 D2 = (hops, none)) ↔
      ∃ mid, IsChain calls (D1 :: mid) ∧ (D1 :: mid).getLast? = some D2) ∧
    ((¬ ∃ mid, IsChain calls (D1 :: mid) ∧ (D1 :: mid).getLast? = some D2) →
      ∃ err, (build calls).Path tb D1 D2 = ([], some err) ∧ errorsIs err ErrNoPath = true) := by
  have hiff : (∃ hops, (build calls).Path tb D1 D2 = (hops, none)) ↔
      ∃ mid, IsChain calls (D1 :: mid) ∧ (D1 :: mid).getLast? = some D2 := by
    constructor
    · rintro ⟨hops, hpath⟩
      obtain ⟨hchain, hhead, hlast, _⟩ := Path_ok_chain calls tb D1 D2 hops hne hpath
      cases hops with
      | nil => simp at hhead
      | cons x mid =>
          simp only [List.head?_cons, Option.some.injEq] at hhead
          subst hhead
          exact ⟨mid, hchain, hlast⟩
    · rintro ⟨mid, hchain, hlast⟩
      exact Path_of_chain calls tb D1 D2 hne mid hchain hlast
  refine ⟨hiff, ?_⟩
  intro hno
  cases hp : (build calls).Path tb D1 D2 with
  | mk hops oerr =>
    cases oerr with
    | none => exact absurd (hiff.1 ⟨hops, hp⟩) hno
    | some err =>
        obtain ⟨hnil, his⟩ := Path_error (build calls) tb D1 D2 hops err hp
        subst hnil
        exact ⟨err, rfl, his⟩

/-- The histories of `TestMultiStep` and `TestNoPath`: `.md` reaches `.jsx`
through `.svelte`; between `.svelte` and `.jsx`, registered with
self-transforms only, there is no chain and `Path` fails. -/
theorem Path_iff_chain_witness :
    ".md" ≠ ".jsx" ∧
    (∃ mid, IsChain callsMultiStep (".md" :: mid) ∧ (".md" :: mid).getLast? = some ".jsx") ∧
    (∃ hops, (build callsMultiStep).Path firstFound ".md" ".jsx" = (hops, none)) ∧
    (build callsMultiStep).Path firstFound ".md" ".jsx" = ([".md", ".svelte", ".jsx"], none) ∧
    ".svelte" ≠ ".jsx" ∧
    (¬ ∃ hops, (build callsNoPath).Path firstFound ".svelte" ".jsx" = (hops, none)) ∧
    ∃ err, (build callsNoPath).Path firstFound ".svelte" ".jsx" = ([], some err) ∧
      errorsIs err ErrNoPath = true :=
  have hchain : ∃ mid, IsChain callsMultiStep (".md" :: mid) ∧
      (".md" :: mid).getLast? = some ".jsx" :=
    ⟨[".svelte", ".jsx"],
      ⟨⟨by decide, ⟨".md", ".svelte", cbWrap 5 5⟩, by simp [callsMultiStep], rfl, rfl⟩,
        ⟨by decide, ⟨".svelte", ".jsx", cbWrap 2 2⟩, by simp [callsMultiStep], rfl, rfl⟩,
        trivial⟩,
      by decide⟩
  have hfail : ¬ ∃ hops, (build callsNoPath).Path firstFound ".svelte" ".jsx" = (hops, none) := by
    rintro ⟨hops, hp⟩
    have h2 : (build callsNoPath).Path firstFound ".svelte" ".jsx" =
        ([], some (errWrapped dijkstra.ErrNoPath)) := by decide
    rw [h2] at hp
    cases hp
  ⟨by decide, hchain,
    (Path_iff_chain callsMultiStep firstFound ".md" ".jsx" (by decide)).1.2 hchain,
    by decide, by decide, hfail,
    (Path_iff_chain callsNoPath firstFound ".svelte" ".jsx" (by decide)).2
      (fun hc =>
        hfail ((Path_iff_chain callsNoPath firstFound ".svelte" ".jsx" (by decide)).1.2 hc))⟩

/-- A directly registered transform between different dialects is the route
that `Path` returns. -/
theorem Path_direct (calls : List AddCall) (tb : TieBreak) (D1 D2 : String) (hne : D1 ≠ D2)
    (hreg : Registered calls D1 D2) : (build calls).Path tb D1 D2 = ([D1, D2], none) := by
  have hchain : IsChain calls [D1, D2] := ⟨hreg, trivial⟩
  obtain ⟨hops, hpath⟩ := Path_of_chain calls tb D1 D2 hne [D2] hchain rfl
  obtain ⟨_, hhead, hlast, hmin⟩ := Path_ok_chain calls tb D1 D2 hops hne hpath
  have hlen := hmin [D2] hchain rfl
  rw [hpath]
  cases hops with
  | nil => simp at hhead
  | cons x rest =>
      simp only [List.head?_cons, Option.some.injEq] at hhead
      subst hhead
      cases rest with
      | nil =>
          simp only [List.getLast?_singleton, Option.some.injEq] at hlast
          exact absurd hlast hne
      | cons y rest =>
          cases rest with
          | nil =>
              simp only [List.getLast?_cons_cons, List.getLast?_singleton,
                Option.some.injEq] at hlast
              subst hlast
              rfl
          | cons z rest =>
              simp at hlen

/-- C6: `Path` returns a route with the least number of hops: when
`Path(D1, D2)` succeeds with `hops` for different dialects, no chain of
registered distinct-dialect transforms from `D1` to `D2` has fewer than
`len(hops) - 1` steps; and when a transform from `D1` to `D2` is registered
directly, `Path(D1, D2)` is exactly `[D1, D2]`, whatever longer routes
exist. -/
theorem Path_min_hops (calls : List AddCall) (tb : TieBreak) (D1 D2 : String) (hne : D1 ≠ D2) :
    (∀ hops, (build calls).Path tb D1 D2 = (hops, none) →
      ∀ mid, IsChain calls (D1 :: mid) → (D1 :: mid).getLast? = some D2 →
        hops.length - 1 ≤ mid.length) ∧
    (Registered calls D1 D2 → (build calls).Path tb D1 D2 = ([D1, D2], none)) := by
  constructor
  · intro hops hpath mid hchain hlast
    have := (Path_ok_chain calls tb D1 D2 hops hne hpath).2.2.2 mid hchain hlast
    omega
  · intro hreg
    exact Path_direct calls tb D1 D2 hne hreg

/-- A direct transform `.svelte -> .jsx` next to the route through `.html`:
`Path` takes the direct one. -/
theorem Path_min_hops_witness :
    ".svelte" ≠ ".jsx" ∧
    IsChain callsDirect [".svelte", ".html", ".jsx"] ∧
    Registered callsDirect ".svelte" ".jsx" ∧
    (build callsDirect).Path firstFound ".svelte" ".jsx" = ([".svelte", ".jsx"], none) :=
  have hreg : Registered callsDirect ".svelte" ".jsx" :=
    ⟨by decide, ⟨".svelte", ".jsx", cbWrap 3 3⟩, by simp [callsDirect], rfl, rfl⟩
  ⟨by decide,
    ⟨⟨by decide, ⟨".svelte", ".html", cbWrap 1 1⟩, by simp [callsDirect], rfl, rfl⟩,
      ⟨by decide, ⟨".html", ".jsx", cbWrap 2 2⟩, by simp [callsDirect], rfl, rfl⟩,
      trivial⟩,
    hreg,
    (Path_min_hops callsDirect firstFound ".svelte" ".jsx" (by decide)).2 hreg⟩

/-! ## Edge keys and the registry -/

theorem append_cons_inj_left {α : Type} (x : α) (l1 l2 r1 r2 : List α)
    (h1 : x ∉ l1) (h2 : x ∉ l2) (h : l1 ++ x :: r1 = l2 ++ x :: r2) : l1 = l2 ∧ r1 = r2 := by
  induction l1 generalizing l2 with
  | nil =>
      cases l2 with
      | nil => simpa using h
      | cons y l2 =>
          simp only [List.nil_append, List.cons_append, List.cons.injEq] at h
          exact absurd (by simp [h.1]) h2
  | cons y l1 ih =>
      cases l2 with
      | nil =>
          simp only [List.nil_append, List.cons_append, List.cons.injEq] at h
          exact absurd (by simp [h.1]) h1
      | cons z l2 =>
          simp only [List.cons_append, List.cons.injEq] at h
          have := ih l2 (fun hm => h1 (List.mem_cons_of_mem _ hm))
            (fun hm => h2 (List.mem_cons_of_mem _ hm)) h.2
          exact ⟨by rw [h.1, this.1], this.2⟩

theorem append_cons_inj_right {α : Type} (x : α) (l1 l2 r1 r2 : List α)
    (h1 : x ∉ r1) (h2 : x ∉ r2) (h : l1 ++ x :: r1 = l2 ++ x :: r2) : l1 = l2 ∧ r1 = r2 := by
  have hrev := congrArg List.reverse h
  simp only [List.reverse_append, List.reverse_cons, List.append_assoc, List.singleton_append]
    at hrev
  have := append_cons_inj_left x r1.reverse r2.reverse l1.reverse l2.reverse
    (by simpa using h1) (by simpa using h2) hrev
  exact ⟨List.reverse_injective this.2, List.reverse_injective this.1⟩

/-- Equal edge keys come from equal pairs when the two 'from' dialects, or the
two 'to' dialects, are without the character `>`. -/
theorem edgeKey_inj (a b c d : String) (hkey : edgeKey a b = edgeKey c d)
    (h : ('>' ∉ a.data ∧ '>' ∉ c.data) ∨ ('>' ∉ b.data ∧ '>' ∉ d.data)) :
    a = c ∧ b = d := by
  have hdata : a.data ++ '>' :: b.data = c.data ++ '>' :: d.data := by
    have := congrArg String.data hkey
    simpa [edgeKey] using this
  rcases h with ⟨h1, h2⟩ | ⟨h1, h2⟩
  · have := append_cons_inj_left '>' _ _ _ _ h1 h2 hdata
    exact ⟨String.ext this.1, String.ext this.2⟩
  · have := append_cons_inj_right '>' _ _ _ _ h1 h2 hdata
    exact ⟨String.ext this.1, String.ext this.2⟩

/-- The registry after `Add`: the list of the key of `(a, b)` gets `cb` at its
end, the list of every other key stays. -/
theorem Add_fns (t : Transpiler) (a b : String) (cb : Callback) (k : String) :
    GoMap.getD (t.Add a b cb).fns k [] =
      if edgeKey a b = k then GoMap.getD t.fns k [] ++ [cb] else GoMap.getD t.fns k [] := by
  have h : (t.Add a b cb).fns =
      GoMap.set t.fns (edgeKey a b) (GoMap.getD t.fns (edgeKey a b) [] ++ [cb]) := by
    unfold Transpiler.Add
    simp only []
    split
    · simp [Transpiler.appendFn, addExt_fns]
    · simp [Transpiler.appendFn, addExt_fns]
  rw [h]
  simp only [GoMap.getD, GoMap.get?_set]
  split
  · rename_i hk
    subst hk
    rfl
  · rfl

/-- The registry list of a key after a history of `Add` calls: the callbacks of
the calls with that key, in the order of the calls. -/
theorem fns_build (calls : List AddCall) (k : String) :
    GoMap.getD (build calls).fns k [] =
      (calls.filter (fun x => decide (edgeKey x.fromExt x.toExt = k))).map
        (fun x => x.transpile) := by
  induction calls using List.reverseRecOn with
  | nil => simp [build, New, GoMap.getD, GoMap.get?]
  | append_singleton calls c ih =>
      rw [build_append, Add_fns, ih, List.filter_append, List.map_append]
      by_cases hk : edgeKey c.fromExt c.toExt = k
      · simp [hk]
      · simp [hk]

/-- C11, as stated, fails: the pairs `(.a>.b, .c)` and `(.a, .b>.c)` differ and
have the same edge key, so the callback registered for the first is looked up
for the second, and `Transpile` from `.a` to `.b>.c` invokes it (the bytes 2
around the result). -/
theorem edgeKey_unique_counterexample :
    ((".a>.b", ".c") : String × String) ≠ (".a", ".b>.c") ∧
    edgeKey ".a>.b" ".c" = edgeKey ".a" ".b>.c" ∧
    ((New.Add ".a>.b" ".c" (cbWrap 2 2)).lookup ".a" ".b>.c").length = 1 ∧
    (build callsCollide).Path firstFound ".a" ".b>.c" = ([".a", ".b>.c"], none) ∧
    (build callsCollide).Transpile firstFound "x.a" ".b>.c" [0] = ([2, 1, 0, 1, 2], none) := by
  decide

/-- C11, amended: two different ordered pairs have different edge keys when
their two 'from' dialects, or their two 'to' dialects, are without the
character `>`; a callback registered with `Add(a, b, cb)` is then stored at the
end of the list of `(a, b)`, and the list looked up for the other pair is
untouched. -/
theorem edgeKey_unique (a b c d : String) (hne : (a, b) ≠ (c, d))
    (h : ('>' ∉ a.data ∧ '>' ∉ c.data) ∨ ('>' ∉ b.data ∧ '>' ∉ d.data)) :
    edgeKey a b ≠ edgeKey c d ∧
    ∀ (t : Transpiler) (cb : Callback),
      (t.Add a b cb).lookup a b = t.lookup a b ++ [cb] ∧
      (t.Add a b cb).lookup c d = t.lookup c d := by
  have hkey : edgeKey a b ≠ edgeKey c d := by
    intro hk
    obtain ⟨h1, h2⟩ := edgeKey_inj a b c d hk h
    exact hne (by rw [h1, h2])
  refine ⟨hkey, ?_⟩
  intro t cb
  constructor
  · simp [Transpiler.lookup, Add_fns]
  · simp [Transpiler.lookup, Add_fns, hkey]

/-- The pairs `(.svelte, .jsx)` and `(.svelte, .svelte)` of the tests: no
dialect has a `>`, the keys differ. -/
theorem edgeKey_unique_witness :
    ((".svelte", ".jsx") : String × String) ≠ (".svelte", ".svelte") ∧
    (('>' ∉ ".svelte".data ∧ '>' ∉ ".svelte".data) ∨
      ('>' ∉ ".jsx".data ∧ '>' ∉ ".svelte".data)) ∧
    edgeKey ".svelte" ".jsx" ≠ edgeKey ".svelte" ".svelte" ∧
    ∀ (t : Transpiler) (cb : Callback),
      (t.Add ".svelte" ".jsx" cb).lookup ".svelte" ".jsx" = t.lookup ".svelte" ".jsx" ++ [cb] ∧
      (t.Add ".svelte" ".jsx" cb).lookup ".svelte" ".svelte" = t.lookup ".svelte" ".svelte" :=
  ⟨by decide, Or.inl (by decide),
    edgeKey_unique ".svelte" ".jsx" ".svelte" ".svelte" (by decide) (Or.inl (by decide))⟩

/-- C13, as stated, fails: `Add(.a>.b, .c, cb)` on the fresh transpiler changes
the callback list of the other pair `(.a, .b>.c)`, which was never registered,
from empty to one callback. -/
theorem Add_appends_counterexample :
    ((".a", ".b>.c") : String × String) ≠ (".a>.b", ".c") ∧
    (New.lookup ".a" ".b>.c").length = 0 ∧
    ((New.Add ".a>.b" ".c" (cbWrap 2 2)).lookup ".a" ".b>.c").length = 1 := by
  decide

/-- C13, amended: `Add(a, b, cb)` appends `cb` as the last element of the
callback list of the key of `(a, b)` and keeps the earlier elements in their
order; the list of every pair with another edge key is unchanged; after a
history of `Add` calls the list of a pair holds the callbacks of the calls with
its edge key, in the order of the calls, so it is empty when no call had that
key. -/
theorem Add_appends (t : Transpiler) (a b : String) (cb : Callback) :
    (t.Add a b cb).lookup a b = t.lookup a b ++ [cb] ∧
    (∀ c d, edgeKey c d ≠ edgeKey a b → (t.Add a b cb).lookup c d = t.lookup c d) ∧
    (∀ c d, New.lookup c d = []) ∧
    (∀ (calls : List AddCall) (c d : String),
      (build calls).lookup c d =
        (calls.filter (fun x => decide (edgeKey x.fromExt x.toExt = edgeKey c d))).map
          (fun x => x.transpile)) ∧
    (∀ (calls : List AddCall) (c d : String),
      (∀ x ∈ calls, edgeKey x.fromExt x.toExt ≠ edgeKey c d) → (build calls).lookup c d = []) := by
  refine ⟨?_, ?_, ?_, ?_, ?_⟩
  · simp [Transpiler.lookup, Add_fns]
  · intro c d hk
    have hk2 : ¬ edgeKey a b = edgeKey c d := fun h => hk h.symm
    simp [Transpiler.lookup, Add_fns, hk2]
  · intro c d
    simp [Transpiler.lookup, New, GoMap.getD, GoMap.get?]
  · intro calls c d
    exact fns_build calls (edgeKey c d)
  · intro calls c d hno
    unfold Transpiler.lookup
    rw [fns_build]
    simp only [List.map_eq_nil_iff, List.filter_eq_nil_iff, decide_eq_true_eq]
    exact hno

/-- The two `.svelte` refinements of `TestMultiStep` are in the list in the
order of their registration, and the list of `(.md, .jsx)`, never registered,
is empty. -/
theorem Add_appends_witness :
    edgeKey ".jsx" ".jsx" ≠ edgeKey ".svelte" ".svelte" ∧
    (testMultiStep.Add ".svelte" ".svelte" (cbWrap 6 6)).lookup ".jsx" ".jsx" =
      testMultiStep.lookup ".jsx" ".jsx" ∧
    (∀ x ∈ callsMultiStep, edgeKey x.fromExt x.toExt ≠ edgeKey ".md" ".jsx") ∧
    (build callsMultiStep).lookup ".md" ".jsx" = [] ∧
    (build callsMultiStep).lookup ".svelte" ".svelte" = [cbWrap 3 3, cbWrap 4 4] :=
  ⟨by decide,
    (Add_appends testMultiStep ".svelte" ".svelte" (cbWrap 6 6)).2.1 ".jsx" ".jsx" (by decide),
    by decide,
    (Add_appends testMultiStep ".svelte" ".svelte" (cbWrap 6 6)).2.2.2.2 callsMultiStep
      ".md" ".jsx" (by decide),
    ((Add_appends testMultiStep ".svelte" ".svelte" (cbWrap 6 6)).2.2.2.1 callsMultiStep
      ".svelte" ".svelte").trans (by simp [callsMultiStep, edgeKey])⟩

/-! ## Ids in order of first appearance -/

theorem GoMap.get?_eq_none {κ ν : Type} [DecidableEq κ] (m : GoMap κ ν) (k : κ) :
    GoMap.get? m k = none ↔ k ∉ m.map (fun e => e.1) := by
  induction m with
  | nil => simp [GoMap.get?]
  | cons e m ih =>
      obtain ⟨k0, v0⟩ := e
      by_cases h0 : k0 = k
      · simp [GoMap.get?, h0]
      · have h1 : ¬ k = k0 := fun h => h0 h.symm
        simp [GoMap.get?, h0, h1, ih]

theorem GoMap.set_of_none {κ ν : Type} [DecidableEq κ] (m : GoMap κ ν) (k : κ) (v : ν)
    (h : GoMap.get? m k = none) : GoMap.set m k v = m ++ [(k, v)] := by
  induction m with
  | nil => rfl
  | cons e m ih =>
      obtain ⟨k0, v0⟩ := e
      by_cases h0 : k0 = k
      · simp [GoMap.get?, h0] at h
      · simp only [GoMap.get?, h0, if_false] at h
        simp [GoMap.set, h0, ih h]

theorem GoMap.set_of_get {κ ν : Type} [DecidableEq κ] (m : GoMap κ ν) (k : κ) (v : ν)
    (h : GoMap.get? m k = some v) : GoMap.set m k v = m := by
  induction m with
  | nil => simp [GoMap.get?] at h
  | cons e m ih =>
      obtain ⟨k0, v0⟩ := e
      by_cases h0 : k0 = k
      · simp only [GoMap.get?, h0, if_true, Option.some.injEq] at h
        simp [GoMap.set, h0, h]
      · simp only [GoMap.get?, h0, if_false] at h
        simp [GoMap.set, h0, ih h]

/-- The id maps list the dialects `seen` with their positions. -/
theorem addExt_seen (t : Transpiler) (seen : List String) (e : String)
    (hids : t.ids = seen.enum.map (fun p => (p.2, p.1))) (hexts : t.exts = seen.enum) :
    (t.addExt e).ids = (seeDialect seen e).enum.map (fun p => (p.2, p.1)) ∧
    (t.addExt e).exts = (seeDialect seen e).enum := by
  have hkeys : t.ids.map (fun x => x.1) = seen := by
    rw [hids, List.map_map]
    exact List.enum_map_snd seen
  have hlen : GoMap.len t.ids = seen.length := by
    rw [hids]; simp [GoMap.len]
  by_cases he : e ∈ seen
  · have hsome : ∃ i, GoMap.get? t.ids e = some i := by
      cases hg : GoMap.get? t.ids e with
      | some i => exact ⟨i, rfl⟩
      | none =>
          rw [GoMap.get?_eq_none, hkeys] at hg
          exact absurd he hg
    obtain ⟨i, hi⟩ := hsome
    have ht : t.addExt e = t := by simp [Transpiler.addExt, hi]
    have hs : seeDialect seen e = seen := by simp [seeDialect, he]
    rw [ht, hs]
    exact ⟨hids, hexts⟩
  · have hnone : GoMap.get? t.ids e = none := by
      rw [GoMap.get?_eq_none, hkeys]; exact he
    have hnone2 : GoMap.get? t.exts seen.length = none := by
      rw [GoMap.get?_eq_none, hexts, List.enum_map_fst]
      simp
    have hs : seeDialect seen e = seen ++ [e] := by simp [seeDialect, he]
    have henum : (seen ++ [e]).enum = seen.enum ++ [(seen.length, e)] := by
      simp [List.enum, List.enumFrom_append]
    constructor
    · simp only [Transpiler.addExt, hnone, hlen]
      rw [GoMap.set_of_none _ _ _ hnone, hs, henum, hids]
      simp
    · simp only [Transpiler.addExt, hnone, hlen]
      rw [GoMap.set_of_none _ _ _ hnone2, hs, henum, hexts]

theorem Add_exts (t : Transpiler) (a b : String) (cb : Callback) :
    (t.Add a b cb).exts = if a = b then (t.addExt a).exts else ((t.addExt a).addExt b).exts := by
  unfold Transpiler.Add
  simp only []
  split <;> rfl

theorem seeDialect_idem (seen : List String) (a : String) :
    seeDialect (seeDialect seen a) a = seeDialect seen a := by
  by_cases h : a ∈ seen
  · simp [seeDialect, h]
  · simp [seeDialect, h]

/-- After a history of `Add` calls, `ids` and `exts` list the dialects of the
calls in order of first appearance, each with its position. -/
theorem build_seen (calls : List AddCall) :
    (build calls).ids = (firstSeen (dialectsOf calls)).enum.map (fun p => (p.2, p.1)) ∧
    (build calls).exts = (firstSeen (dialectsOf calls)).enum := by
  induction calls using List.reverseRecOn with
  | nil => simp [build, New, dialectsOf, firstSeen]
  | append_singleton calls c ih =>
      have hd : firstSeen (dialectsOf (calls ++ [c])) =
          seeDialect (seeDialect (firstSeen (dialectsOf calls)) c.fromExt) c.toExt := by
        simp [dialectsOf, firstSeen, List.foldl_append]
      rw [build_append, Add_ids, Add_exts, hd]
      have h1 := addExt_seen (build calls) _ c.fromExt ih.1 ih.2
      by_cases hab : c.fromExt = c.toExt
      · rw [if_pos hab, if_pos hab, ← hab, seeDialect_idem]
        exact h1
      · rw [if_neg hab, if_neg hab]
        exact addExt_seen _ _ c.toExt h1.1 h1.2

/-- C12: in every state reached from `New()` by `Add` calls, `exts` is the
inverse of `ids`; `ids` lists the distinct dialects of the calls in order of
first appearance (the 'from' dialect of a call before its 'to' dialect), each
with its position, so that the ids are exactly `0 .. n-1`, and `exts` lists the
same pairs the other way round; a further `Add` call leaves the id of a dialect
that has one as it is. -/
theorem ids_invariant (calls : List AddCall) :
    (∀ i D, GoMap.get? (build calls).exts i = some D ↔
      GoMap.get? (build calls).ids D = some i) ∧
    (build calls).ids = (firstSeen (dialectsOf calls)).enum.map (fun p => (p.2, p.1)) ∧
    (build calls).exts = (firstSeen (dialectsOf calls)).enum ∧
    (build calls).ids.map (fun e => e.2) = List.range (GoMap.len (build calls).ids) ∧
    (∀ (a b : String) (cb : Callback) (D : String) (i : Nat),
      GoMap.get? (build calls).ids D = some i →
        GoMap.get? ((build calls).Add a b cb).ids D = some i) := by
  obtain ⟨hids, hexts⟩ := build_seen calls
  refine ⟨(Records_build calls).ids.exts_iff, hids, hexts, ?_, ?_⟩
  · rw [hids, List.map_map]
    have : ((fun e : String × Nat => e.2) ∘ fun p : Nat × String => (p.2, p.1)) =
        fun p => p.1 := rfl
    rw [this, List.enum_map_fst]
    simp [GoMap.len]
  · intro a b cb D i h
    exact Add_mono (build calls) a b cb D i h

/-- The history of `TestMultiStep`: `.jsx`, `.svelte`, `.md` get the ids 0, 1,
2 in this order, and registering `.md -> .jsx` afterwards leaves `.jsx` at 0. -/
theorem ids_invariant_witness :
    firstSeen (dialectsOf callsMultiStep) = [".jsx", ".svelte", ".md"] ∧
    (build callsMultiStep).ids = [(".jsx", 0), (".svelte", 1), (".md", 2)] ∧
    (build callsMultiStep).exts = [(0, ".jsx"), (1, ".svelte"), (2, ".md")] ∧
    GoMap.get? (build callsMultiStep).ids ".jsx" = some 0 ∧
    GoMap.get? ((build callsMultiStep).Add ".md" ".jsx" (cbWrap 7 7)).ids ".jsx" = some 0 :=
  ⟨by decide, by decide, by decide, by decide,
    (ids_invariant callsMultiStep).2.2.2.2 ".md" ".jsx" (cbWrap 7 7) ".jsx" 0 (by decide)⟩

/-! ## Registering again -/

/-- Method `Path` reads the id maps and the graph only. -/
theorem Path_congr (t t' : Transpiler) (hids : t'.ids = t.ids) (hexts : t'.exts = t.exts)
    (hgraph : t'.graph = t.graph) (tb : TieBreak) (D1 D2 : String) :
    t'.Path tb D1 D2 = t.Path tb D1 D2 := by
  unfold Transpiler.Path
  rw [hids, hexts, hgraph]

theorem addExt_of_known (t : Transpiler) (e : String) (i : Nat)
    (h : GoMap.get? t.ids e = some i) : t.addExt e = t := by
  simp [Transpiler.addExt, h]

/-- A second `Add` for a pair of different dialects that both have an id and
whose arc is in the graph with distance 1 changes the registry only. -/
theorem Add_again (t : Transpiler) (A B : String) (g : Callback) (ia ib : Nat)
    (hne : A ≠ B) (hA : GoMap.get? t.ids A = some ia) (hB : GoMap.get? t.ids B = some ib)
    (harc : GoMap.get? t.graph.arcs (ia, ib) = some 1) :
    (t.Add A B g).ids = t.ids ∧ (t.Add A B g).exts = t.exts ∧
      (t.Add A B g).graph = t.graph := by
  unfold Transpiler.Add
  simp only [if_neg hne, addExt_of_known t A ia hA, addExt_of_known t B ib hB,
    Transpiler.appendFn, GoMap.getD, hA, hB, Option.getD_some, dijkstra.Graph.AddArc,
    GoMap.set_of_get _ _ _ harc]
  exact ⟨trivial, trivial, trivial⟩

/-- After `Add(A, B, f)` with different dialects, both have an id and their
arc is in the graph with distance 1. -/
theorem Add_arc (t : Transpiler) (A B : String) (f : Callback) (hne : A ≠ B) :
    ∃ ia ib, GoMap.get? (t.Add A B f).ids A = some ia ∧
      GoMap.get? (t.Add A B f).ids B = some ib ∧
      GoMap.get? (t.Add A B f).graph.arcs (ia, ib) = some 1 := by
  have hA : (GoMap.get? (t.Add A B f).ids A).isSome :=
    (Add_known t A B f A).2 (Or.inr (Or.inl rfl))
  have hB : (GoMap.get? (t.Add A B f).ids B).isSome :=
    (Add_known t A B f B).2 (Or.inr (Or.inr rfl))
  obtain ⟨ia, hia⟩ := Option.isSome_iff_exists.1 hA
  obtain ⟨ib, hib⟩ := Option.isSome_iff_exists.1 hB
  refine ⟨ia, ib, hia, hib, ?_⟩
  have hab : ¬ A = B := hne
  rw [Add_ids, if_neg hab] at hia hib
  rw [Add_arcs, if_neg hab]
  simp [GoMap.getD, hia, hib, GoMap.get?_set]

/-- C14: after `Add(A, B, f)` for different dialects, a second `Add(A, B, g)`
leaves the id maps, the vertex set and the edge set as they are, the arc from
`A` to `B` being there once with distance 1, so that `Path` returns the same
result for every pair of dialects, whatever the tie-break of the query; the
callback list of `(A, B)` grows to `[..., f, g]`. -/
theorem Add_twice (t : Transpiler) (A B : String) (f g : Callback) (hne : A ≠ B) :
    ((t.Add A B f).Add A B g).ids = (t.Add A B f).ids ∧
    ((t.Add A B f).Add A B g).exts = (t.Add A B f).exts ∧
    ((t.Add A B f).Add A B g).graph.verts = (t.Add A B f).graph.verts ∧
    ((t.Add A B f).Add A B g).graph.arcs = (t.Add A B f).graph.arcs ∧
    GoMap.get? (t.Add A B f).graph.arcs
      (GoMap.getD (t.Add A B f).ids A 0, GoMap.getD (t.Add A B f).ids B 0) = some 1 ∧
    (∀ tb D1 D2, ((t.Add A B f).Add A B g).Path tb D1 D2 = (t.Add A B f).Path tb D1 D2) ∧
    ((t.Add A B f).Add A B g).lookup A B = t.lookup A B ++ [f, g] := by
  obtain ⟨ia, ib, hA, hB, harc⟩ := Add_arc t A B f hne
  obtain ⟨hids, hexts, hgraph⟩ := Add_again (t.Add A B f) A B g ia ib hne hA hB harc
  refine ⟨hids, hexts, by rw [hgraph], by rw [hgraph], ?_, ?_, ?_⟩
  · simpa [GoMap.getD, hA, hB] using harc
  · intro tb D1 D2
    exact Path_congr _ _ hids hexts hgraph tb D1 D2
  · simp [Transpiler.lookup, Add_fns]

/-- The pair `.svelte -> .jsx` of `TestMultiStep` registered a second time:
the graph keeps its one arc from 1 to 0 and the route from `.md` to `.jsx`. -/
theorem Add_twice_witness :
    ".svelte" ≠ ".jsx" ∧
    ((testMultiStep.Add ".svelte" ".jsx" (cbWrap 6 6)).Add ".svelte" ".jsx"
      (cbWrap 7 7)).graph.arcs = (testMultiStep.Add ".svelte" ".jsx" (cbWrap 6 6)).graph.arcs ∧
    (testMultiStep.Add ".svelte" ".jsx" (cbWrap 6 6)).graph.arcs = [((1, 0), 1), ((2, 1), 1)] ∧
    ((testMultiStep.Add ".svelte" ".jsx" (cbWrap 6 6)).Add ".svelte" ".jsx"
      (cbWrap 7 7)).Path firstFound ".md" ".jsx" = ([".md", ".svelte", ".jsx"], none) :=
  ⟨by decide,
    (Add_twice testMultiStep ".svelte" ".jsx" (cbWrap 6 6) (cbWrap 7 7) (by decide)).2.2.2.1,
    by decide,
    ((Add_twice testMultiStep ".svelte" ".jsx" (cbWrap 6 6) (cbWrap 7 7)
      (by decide)).2.2.2.2.2.1 firstFound ".md" ".jsx").trans (by decide)⟩

/-! ## The extension of the source path -/

theorem extLoop_drop (path : List Char) (n : Nat) :
    extLoop path n = [] ∨ ∃ i, i < n ∧ extLoop path n = path.drop i := by
  induction n with
  | zero => left; rfl
  | succ n ih =>
      unfold extLoop
      split
      · left; rfl
      · split
        · right; exact ⟨n, Nat.lt_succ_self n, rfl⟩
        · rcases ih with h | ⟨i, hi, h⟩
          · left; exact h
          · right; exact ⟨i, Nat.lt_succ_of_lt hi, h⟩

/-- The extension is an end of the path. -/
theorem filepathExt_drop (path : String) :
    ∃ i, i ≤ path.data.length ∧ (filepathExt path).data = path.data.drop i := by
  rcases extLoop_drop path.data path.data.length with h | ⟨i, hi, h⟩
  · refine ⟨path.data.length, Nat.le_refl _, ?_⟩
    show extLoop path.data path.data.length = path.data.drop path.data.length
    rw [h, List.drop_length]
  · exact ⟨i, Nat.le_of_lt hi, h⟩

/-- Trimming the extension and putting it back gives the path. -/
theorem trim_append_ext (path : String) :
    stringsTrimSuffix path (filepathExt path) ++ filepathExt path = path := by
  obtain ⟨i, hi, h⟩ := filepathExt_drop path
  have hlen : (filepathExt path).data.length = path.data.length - i := by
    rw [h, List.length_drop]
  have hsub : path.data.length - (path.data.length - i) = i := by omega
  have hsuf : stringsHasSuffix path (filepathExt path) = true := by
    simp only [stringsHasSuffix, hlen, hsub, Bool.and_eq_true, decide_eq_true_eq]
    exact ⟨Nat.sub_le _ _, h.symm⟩
  have htrim : (stringsTrimSuffix path (filepathExt path)).data = path.data.take i := by
    simp only [stringsTrimSuffix, hsuf, if_true, hlen, hsub]
  apply String.ext
  rw [String.data_append, htrim, h]
  exact List.take_append_drop i path.data

theorem extLoop_extRev (path : List Char) (n : Nat) (hn : n ≤ path.length) :
    extLoop path n = extRev (path.take n).reverse (path.drop n) := by
  induction n with
  | zero => simp [extLoop, extRev]
  | succ n ih =>
      have hlt : n < path.length := hn
      have hget : path.getD n ' ' = path[n] := by
        simp [List.getD_eq_getElem?_getD, List.getElem?_eq_getElem hlt]
      have htake : (path.take (n + 1)).reverse = path[n] :: (path.take n).reverse := by
        rw [List.take_succ, List.getElem?_eq_getElem hlt]
        simp
      have hdrop : path.drop n = path[n] :: path.drop (n + 1) := by
        exact List.drop_eq_getElem_cons hlt
      rw [htake]
      unfold extLoop extRev
      rw [hget]
      split
      · rfl
      · split
        · rename_i hdot
          rw [hdrop, hdot]
        · rw [ih (Nat.le_of_lt hlt), hdrop]

theorem extRev_spec (r acc : List Char) :
    extRev r acc =
      if '.' ∈ r.takeWhile (fun c => decide (c ≠ '/')) then
        '.' :: ((r.takeWhile (fun c => decide (c ≠ '/'))).takeWhile
          (fun c => decide (c ≠ '.'))).reverse ++ acc
      else [] := by
  induction r generalizing acc with
  | nil => simp [extRev]
  | cons c r ih =>
      unfold extRev
      by_cases h1 : c = '/'
      · simp [h1]
      · by_cases h2 : c = '.'
        · simp [h2]
        · have h3 : ¬ '.' = c := fun h => h2 h.symm
          have htw1 : (c :: r).takeWhile (fun c => decide (c ≠ '/')) =
              c :: r.takeWhile (fun c => decide (c ≠ '/')) := by
            simp [List.takeWhile_cons, h1]
          have htw2 : (c :: r.takeWhile (fun c => decide (c ≠ '/'))).takeWhile
              (fun c => decide (c ≠ '.')) =
              c :: (r.takeWhile (fun c => decide (c ≠ '/'))).takeWhile
                (fun c => decide (c ≠ '.')) := by
            simp [List.takeWhile_cons, h2]
          rw [htw1, htw2, if_neg h1, if_neg h2, ih]
          simp only [List.mem_cons, h3, false_or, List.reverse_cons, List.append_assoc,
            List.singleton_append, List.cons_append, List.nil_append]

/-- Function `filepath.Ext` returns the suffix that starts at the last `.` of
the final element of the path, or the empty string. -/
theorem filepathExt_spec (path : String) :
    (filepathExt path).data = fromLastDot (finalElement path.data) := by
  unfold filepathExt
  simp only [extLoop_extRev path.data path.data.length (Nat.le_refl _), List.take_length,
    List.drop_length, extRev_spec, fromLastDot, finalElement, List.mem_reverse,
    List.reverse_reverse, List.append_nil]

/-- A successful `Path` after a history of `Add` calls starts at its source
dialect. -/
theorem Path_head (calls : List AddCall) (tb : TieBreak) (D1 D2 : String) (hops : List String)
    (hpath : (build calls).Path tb D1 D2 = (hops, none)) : hops.head? = some D1 := by
  by_cases hne : D1 = D2
  · subst hne
    simp only [Transpiler.Path, if_true, Prod.mk.injEq, and_true] at hpath
    rw [← hpath]
    rfl
  · exact (Path_ok_chain calls tb D1 D2 hops hne hpath).2.1

/-- C18, as stated, fails: a refinement callback of the source dialect may
assign the whole file.  With `*file = transpiler.File{Data: file.Data}`
registered as the first `.svelte` refinement, the second `.svelte` refinement of
`Transpile("hello.svelte", ".svelte", ...)` observes the path `""`, not the
original path. -/
theorem split_lossless_counterexample :
    (build callsReset).Path firstFound (filepathExt "hello.svelte") ".svelte" =
      ([".svelte"], none) ∧
    (build callsReset).lookup (filepathExt "hello.svelte") (filepathExt "hello.svelte") =
      [cbReset, cbWrap 1 1] ∧
    ((build callsReset).TranspileLog firstFound "hello.svelte" ".svelte" [0]).1[1]? =
      some ⟨cbWrap 1 1, { base := "", ext := "", Data := [0] }⟩ ∧
    File.Path { base := "", ext := "", Data := [0] } = "" ∧
    ((build callsReset).TranspileLog firstFound "hello.svelte" ".svelte" [0]).1.map
      (fun inv => inv.file.Path) = ["hello.svelte", ""] :=
  ⟨by decide, rfl, rfl, by decide, by decide⟩

/-- C18, amended: splitting the source path is lossless: `TrimSuffix(fromPath,
Ext(fromPath))` followed by `Ext(fromPath)` is `fromPath`, so the file that
`Transpile` creates reports `Path() = fromPath`.  After a history of `Add`
calls and on a resolved route, the refinement callback number `j` of the source
dialect is invoked, as invocation number `j` of the call, and observes
`fromPath`, when every callback invoked before it returned nil and left `base`
and `ext` of the file as it found them; the first one always is. -/
theorem split_lossless (fromPath : String) :
    stringsTrimSuffix fromPath (filepathExt fromPath) ++ filepathExt fromPath = fromPath ∧
    (∀ code : Bytes,
      File.Path ⟨stringsTrimSuffix fromPath (filepathExt fromPath), filepathExt fromPath, code⟩
        = fromPath) ∧
    (∀ code : Bytes, (sourceFile fromPath code).Path = fromPath) ∧
    (∀ (calls : List AddCall) (tb : TieBreak) (toExt : String) (code : Bytes)
      (hops : List String) (j : Nat) (fn : Callback),
      (build calls).Path tb (filepathExt fromPath) toExt = (hops, none) →
      ((build calls).lookup (filepathExt fromPath) (filepathExt fromPath))[j]? = some fn →
      (∀ a ∈ ((build calls).TranspileLog tb fromPath toExt code).1.take j,
        a.err = none ∧ a.keeps) →
      ∃ inv, ((build calls).TranspileLog tb fromPath toExt code).1[j]? = some inv ∧
        inv.fn = fn ∧ inv.file.Path = fromPath) := by
  have hsplit := trim_append_ext fromPath
  refine ⟨hsplit, fun _ => hsplit, fun _ => hsplit, ?_⟩
  intro calls tb toExt code hops j fn hpath hfn hbefore
  have hsched := scheduleExt_refinement (build calls) hops (filepathExt fromPath) j fn
    (Path_head calls tb _ _ hops hpath) hfn
  obtain ⟨inv, hinv, hinvfn, _, _, hp⟩ := TranspileLog_observes (build calls) tb fromPath toExt
    code hops j (filepathExt fromPath) fn hpath hsched hbefore
  exact ⟨inv, hinv, hinvfn, hp.trans hsplit⟩

/-- The run of `TestMultiStep` from `hello.svelte`: the file starts as
`hello.svelte`, and the second `.svelte` refinement is invoked second and sees
`hello.svelte`. -/
theorem split_lossless_witness :
    stringsTrimSuffix "hello.md" (filepathExt "hello.md") ++ filepathExt "hello.md"
      = "hello.md" ∧
    (build callsMultiStep).Path firstFound (filepathExt "hello.svelte") ".jsx" =
      ([".svelte", ".jsx"], none) ∧
    ((build callsMultiStep).lookup (filepathExt "hello.svelte")
      (filepathExt "hello.svelte"))[1]? = some (cbWrap 4 4) ∧
    (∀ a ∈ ((build callsMultiStep).TranspileLog firstFound "hello.svelte" ".jsx" [0]).1.take 1,
      a.err = none ∧ a.keeps) ∧
    (∃ inv, ((build callsMultiStep).TranspileLog firstFound "hello.svelte" ".jsx" [0]).1[1]? =
        some inv ∧ inv.fn = cbWrap 4 4 ∧ inv.file.Path = "hello.svelte") ∧
    ((build callsMultiStep).TranspileLog firstFound "hello.svelte" ".jsx" [0]).1[1]? =
      some ⟨cbWrap 4 4, { base := "hello", ext := ".svelte", Data := [3, 0, 3] }⟩ :=
  ⟨(split_lossless "hello.md").1, by decide, rfl, by decide,
    (split_lossless "hello.svelte").2.2.2 callsMultiStep firstFound ".jsx" [0]
      [".svelte", ".jsx"] 1 (cbWrap 4 4) (by decide) rfl (by decide),
    rfl⟩

/-- The extension is empty, or a `.` followed by characters that are neither
`.` nor the path separator. -/
theorem filepathExt_shape (path : String) :
    (filepathExt path).data = [] ∨
      ∃ rest, (filepathExt path).data = '.' :: rest ∧ '.' ∉ rest ∧ '/' ∉ rest := by
  rw [filepathExt_spec]
  unfold fromLastDot
  split
  · right
    refine ⟨_, rfl, ?_, ?_⟩
    · intro hmem
      rw [List.mem_reverse] at hmem
      have := List.mem_takeWhile_imp hmem
      simp at this
    · intro hmem
      rw [List.mem_reverse] at hmem
      have h1 := (List.takeWhile_prefix _).subset hmem
      unfold finalElement at h1
      rw [List.reverse_reverse] at h1
      have := List.mem_takeWhile_imp h1
      simp at this
  · left; rfl

theorem registered_ssr (a b : String) (h : Registered callsSsr a b) :
    (a = ".jsx" ∧ b = ".ssr.js") ∨ (a = ".ssr.js" ∧ b = ".min.js") := by
  obtain ⟨_, c, hc, ha, hb⟩ := h
  simp only [callsSsr, List.mem_cons, List.mem_singleton, List.not_mem_nil, or_false] at hc
  rcases hc with rfl | rfl
  · exact Or.inl ⟨ha.symm, hb.symm⟩
  · exact Or.inr ⟨ha.symm, hb.symm⟩

/-- With `.jsx -> .ssr.js` and `.ssr.js -> .min.js` registered, the route from
`.jsx` to `.min.js` goes through `.ssr.js`, whatever the tie-break. -/
theorem Path_ssr (tb : TieBreak) :
    (build callsSsr).Path tb ".jsx" ".min.js" = ([".jsx", ".ssr.js", ".min.js"], none) := by
  have hne : (".jsx" : String) ≠ ".min.js" := by decide
  have h1 : Registered callsSsr ".jsx" ".ssr.js" :=
    ⟨by decide, ⟨".jsx", ".ssr.js", cbWrap 1 1⟩, by simp [callsSsr], rfl, rfl⟩
  have h2 : Registered callsSsr ".ssr.js" ".min.js" :=
    ⟨by decide, ⟨".ssr.js", ".min.js", cbWrap 2 2⟩, by simp [callsSsr], rfl, rfl⟩
  have hchain : IsChain callsSsr [".jsx", ".ssr.js", ".min.js"] := ⟨h1, h2, trivial⟩
  obtain ⟨hops, hpath⟩ :=
    Path_of_chain callsSsr tb ".jsx" ".min.js" hne [".ssr.js", ".min.js"] hchain rfl
  obtain ⟨hc, hhead, hlast, hmin⟩ := Path_ok_chain callsSsr tb ".jsx" ".min.js" hops hne hpath
  have hlen := hmin [".ssr.js", ".min.js"] hchain rfl
  rw [hpath]
  cases hops with
  | nil => simp at hhead
  | cons x rest =>
    simp only [List.head?_cons, Option.some.injEq] at hhead
    subst hhead
    cases rest with
    | nil => exact absurd (Option.some.inj hlast) (by decide)
    | cons y rest =>
      have hy : y = ".ssr.js" := by
        rcases registered_ssr _ _ hc.1 with h | h
        · exact h.2
        · exact absurd h.1 (by decide)
      subst hy
      cases rest with
      | nil =>
          simp only [List.getLast?_cons_cons, List.getLast?_singleton,
            Option.some.injEq] at hlast
          exact absurd hlast (by decide)
      | cons z rest =>
        have hz : z = ".min.js" := by
          rcases registered_ssr _ _ hc.2.1 with h | h
          · exact absurd h.1 (by decide)
          · exact h.2
        subst hz
        cases rest with
        | nil => rfl
        | cons w rest => simp at hlen

/-- C19: the source dialect that `Transpile` derives from `fromPath` is the
suffix starting at the last `.` of the final path element, or the empty string
when that element has no `.`; it is empty, or begins with `.` and has no
further `.` and no path separator.  So the multi-dot dialect `.ssr.js` is never
the source dialect (`hello.ssr.js` has the source dialect `.js`, and its
`Transpile` to `.min.js` finds no path from `.js` although `.ssr.js ->
.min.js` is registered), while it can be an intermediate hop or a target,
whatever the tie-break of the query. -/
theorem source_dialect (fromPath : String) :
    (filepathExt fromPath).data = fromLastDot (finalElement fromPath.data) ∧
    (filepathExt fromPath = "" ∨
      ∃ rest, (filepathExt fromPath).data = '.' :: rest ∧ '.' ∉ rest ∧ '/' ∉ rest) ∧
    filepathExt fromPath ≠ ".ssr.js" ∧
    filepathExt "hello.ssr.js" = ".js" ∧
    (∀ tb, (build callsSsr).Path tb ".jsx" ".min.js" =
      ([".jsx", ".ssr.js", ".min.js"], none)) ∧
    (∀ tb, (build callsSsr).Path tb ".jsx" ".ssr.js" = ([".jsx", ".ssr.js"], none)) ∧
    (∀ tb, (build callsSsr).Transpile tb "hello.ssr.js" ".min.js" [0] =
      ([], some (errNoPathFromTo ErrNoPath ".js" ".min.js"))) := by
  refine ⟨filepathExt_spec fromPath, ?_, ?_, by decide, Path_ssr, ?_, ?_⟩
  rotate_left 2
  · intro tb
    exact Path_direct callsSsr tb ".jsx" ".ssr.js" (by decide)
      ⟨by decide, ⟨".jsx", ".ssr.js", cbWrap 1 1⟩, by simp [callsSsr], rfl, rfl⟩
  · intro tb
    have hext : filepathExt "hello.ssr.js" = ".js" := by decide
    have hp : (build callsSsr).Path tb (filepathExt "hello.ssr.js") ".min.js" =
        ([], some (errNoPathFromTo ErrNoPath ".js" ".min.js")) := by
      rw [hext]
      exact Path_of_unknown (build callsSsr) tb ".js" ".min.js" (by decide)
        (Or.inl (by decide))
    simp [Transpiler.Transpile, Transpiler.TranspileLog, hp]
  · rcases filepathExt_shape fromPath with h | h
    · left; exact String.ext h
    · right; exact h
  · intro heq
    rcases filepathExt_shape fromPath with h | ⟨rest, h, hdot, _⟩
    · rw [heq] at h
      exact absurd h (by decide)
    · rw [heq] at h
      have hrest : rest = ['s', 's', 'r', '.', 'j', 's'] := by
        have : (".ssr.js" : String).data = '.' :: ['s', 's', 'r', '.', 'j', 's'] := by decide
        rw [this] at h
        exact (List.cons.inj h).2.symm
      rw [hrest] at hdot
      exact hdot (by decide)

/-! ## The errors of `Path` -/

open dijkstra in
/-- A graph without arcs has no route of one arc or more. -/
theorem reach_no_arcs (g : Graph) (h : g.arcs = []) (s j d : Nat) (hr : g.Reach s j d) :
    d = s := by
  obtain ⟨rest, hroute, _⟩ := hr
  cases rest with
  | nil => exact hroute
  | cons u r =>
      have := hroute.1
      simp [Graph.succs, h] at this

/-- C15: the request `Path(".svelte", ".jsx")` of `TestNoPath`, whose two
dialects are known and joined by no route, fails with the error
`fmt.Errorf("transpiler: %w", err)`: the format has no place for a dialect and
the call passes none, whatever the tie-break of the query.  The request
`Path(".svelte", ".jsx")` of `TestNoExt`, where `.jsx` is unknown, fails with
`fmt.Errorf("transpiler: %w from %q to %q", ErrNoPath, ".svelte", ".jsx")`,
which is given both names. -/
theorem Path_error_names_no_route (tb : TieBreak) :
    (build callsNoPath).Path tb ".svelte" ".jsx" =
      ([], some (Error.errorf "transpiler: %w" [] dijkstra.ErrNoPath)) ∧
    (build callsNoExt).Path tb ".svelte" ".jsx" =
      ([], some (Error.errorf "transpiler: %w from %q to %q" [".svelte", ".jsx"]
        ErrNoPath)) := by
  constructor
  · have h := Path_no_reach (build callsNoPath) tb ".svelte" ".jsx" 0 1 (by decide)
      (by decide) (by decide) (by
        intro j hr
        have := reach_no_arcs (build callsNoPath).graph (by decide) 0 j 1 hr
        exact absurd this (by decide))
    exact h
  · exact Path_of_unknown (build callsNoExt) tb ".svelte" ".jsx" (by decide)
      (Or.inr (by decide))

/-! ## Routes of the search have no repeated vertex -/

open dijkstra in
theorem expand_fresh (g : Graph) (visited : List Nat) (frontier : List (List Nat))
    (h : ∀ p ∈ frontier, p.Nodup ∧ ∀ v ∈ p, v ∈ visited) :
    ∀ q ∈ expand g visited frontier,
      q.Nodup ∧ ∀ v ∈ q, v ∈ visited ++ (expand g visited frontier).filterMap List.head? := by
  intro q hq
  obtain ⟨u, rest, w, hp, _, hvis, rfl⟩ := (mem_expand g visited frontier q).1 hq
  obtain ⟨hnd, hsub⟩ := h _ hp
  constructor
  · exact List.nodup_cons.2 ⟨fun hmem => hvis (hsub w hmem), hnd⟩
  · intro v hv
    rcases List.mem_cons.1 hv with rfl | hv
    · apply List.mem_append_right
      rw [List.mem_filterMap]
      exact ⟨_, hq, rfl⟩
    · exact List.mem_append_left _ (hsub v hv)

open dijkstra in
theorem search_nodup (tb : TieBreak) (g : Graph) (dst : Nat) (fuel : Nat) :
    ∀ (visited : List Nat) (frontier : List (List Nat)) (r : List Nat),
      (∀ p ∈ frontier, p.Nodup ∧ ∀ v ∈ p, v ∈ visited) →
      search tb g dst fuel visited frontier = some r → r.Nodup := by
  induction fuel with
  | zero =>
      intro visited frontier r h hs
      simp only [search, Option.map_eq_some'] at hs
      obtain ⟨p, hpick, rfl⟩ := hs
      exact List.nodup_reverse.2 (h p (List.mem_filter.1 (tb.pick_mem _ _ _ hpick)).1).1
  | succ n ih =>
      intro visited frontier r h hs
      simp only [search] at hs
      cases hpick : tb.pick g (frontier.filter (fun p => decide (p.head? = some dst))) with
      | some p =>
          rw [hpick] at hs
          simp only [Option.some.injEq] at hs
          subst hs
          exact List.nodup_reverse.2 (h p (List.mem_filter.1 (tb.pick_mem _ _ _ hpick)).1).1
      | none =>
          rw [hpick] at hs
          exact ih _ _ r (expand_fresh g visited frontier h) hs

open dijkstra in
/-- A result of `Shortest` has no repeated vertex. -/
theorem Shortest_nodup (g : Graph) (tb : TieBreak) (src dst : Nat) (best : BestPath)
    (h : g.Shortest tb src dst = .ok best) : best.Path.Nodup := by
  unfold Graph.Shortest at h
  split at h
  · split at h
    · rename_i p hs
      cases h
      apply search_nodup tb g dst g.arcs.length [src] [[src]] p _ hs
      intro q hq
      simp only [List.mem_singleton] at hq
      subst hq
      exact ⟨List.nodup_singleton src, fun v hv => hv⟩
    · cases h
  · cases h

open dijkstra in
theorem route_vertex (g : Graph) (src : Nat) (p : List Nat) (h : g.Route src p) :
    ∀ v ∈ p, v = src ∨ ∃ u d, ((u, v), d) ∈ g.arcs := by
  induction p with
  | nil => intro v hv; cases hv
  | cons w rest ih =>
      cases rest with
      | nil =>
          intro v hv
          simp only [List.mem_singleton] at hv
          subst hv
          exact Or.inl h
      | cons u r =>
          intro v hv
          rcases List.mem_cons.1 hv with rfl | hv
          · obtain ⟨d, hd⟩ := (mem_succs g u v).1 h.1
            exact Or.inr ⟨u, d, hd⟩
          · exact ih h.2 v hv

/-- A success of `Path` between different dialects is a result of `Shortest`
between their ids, read through `exts`. -/
theorem Path_ok_best (t : Transpiler) (tb : TieBreak) (D1 D2 : String) (hops : List String)
    (hne : D1 ≠ D2) (hpath : t.Path tb D1 D2 = (hops, none)) :
    ∃ s d best, GoMap.get? t.ids D1 = some s ∧ GoMap.get? t.ids D2 = some d ∧
      t.graph.Shortest tb s d = .ok best ∧
      hops = best.Path.map (fun id => GoMap.getD t.exts id "") := by
  unfold Transpiler.Path at hpath
  rw [if_neg hne] at hpath
  cases h1 : GoMap.get? t.ids D1 with
  | none => simp [h1] at hpath
  | some s =>
      cases h2 : GoMap.get? t.ids D2 with
      | none => simp [h1, h2] at hpath
      | some d =>
          simp only [h1, h2, GoMap.getD, Option.isNone_some, Option.getD_some] at hpath
          cases hs : t.graph.Shortest tb s d with
          | error e => simp [hs] at hpath
          | ok best =>
              simp only [hs, Bool.false_eq_true, if_false, Prod.mk.injEq, and_true] at hpath
              exact ⟨s, d, best, rfl, rfl, hs, hpath.symm⟩

open dijkstra in
/-- After a history of `Add` calls every vertex of a route from the id of a
dialect is the id of a dialect. -/
theorem route_known (calls : List AddCall) (D1 : String) (s : Nat)
    (hs : GoMap.get? (build calls).ids D1 = some s) (p : List Nat)
    (hroute : (build calls).graph.Route s p) :
    ∀ v ∈ p, ∃ D, GoMap.get? (build calls).ids D = some v := by
  intro v hv
  rcases route_vertex _ s p hroute v hv with rfl | ⟨u, w, harc⟩
  · exact ⟨D1, hs⟩
  · obtain ⟨a, b, _, _, hb⟩ := (Records_build calls).reg_of_arcs u v w harc
    exact ⟨b, hb⟩

/-- The hops of a successful `Path` between different dialects are known
dialects, none twice. -/
theorem Path_ok_nodup (calls : List AddCall) (tb : TieBreak) (D1 D2 : String) (hops : List String)
    (hne : D1 ≠ D2) (hpath : (build calls).Path tb D1 D2 = (hops, none)) :
    hops.Nodup ∧ ∀ h ∈ hops, (GoMap.get? (build calls).ids h).isSome := by
  have hrec := Records_build calls
  obtain ⟨s, d, best, hs, _, hsh, hhops⟩ := Path_ok_best (build calls) tb D1 D2 hops hne hpath
  obtain ⟨rest, hbest, hroute, _⟩ := Shortest_ok _ tb s d best hsh
  have hnd := Shortest_nodup _ tb s d best hsh
  have hknown : ∀ v ∈ best.Path, ∃ D, GoMap.get? (build calls).ids D = some v := by
    intro v hv
    rw [hbest, List.mem_reverse] at hv
    exact route_known calls D1 s hs _ hroute v hv
  constructor
  · rw [hhops]
    apply List.Nodup.map_on _ hnd
    intro x hx y hy hxy
    obtain ⟨Dx, hDx⟩ := hknown x hx
    obtain ⟨Dy, hDy⟩ := hknown y hy
    rw [exts_of_ids _ hrec.ids Dx x hDx, exts_of_ids _ hrec.ids Dy y hDy] at hxy
    subst hxy
    rw [hDx] at hDy
    exact Option.some.inj hDy
  · intro h hh
    rw [hhops, List.mem_map] at hh
    obtain ⟨v, hv, rfl⟩ := hh
    obtain ⟨D, hD⟩ := hknown v hv
    rw [exts_of_ids _ hrec.ids D v hD, hD]
    rfl

theorem isChain_pairs (calls : List AddCall) (l : List String) (h : IsChain calls l) :
    ∀ i, i + 1 < l.length → Registered calls (l.getD i "") (l.getD (i + 1) "") := by
  induction l with
  | nil => intro i hi; simp at hi
  | cons a l ih =>
      cases l with
      | nil => intro i hi; simp at hi
      | cons b l =>
          intro i hi
          cases i with
          | zero => exact h.1
          | succ i =>
              have := ih h.2 i (by simpa using hi)
              simpa using this

/-- The registry holds a callback for a registered pair. -/
theorem lookup_of_registered (calls : List AddCall) (a b : String)
    (h : Registered calls a b) : (build calls).lookup a b ≠ [] := by
  obtain ⟨_, c, hc, hca, hcb⟩ := h
  unfold Transpiler.lookup
  rw [fns_build]
  intro hnil
  simp only [List.map_eq_nil_iff, List.filter_eq_nil_iff, decide_eq_true_eq] at hnil
  exact hnil c hc (by rw [hca, hcb])

/-- Whether `Path` succeeds between different dialects does not depend on the
tie-break of the query. -/
theorem Path_tiebreak (calls : List AddCall) (tb tb' : TieBreak) (D1 D2 : String)
    (hops : List String) (hpath : (build calls).Path tb D1 D2 = (hops, none)) :
    ∃ hops', (build calls).Path tb' D1 D2 = (hops', none) := by
  by_cases hne : D1 = D2
  · subst hne
    exact ⟨[D1], by simp [Transpiler.Path]⟩
  · obtain ⟨hchain, hhead, hlast, _⟩ := Path_ok_chain calls tb D1 D2 hops hne hpath
    cases hops with
    | nil => simp at hhead
    | cons x mid =>
        simp only [List.head?_cons, Option.some.injEq] at hhead
        subst hhead
        exact Path_of_chain calls tb' x D2 hne mid hchain hlast

theorem scheduleFrom_transition (t : Transpiler) (rest : List String) :
    ∀ (d : String) (i : Nat), i < rest.length →
      ∀ fn ∈ t.lookup ((d :: rest).getD i "") ((d :: rest).getD (i + 1) ""),
        fn ∈ scheduleFrom t d rest := by
  induction rest with
  | nil => intro d i hi; simp at hi
  | cons e r ih =>
      intro d i hi fn hfn
      cases i with
      | zero =>
          simp only [scheduleFrom, List.mem_append]
          exact Or.inl (Or.inl hfn)
      | succ k =>
          have := ih e k (by simpa using hi) fn (by simpa using hfn)
          simp only [scheduleFrom, List.mem_append]
          exact Or.inr this

/-- The schedule of a route holds the transition callbacks of each of its
hops. -/
theorem schedule_transition (t : Transpiler) (hops : List String) (i : Nat)
    (hi : i + 1 < hops.length) :
    ∀ fn ∈ t.lookup (hops.getD i "") (hops.getD (i + 1) ""), fn ∈ schedule t hops := by
  cases hops with
  | nil => simp at hi
  | cons d rest =>
      intro fn hfn
      simp only [schedule, List.mem_append]
      exact Or.inr (scheduleFrom_transition t rest d i (by simpa using hi) fn hfn)

/-- C17, as stated, fails in its last part: `Transpile` stops at the first
callback that fails.  With the registrations of `TestMultiStep`, the second
`.svelte` refinement failing, the route from `.md` to `.jsx` is valid, with the
hop from `.svelte` to `.jsx`, but `Transpile("hello.md", ".jsx", ...)` invokes
three callbacks, none of them the transition callback of that hop. -/
theorem Path_valid_counterexample :
    ".md" ≠ ".jsx" ∧
    testAbort.Path firstFound ".md" ".jsx" = ([".md", ".svelte", ".jsx"], none) ∧
    testAbort.Path firstFound (filepathExt "hello.md") ".jsx" =
      ([".md", ".svelte", ".jsx"], none) ∧
    testAbort.lookup ".svelte" ".jsx" = [cbWrap 2 2] ∧
    (testAbort.TranspileLog firstFound "hello.md" ".jsx" [0]).1.length = 3 ∧
    ¬ ∃ inv ∈ (testAbort.TranspileLog firstFound "hello.md" ".jsx" [0]).1,
      inv.fn ∈ testAbort.lookup ".svelte" ".jsx" := by
  refine ⟨by decide, by decide, by decide, rfl, by decide, ?_⟩
  have hlog : (testAbort.TranspileLog firstFound "hello.md" ".jsx" [0]).1 =
      [⟨cbWrap 5 5, { base := "hello", ext := ".md", Data := [0] }⟩,
       ⟨cbWrap 3 3, { base := "hello", ext := ".svelte", Data := [5, 0, 5] }⟩,
       ⟨cbFail (Error.new "boom"),
         { base := "hello", ext := ".svelte", Data := [3, 5, 0, 5, 3] }⟩] := rfl
  have hlook : testAbort.lookup ".svelte" ".jsx" = [cbWrap 2 2] := rfl
  have hdiff : ∀ fn : Callback, (fn ⟨"", "", []⟩).1.Data ≠ [2, 2] → fn ∉ [cbWrap 2 2] := by
    intro fn h hmem
    rw [List.mem_singleton] at hmem
    subst hmem
    exact h rfl
  rintro ⟨inv, hinv, hmem⟩
  rw [hlog] at hinv
  rw [hlook] at hmem
  simp only [List.mem_cons, List.mem_singleton, List.not_mem_nil, or_false] at hinv
  rcases hinv with rfl | rfl | rfl
  · exact hdiff _ (by decide) hmem
  · exact hdiff _ (by decide) hmem
  · exact hdiff _ (by decide) hmem

/-- C17, amended: after a history of `Add` calls, the hops of a successful
`Path(D1, D2)` between different dialects are a valid route: at least two
dialects, the first `D1`, the last `D2`, none twice, all known, and the
registry holds at least one callback for every consecutive pair, which is a
registered transform between different dialects.  A `Transpile` call from `D1`
to `D2` in which every invoked callback returns nil resolves such a route,
returns a nil error and invokes at least one transition callback for each of
its hops. -/
theorem Path_valid (calls : List AddCall) (tb : TieBreak) (D1 D2 : String)
    (hops : List String) (hne : D1 ≠ D2)
    (hpath : (build calls).Path tb D1 D2 = (hops, none)) :
    2 ≤ hops.length ∧ hops.head? = some D1 ∧ hops.getLast? = some D2 ∧ hops.Nodup ∧
    (∀ h ∈ hops, (GoMap.get? (build calls).ids h).isSome) ∧
    (∀ i, i + 1 < hops.length →
      Registered calls (hops.getD i "") (hops.getD (i + 1) "") ∧
      (build calls).lookup (hops.getD i "") (hops.getD (i + 1) "") ≠ []) ∧
    (∀ (tb' : TieBreak) (fromPath : String) (code : Bytes), filepathExt fromPath = D1 →
      (∀ inv ∈ ((build calls).TranspileLog tb' fromPath D2 code).1, inv.err = none) →
      ∃ hops', (build calls).Path tb' D1 D2 = (hops', none) ∧
        ((build calls).Transpile tb' fromPath D2 code).2 = none ∧
        ∀ i, i + 1 < hops'.length →
          ∃ inv ∈ ((build calls).TranspileLog tb' fromPath D2 code).1,
            inv.fn ∈ (build calls).lookup (hops'.getD i "") (hops'.getD (i + 1) "")) := by
  obtain ⟨hchain, hhead, hlast, _⟩ := Path_ok_chain calls tb D1 D2 hops hne hpath
  obtain ⟨hnd, hknown⟩ := Path_ok_nodup calls tb D1 D2 hops hne hpath
  refine ⟨?_, hhead, hlast, hnd, hknown, ?_, ?_⟩
  · cases hops with
    | nil => simp at hhead
    | cons x rest =>
        cases rest with
        | nil =>
            simp only [List.head?_cons, List.getLast?_singleton, Option.some.injEq] at hhead hlast
            exact absurd (hhead.symm.trans hlast) hne
        | cons y rest => simp
  · intro i hi
    have hreg := isChain_pairs calls hops hchain i hi
    exact ⟨hreg, lookup_of_registered calls _ _ hreg⟩
  · intro tb' fromPath code hext hnil
    subst hext
    obtain ⟨hops', hpath'⟩ := Path_tiebreak calls tb tb' _ D2 hops hpath
    have hnone := TranspileLog_clean (build calls) tb' fromPath D2 code hops' hpath' hnil
    obtain ⟨hlog, _, _⟩ :=
      (TranspileLog_run (build calls) tb' fromPath D2 code hops' hpath').2.1 hnone
    refine ⟨hops', hpath', hnone, ?_⟩
    intro i hi
    obtain ⟨hchain', _, _, _⟩ := Path_ok_chain calls tb' _ D2 hops' hne hpath'
    have hreg := isChain_pairs calls hops' hchain' i hi
    have hne' := lookup_of_registered calls _ _ hreg
    obtain ⟨fn, hfn⟩ := List.exists_mem_of_ne_nil _ hne'
    have hsched := schedule_transition (build calls) hops' i hi fn hfn
    have hmap : ((build calls).TranspileLog tb' fromPath D2 code).1.map (fun inv => inv.fn) =
        schedule (build calls) hops' := by
      rw [hlog, threadLog_fns, callbacksOf_steps]
    rw [← hmap, List.mem_map] at hsched
    obtain ⟨inv, hinv, hinvfn⟩ := hsched
    exact ⟨inv, hinv, by rw [hinvfn]; exact hfn⟩

/-- The route of `TestMultiStep` from `.md` to `.jsx`, and its run from
`hello.md`, in which every callback returns nil: the transition callbacks of
both hops are invoked. -/
theorem Path_valid_witness :
    ".md" ≠ ".jsx" ∧
    (build callsMultiStep).Path firstFound ".md" ".jsx" = ([".md", ".svelte", ".jsx"], none) ∧
    [".md", ".svelte", ".jsx"].Nodup ∧
    (build callsMultiStep).lookup ".md" ".svelte" ≠ [] ∧
    (build callsMultiStep).lookup ".svelte" ".jsx" ≠ [] ∧
    filepathExt "hello.md" = ".md" ∧
    (∀ inv ∈ ((build callsMultiStep).TranspileLog firstFound "hello.md" ".jsx" [0]).1,
      inv.err = none) ∧
    (∃ hops', (build callsMultiStep).Path firstFound ".md" ".jsx" = (hops', none) ∧
      ((build callsMultiStep).Transpile firstFound "hello.md" ".jsx" [0]).2 = none ∧
      ∀ i, i + 1 < hops'.length →
        ∃ inv ∈ ((build callsMultiStep).TranspileLog firstFound "hello.md" ".jsx" [0]).1,
          inv.fn ∈ (build callsMultiStep).lookup (hops'.getD i "") (hops'.getD (i + 1) "")) ∧
    ((build callsMultiStep).TranspileLog firstFound "hello.md" ".jsx" [0]).1.map
      (fun inv => inv.file.Data) =
      [[0], [5, 0, 5], [3, 5, 0, 5, 3], [4, 3, 5, 0, 5, 3, 4], [2, 4, 3, 5, 0, 5, 3, 4, 2]] :=
  ⟨by decide, by decide,
    (Path_valid callsMultiStep firstFound ".md" ".jsx" [".md", ".svelte", ".jsx"] (by decide)
      (by decide)).2.2.2.1,
    ((Path_valid callsMultiStep firstFound ".md" ".jsx" [".md", ".svelte", ".jsx"] (by decide)
      (by decide)).2.2.2.2.2.1 0 (by decide)).2,
    ((Path_valid callsMultiStep firstFound ".md" ".jsx" [".md", ".svelte", ".jsx"] (by decide)
      (by decide)).2.2.2.2.2.1 1 (by decide)).2,
    by decide, by decide,
    (Path_valid callsMultiStep firstFound ".md" ".jsx" [".md", ".svelte", ".jsx"] (by decide)
      (by decide)).2.2.2.2.2.2 firstFound "hello.md" [0] (by decide) (by decide),
    by decide⟩

/-! ## Self-pair registrations and path-finding -/

theorem Add_self_arcs (t : Transpiler) (A : String) (cb : Callback) :
    (t.Add A A cb).graph.arcs = t.graph.arcs := by
  rw [Add_arcs, if_pos rfl]

theorem isChain_self (calls : List AddCall) (A : String) (cb : Callback) (l : List String) :
    IsChain (calls ++ [⟨A, A, cb⟩]) l ↔ IsChain calls l := by
  have hreg : ∀ a b, Registered (calls ++ [⟨A, A, cb⟩]) a b ↔ Registered calls a b := by
    intro a b
    rw [registered_append]
    constructor
    · rintro (h | ⟨hne, ha, hb⟩)
      · exact h
      · exact absurd (ha.symm.trans hb) hne
    · exact Or.inl
  induction l with
  | nil => exact Iff.rfl
  | cons a l ih =>
      cases l with
      | nil => exact Iff.rfl
      | cons b l =>
          exact and_congr (hreg a b) ih

/-- The hops of two successful `Path` calls between the same dialects, before
and after a self-pair registration and with any tie-breaks, have the same
length. -/
theorem Path_self_length (calls : List AddCall) (A : String) (cb : Callback)
    (tb tb' : TieBreak) (D1 D2 : String) (hops hops' : List String)
    (hp : (build calls).Path tb D1 D2 = (hops, none))
    (hp' : ((build calls).Add A A cb).Path tb' D1 D2 = (hops', none)) :
    hops'.length = hops.length := by
  by_cases hne : D1 = D2
  · subst hne
    simp only [Transpiler.Path, if_true, Prod.mk.injEq, and_true] at hp hp'
    rw [← hp, ← hp']
  · have hb : (build calls).Add A A cb = build (calls ++ [⟨A, A, cb⟩]) :=
      (build_append calls ⟨A, A, cb⟩).symm
    rw [hb] at hp'
    obtain ⟨hchain, hhead, hlast, hmin⟩ := Path_ok_chain calls tb D1 D2 hops hne hp
    obtain ⟨hchain', hhead', hlast', hmin'⟩ := Path_ok_chain _ tb' D1 D2 hops' hne hp'
    cases hops with
    | nil => simp at hhead
    | cons x mid =>
      cases hops' with
      | nil => simp at hhead'
      | cons x' mid' =>
          simp only [List.head?_cons, Option.some.injEq] at hhead hhead'
          subst hhead
          subst hhead'
          have h1 := hmin mid' ((isChain_self calls A cb _).1 hchain') hlast'
          have h2 := hmin' mid ((isChain_self calls A cb _).2 hchain) hlast
          simp only [List.length_cons] at h1 h2 ⊢
          omega

/-- A `Path` that succeeds after a self-pair was registered succeeded before,
with any tie-break, and the other way round. -/
theorem Path_self_iff (calls : List AddCall) (A : String) (cb : Callback)
    (tb tb' : TieBreak) (D1 D2 : String) :
    (∃ hops', ((build calls).Add A A cb).Path tb' D1 D2 = (hops', none)) ↔
      ∃ hops, (build calls).Path tb D1 D2 = (hops, none) := by
  have hb : (build calls).Add A A cb = build (calls ++ [⟨A, A, cb⟩]) :=
    (build_append calls ⟨A, A, cb⟩).symm
  by_cases hne : D1 = D2
  · subst hne
    constructor
    · intro _
      exact ⟨[D1], by simp [Transpiler.Path]⟩
    · intro _
      exact ⟨[D1], by simp [Transpiler.Path]⟩
  · rw [hb]
    constructor
    · rintro ⟨hops', hp'⟩
      obtain ⟨hchain, hhead, hlast, _⟩ := Path_ok_chain _ tb' D1 D2 hops' hne hp'
      cases hops' with
      | nil => simp at hhead
      | cons x mid =>
          simp only [List.head?_cons, Option.some.injEq] at hhead
          subst hhead
          exact Path_of_chain calls tb x D2 hne mid ((isChain_self calls A cb _).1 hchain) hlast
    · rintro ⟨hops, hp⟩
      obtain ⟨hchain, hhead, hlast, _⟩ := Path_ok_chain calls tb D1 D2 hops hne hp
      cases hops with
      | nil => simp at hhead
      | cons x mid =>
          simp only [List.head?_cons, Option.some.injEq] at hhead
          subst hhead
          exact Path_of_chain _ tb' x D2 hne mid ((isChain_self calls A cb _).2 hchain) hlast

/-- C16, as stated, fails: which of several routes of least length the query
returns is left open, and a query whose choice looks at the vertex set returns
another route once a self-pair registration has added a vertex.  With two
routes from `.a` to `.d`, through `.b` and through `.c`, and the tie-break
`byParity`, `Path(".a", ".d")` is `[.a, .b, .d]` before `Add(".x", ".x", cb)`
and `[.a, .c, .d]` after it. -/
theorem Add_self_path_counterexample :
    (build callsDiamond).Path byParity ".a" ".d" = ([".a", ".b", ".d"], none) ∧
    ((build callsDiamond).Add ".x" ".x" (cbWrap 9 9)).Path byParity ".a" ".d" =
      ([".a", ".c", ".d"], none) ∧
    ((build callsDiamond).Add ".x" ".x" (cbWrap 9 9)).graph.arcs =
      (build callsDiamond).graph.arcs ∧
    (build callsDiamond).graph.verts = [0, 1, 2, 3] ∧
    ((build callsDiamond).Add ".x" ".x" (cbWrap 9 9)).graph.verts = [0, 1, 2, 3, 4] := by
  decide

/-- C16, amended: a self-pair registration `Add(A, A, cb)` adds no arc to the
graph, and for every pair of dialects and whatever the tie-breaks of the two
queries, `Path` succeeds after the call exactly when it succeeded before it,
with hops of the same length, and fails with an error that wraps `ErrNoPath`
otherwise; between different dialects the hops after the call are a chain of
the transforms registered before it, from `D1` to `D2`, and no such chain is
shorter. -/
theorem Add_self_path (calls : List AddCall) (A : String) (cb : Callback) :
    ((build calls).Add A A cb).graph.arcs = (build calls).graph.arcs ∧
    ∀ (tb tb' : TieBreak) (D1 D2 : String),
      ((((build calls).Add A A cb).Path tb' D1 D2).2 = none ↔
        ((build calls).Path tb D1 D2).2 = none) ∧
      (((build calls).Add A A cb).Path tb' D1 D2).1.length =
        ((build calls).Path tb D1 D2).1.length ∧
      (∀ e, (((build calls).Add A A cb).Path tb' D1 D2).2 = some e →
        errorsIs e ErrNoPath = true) ∧
      (∀ e, ((build calls).Path tb D1 D2).2 = some e → errorsIs e ErrNoPath = true) ∧
      (∀ hops', D1 ≠ D2 → ((build calls).Add A A cb).Path tb' D1 D2 = (hops', none) →
        IsChain calls hops' ∧ hops'.head? = some D1 ∧ hops'.getLast? = some D2 ∧
        ∀ mid, IsChain calls (D1 :: mid) → (D1 :: mid).getLast? = some D2 →
          hops'.length ≤ mid.length + 1) := by
  refine ⟨Add_self_arcs _ A cb, ?_⟩
  intro tb tb' D1 D2
  have herr : ∀ (t : Transpiler) (tb0 : TieBreak) e, (t.Path tb0 D1 D2).2 = some e →
      errorsIs e ErrNoPath = true := by
    intro t tb0 e he
    cases hp : t.Path tb0 D1 D2 with
    | mk hops oerr =>
      rw [hp] at he
      simp only at he
      subst he
      exact (Path_error t tb0 D1 D2 hops e hp).2
  have hiff := Path_self_iff calls A cb tb tb' D1 D2
  have hsome : ∀ (t : Transpiler) (tb0 : TieBreak),
      (t.Path tb0 D1 D2).2 = none ↔ ∃ hops, t.Path tb0 D1 D2 = (hops, none) := by
    intro t tb0
    constructor
    · intro h
      exact ⟨(t.Path tb0 D1 D2).1, Prod.ext rfl h⟩
    · rintro ⟨hops, h⟩
      rw [h]
  have hb : (build calls).Add A A cb = build (calls ++ [⟨A, A, cb⟩]) :=
    (build_append calls ⟨A, A, cb⟩).symm
  refine ⟨?_, ?_, herr _ tb', herr _ tb, ?_⟩
  · rw [hsome, hsome]
    exact hiff
  · cases hp : (build calls).Path tb D1 D2 with
    | mk hops oerr =>
      cases hp' : ((build calls).Add A A cb).Path tb' D1 D2 with
      | mk hops' oerr' =>
        cases oerr with
        | none =>
            cases oerr' with
            | none => exact Path_self_length calls A cb tb tb' D1 D2 hops hops' hp hp'
            | some e' =>
                exfalso
                obtain ⟨h2, hh2⟩ := hiff.2 ⟨hops, hp⟩
                rw [hp'] at hh2
                cases hh2
        | some e =>
            cases oerr' with
            | none =>
                exfalso
                obtain ⟨h2, hh2⟩ := hiff.1 ⟨hops', hp'⟩
                rw [hp] at hh2
                cases hh2
            | some e' =>
                obtain ⟨hnil, _⟩ := Path_error _ tb D1 D2 hops e hp
                obtain ⟨hnil', _⟩ := Path_error _ tb' D1 D2 hops' e' hp'
                simp [hnil, hnil']
  · intro hops' hne hp'
    rw [hb] at hp'
    obtain ⟨hchain, hhead, hlast, hmin⟩ := Path_ok_chain _ tb' D1 D2 hops' hne hp'
    refine ⟨(isChain_self calls A cb _).1 hchain, hhead, hlast, ?_⟩
    intro mid hmid hl
    exact hmin mid ((isChain_self calls A cb _).2 hmid) hl

/-- The two routes from `.a` to `.d` and the self-pair `(.x, .x)`: the hops
before and after the call differ and have the same length; and the history of
`TestNoPath` followed by a first `.md` refinement: `Path` from `.md` to `.jsx`
fails before and after, with a NoPath error each time. -/
theorem Add_self_path_witness :
    (((build callsDiamond).Add ".x" ".x" (cbWrap 9 9)).Path byParity ".a" ".d").1.length =
      ((build callsDiamond).Path byParity ".a" ".d").1.length ∧
    ((build callsDiamond).Path byParity ".a" ".d").1.length = 3 ∧
    (build callsNoPath).Path firstFound ".md" ".jsx" =
      ([], some (errNoPathFromTo ErrNoPath ".md" ".jsx")) ∧
    ((build callsNoPath).Add ".md" ".md" (cbWrap 3 3)).Path firstFound ".md" ".jsx" =
      ([], some (errWrapped dijkstra.ErrNoPath)) ∧
    errorsIs (errWrapped dijkstra.ErrNoPath) ErrNoPath = true ∧
    errorsIs (errNoPathFromTo ErrNoPath ".md" ".jsx") ErrNoPath = true :=
  ⟨((Add_self_path callsDiamond ".x" (cbWrap 9 9)).2 byParity byParity ".a" ".d").2.1,
    by decide, by decide, by decide,
    ((Add_self_path callsNoPath ".md" (cbWrap 3 3)).2 firstFound firstFound ".md" ".jsx").2.2.1
      (errWrapped dijkstra.ErrNoPath) (by decide),
    ((Add_self_path callsNoPath ".md" (cbWrap 3 3)).2 firstFound firstFound ".md"
      ".jsx").2.2.2.1 (errNoPathFromTo ErrNoPath ".md" ".jsx") (by decide)⟩

end transpiler
